import Mathlib

/-!
Verification of the django-ansible-base RBAC engine against its specification.

The development shallowly embeds the Python sources:
content types and primary keys become natural numbers, Django querysets
become list filters over an explicit database state, and functions that can
raise become `Except`-valued functions.  Each embedded definition mirrors one
Python function; the module/namespace indicates which source file it comes
from.  Settings and the permission registry are passed as explicit
environment records.
-/

/-- Character-list prefix test, mirroring Python str.startswith. -/
def isPrefixList : List Char → List Char → Bool
  | [], _ => true
  | _ :: _, [] => false
  | a :: as, b :: bs => a = b && isPrefixList as bs

/-- Auxiliary substring scan over the haystack character list. -/
def containsSubAux (needle : List Char) : List Char → Bool
  | [] => isPrefixList needle []
  | c :: rest => isPrefixList needle (c :: rest) || containsSubAux needle rest

/-- Python `sub in s` substring test. -/
def containsSub (s sub : String) : Bool := containsSubAux sub.data s.data

/-- Python `s.startswith(pre)`. -/
def startsWithStr (s pre : String) : Bool := isPrefixList pre.data s.data

/-- Python `s.split('_', 1)[0]`: the action part of a codename. -/
def actionOf (s : String) : String := String.mk (s.data.takeWhile (fun c => c ≠ '_'))

/-- Modelled from the spec: the helper `is_add_perm` of
`ansible_base.lib.utils.models` is imported by the validators but absent from
the source tree; per the data-model section a codename of the shape
`add_<model-name>` denotes the distinguished create-child permission, so the
helper tests for the `add_` action. -/
def is_add_perm (codename : String) : Bool := startsWithStr codename "add_"

/-- A permission atom: `(codename, content_type)`, with content types
identified with their integer ids (the registry maps models one-to-one to
content types). -/
structure Perm where
  codename : String
  ct : Nat
deriving DecidableEq, Repr

namespace Validators

/-!
Embedding of `ansible_base/rbac/validators.py` (`validate_permissions_for_model`
and `system_roles_enabled`).  The registry and the Django settings it consults
are collected in `VEnv`.
-/

/-- Registry and settings data consulted by the role-definition validator. -/
structure VEnv where
  /-- `ANSIBLE_BASE_ALLOW_SINGLETON_USER_ROLES` -/
  allowSingletonUserRoles : Bool
  /-- `ANSIBLE_BASE_ALLOW_SINGLETON_TEAM_ROLES` -/
  allowSingletonTeamRoles : Bool
  /-- `permission_registry.team_permission` (the `member_team` codename) -/
  teamPermission : String
  /-- `permission_registry.get_parent_model`, on content-type ids -/
  parentOf : Nat → Option Nat
  /-- `permission_registry.get_child_models`: pairs of (filter path id, child content type) -/
  childModels : Nat → List (Nat × Nat)
  /-- `permission_registry.all_registered_models` as content-type ids -/
  registered : List Nat
  /-- model name of a content type, for forming codenames like `view_<model>` -/
  modelName : Nat → String

/-- `validators.system_roles_enabled` -/
def system_roles_enabled (env : VEnv) : Bool :=
  env.allowSingletonUserRoles || env.allowSingletonTeamRoles

/-- Insert into a Python `defaultdict(list)`: append preserving key insertion
order. -/
def groupAppend (groups : List (Option Nat × List Perm)) (k : Option Nat) (p : Perm) :
    List (Option Nat × List Perm) :=
  match groups with
  | [] => [(k, [p])]
  | (k', ps) :: rest =>
      if k' = k then (k', ps ++ [p]) :: rest else (k', ps) :: groupAppend rest k p

/-- The per-permission body of the grouping loop in
`validate_permissions_for_model`: computes the model the permission is filed
under (the parent model for add permissions), raising the errors the loop
raises. -/
def roleModelFor (env : VEnv) (content_type : Option Nat) (p : Perm) :
    Except String (Option Nat) :=
  ((if is_add_perm p.codename then
      match env.parentOf p.ct with
      | none =>
          if ¬ system_roles_enabled env then
            .error "permission requires system-wide roles, which are not enabled"
          else
            .ok (none : Option Nat)
      | some par => .ok (some par)
    else
      .ok (some p.ct)) : Except String (Option Nat)).bind (fun roleModel =>
    match content_type with
    | none => .ok roleModel
    | some ct =>
        match roleModel with
        | none =>
            -- Python dereferences role_model._meta with role_model = None here
            .error "AttributeError: NoneType has no attribute _meta"
        | some rm =>
            if rm ≠ ct then
              if (env.childModels ct).all (fun pc => pc.2 ≠ p.ct) then
                .error "permission is not valid for the role content type"
              else
                .ok roleModel
            else
              .ok roleModel)

/-- The grouping loop of `validate_permissions_for_model`. -/
def buildGroups (env : VEnv) (content_type : Option Nat) (perms : List Perm) :
    Except String (List (Option Nat × List Perm)) :=
  perms.foldlM (fun groups p => do
    let rm ← roleModelFor env content_type p
    pure (groupAppend groups rm p)) []

/-- One group passes the view check when some member breaks the scan loop:
either its codename contains `view` as a substring, or the group is the
global (None) group and the member is an add permission. -/
def groupHasView (k : Option Nat) (ps : List Perm) : Bool :=
  ps.any (fun p => containsSub p.codename "view" || (k = none && is_add_perm p.codename))

/-- `validators.validate_permissions_for_model` -/
def validate_permissions_for_model (env : VEnv) (perms : List Perm)
    (content_type : Option Nat) : Except String Unit :=
  ((match content_type with
    | none =>
        if ¬ system_roles_enabled env then
          .error "System-wide roles are not enabled"
        else if env.teamPermission ∈ perms.map (fun p => p.codename) then
          .error "the team member permission can not be used in global roles"
        else
          .ok ()
    | some _ => .ok ()) : Except String Unit).bind (fun _ =>
    (buildGroups env content_type perms).bind (fun groups =>
      -- unregistered-model check, then view check over groups in insertion order
      if groups.any (fun g => match g.1 with
          | some m => m ∉ env.registered
          | none => false) then
        .error "Permissions for unregistered models were given"
      else if groups.all (fun g => groupHasView g.1 g.2) then
        .ok ()
      else
        .error "Permissions for model need to include view"))

end Validators

namespace Managers

/-!
Embedding of the `RoleDefinitionManager` (`ansible_base/rbac/models/managers.py`,
matching `ansible_base/models/rbac.py` for the permissions-match path):
`get_or_create` and `create_from_permissions` over an explicit store of role
definitions.
-/

/-- A persisted role definition row. -/
structure StoredRD where
  id : Nat
  name : String
  contentType : Option Nat
  managed : Bool
  permissions : List String
deriving DecidableEq, Repr

/-- Environment of the manager: the validator environment plus the permission
catalog used to resolve codenames. -/
structure MgrEnv where
  venv : Validators.VEnv
  catalog : List Perm

/-- `RoleDefinitionManager.create_from_permissions`: resolve each codename in
the catalog, validate, then create the new role definition. -/
def create_from_permissions (env : MgrEnv) (store : List StoredRD) (nextId : Nat)
    (permissions : List String) (name : String) (ct : Option Nat) (managed : Bool) :
    Except String (StoredRD × List StoredRD) := do
  let permList ← permissions.mapM (fun c =>
    match env.catalog.find? (fun p => p.codename = c) with
    | some p => pure p
    | none => throw "Permission matching query does not exist")
  Validators.validate_permissions_for_model env.venv permList ct
  let rd : StoredRD := ⟨nextId, name, ct, managed, permissions⟩
  pure (rd, store ++ [rd])

/-- `RoleDefinitionManager.get_or_create`: with a non-empty permissions
argument, scan existing role definitions for one whose codename set equals the
requested set and return it unchanged; otherwise create.  The keyword
arguments (`name`, `content_type`, `managed`, merged with `defaults`) are only
used on the create path. -/
def get_or_create (env : MgrEnv) (store : List StoredRD) (nextId : Nat)
    (permissions : List String) (name : String) (ct : Option Nat) (managed : Bool) :
    Except String (StoredRD × Bool × List StoredRD) :=
  if permissions ≠ [] then
    match store.find? (fun rd => rd.permissions.toFinset = permissions.toFinset) with
    | some rd => .ok (rd, false, store)
    | none =>
        (create_from_permissions env store nextId permissions name ct managed).map
          (fun r => (r.1, true, r.2))
  else
    -- plain Django get_or_create by the keyword arguments (name is unique)
    match store.find? (fun rd => rd.name = name) with
    | some rd => .ok (rd, false, store)
    | none =>
        .ok (⟨nextId, name, ct, managed, []⟩, true, store ++ [⟨nextId, name, ct, managed, []⟩])

end Managers

/-!
## Database state of the RBAC engine

The executing composition of the engine is `ansible_base/models/rbac.py`
(models), `ansible_base/rbac/caching.py` and `ansible_base/rbac/triggers.py`,
which import one another.  Its tables, with integer primary keys throughout:
object roles, the user/team membership join tables, the computed
`provides_teams` join table, and the `RoleEvaluation` cache.
-/

/-- An `ObjectRole` row: `(role_definition, content_type, object_id)`. -/
structure ObjRole where
  id : Nat
  rdId : Nat
  ct : Nat
  objId : Nat
deriving DecidableEq, Repr

/-- A `RoleEvaluation` row. -/
structure EvalRow where
  id : Nat
  roleId : Nat
  codename : String
  ct : Nat
  objId : Nat
deriving DecidableEq, Repr

/-- The mutable database state. -/
structure Db where
  objectRoles : List ObjRole
  /-- `ObjectRole.users` join rows `(user_id, object_role_id)` -/
  userEdges : List (Nat × Nat)
  /-- `ObjectRole.teams` join rows `(team_id, object_role_id)` -/
  teamEdges : List (Nat × Nat)
  /-- `ObjectRole.provides_teams` join rows `(object_role_id, team_id)` -/
  providesTeams : List (Nat × Nat)
  evals : List EvalRow
  nextRoleId : Nat
  nextEvalId : Nat
deriving DecidableEq, Repr

/-- Object-role ids held directly by a user (`user.has_roles`). -/
def userRoleIds (db : Db) (userId : Nat) : List Nat :=
  (db.userEdges.filter (fun e => e.1 = userId)).map (fun e => e.2)

/-- Object-role ids held directly by a team (`team.has_roles`). -/
def teamRoleIds (db : Db) (teamId : Nat) : List Nat :=
  (db.teamEdges.filter (fun e => e.1 = teamId)).map (fun e => e.2)

namespace Evals

/-!
Embedding of `ansible_base/rbac/evaluations.py` together with the evaluation
queryset methods of `RoleEvaluation` (`ansible_base/models/rbac.py`).
-/

/-- The `_meta` options of a host model that the codename validation consults. -/
structure ModelMeta where
  modelName : String
  /-- codenames from `_meta.permissions` -/
  metaPermissions : List String
  /-- actions from `_meta.default_permissions` -/
  defaultPermissions : List String
deriving DecidableEq, Repr

/-- `evaluations.validate_codename_for_model` -/
def validate_codename_for_model (codename : String) (model : ModelMeta) :
    Except String String :=
  let name := if ¬ model.modelName.data.isEmpty ∧ ¬ codename.data.contains '_' then
      codename ++ "_" ++ model.modelName
    else codename
  if startsWithStr name "add" then
    if model.modelName ≠ "organization" then
      .error "Add permissions only valid for organization"
    else
      .ok name
  else
    if name ∉ model.metaPermissions ∧ actionOf name ∉ model.defaultPermissions then
      .error "The permission is not valid for this model"
    else
      .ok name

/-- The settings flags consulted by `has_super_permission`. -/
structure EvalSettings where
  /-- `ROLE_BYPASS_SUPERUSER_FLAGS` -/
  superuserFlags : List String
  /-- `ROLE_BYPASS_ACTION_FLAGS` as ordered items -/
  actionFlags : List (String × String)
deriving Repr

/-- A user as seen by the evaluator: its boolean attributes and the result of
`bound_singleton_permissions` (the global-permission set computed from
system-wide role assignments). -/
structure EvalUser where
  id : Nat
  flags : String → Bool
  singletonPermissions : List String

/-- `evaluations.has_super_permission` -/
def has_super_permission (settings : EvalSettings) (user : EvalUser) (codename : String) : Bool :=
  settings.superuserFlags.any (fun f => user.flags f) ||
    settings.actionFlags.any (fun af => startsWithStr codename af.1 && user.flags af.2)

/-- `RoleEvaluation.has_obj_perm`: an evaluation tuple exists for some role in
`user.has_roles` matching the object and codename. -/
def roleEvaluationHasObjPerm (db : Db) (userId : Nat) (objCt objId : Nat) (codename : String) : Bool :=
  db.evals.any (fun e =>
    decide (e.roleId ∈ userRoleIds db userId) && e.ct = objCt && e.objId = objId &&
      e.codename = codename)

/-- `RoleEvaluation.get_permissions`: codenames of evaluation tuples on the
object for roles in `user.has_roles`. -/
def get_permissions (db : Db) (userId : Nat) (objCt objId : Nat) : List String :=
  ((db.evals.filter (fun e =>
    decide (e.roleId ∈ userRoleIds db userId) && e.ct = objCt && e.objId = objId)).map
      (fun e => e.codename))

/-- `evaluations.bound_has_obj_perm` (the `has_obj_perm` method attached to the
user model). -/
def bound_has_obj_perm (settings : EvalSettings) (db : Db) (user : EvalUser)
    (objModel : ModelMeta) (objCt objId : Nat) (codename : String) : Except String Bool :=
  (validate_codename_for_model codename objModel).bind (fun full =>
    if has_super_permission settings user codename then .ok true
    else if full ∈ user.singletonPermissions then .ok true
    else .ok (roleEvaluationHasObjPerm db user.id objCt objId full))

end Evals

namespace Machine

/-!
Embedding of the executing RBAC write path: `ObjectRole` cache methods from
`ansible_base/models/rbac.py`, the cache computations of
`ansible_base/rbac/caching.py`, and the trigger logic of
`ansible_base/rbac/triggers.py`.
-/

/-- An evaluation-tuple key `(codename, content_type_id, object_id)` as used
by `obj_perm_id` for in-memory hashing. -/
abbrev EvalKey := String × Nat × Nat

/-- A role definition as the machine consumes it. -/
structure RoleDefn where
  id : Nat
  name : String
  perms : List Perm
deriving DecidableEq, Repr

/-- The static environment: registry data, registered resources (reached only
through child-object queries), teams, and settings.  The machine operations
never mutate any of this. -/
structure MEnv where
  rds : List RoleDefn
  /-- teams as `(team_id, organization_id)` rows -/
  teams : List (Nat × Nat)
  teamCt : Nat
  orgCt : Nat
  /-- `permission_registry.team_permission` -/
  teamPermission : String
  /-- `permission_registry.get_child_models` on content types:
  `(filter path, child content type)` in registration order -/
  childModels : Nat → List (Nat × Nat)
  /-- `child_model.objects.filter(**{filter_path: id}).values_list('id')`:
  arguments are child content type, filter path, parent object id -/
  childQuery : Nat → Nat → Nat → List Nat
  /-- `ROLE_TEAM_TEAM_ALLOWED` -/
  teamTeamAllowed : Bool
  /-- `ROLE_TEAM_ORG_ALLOWED` -/
  teamOrgAllowed : Bool
  /-- `ROLE_TEAM_ORG_TEAM_ALLOWED` -/
  teamOrgTeamAllowed : Bool

/-- Permissions of a role definition by id (the prefetched
`permissions_for_object_role`). -/
def rdPerms (env : MEnv) (rdId : Nat) : List Perm :=
  match env.rds.find? (fun rd => rd.id = rdId) with
  | some rd => rd.perms
  | none => []

/-- Add an element to a Python set, modelled as order-preserving dedup append. -/
def listInsert [DecidableEq α] (acc : List α) (k : α) : List α :=
  if k ∈ acc then acc else acc ++ [k]

/-- `ObjectRole.expected_direct_permissions`: the evaluation-tuple keys this
object role should directly produce.  The `cached_id_lists` memoization of the
source only avoids repeating identical queries and is semantically
transparent, so it is not modelled. -/
def expected_direct_permissions (env : MEnv) (role : ObjRole) : List EvalKey :=
  (rdPerms env role.rdId).foldl (fun acc perm =>
    if perm.ct = role.ct then
      listInsert acc (perm.codename, role.ct, role.objId)
    else if startsWithStr perm.codename "add" then
      -- the permission model must be a child model of the role content type
      if (env.childModels role.ct).any (fun pc => pc.2 = perm.ct) then
        listInsert acc (perm.codename, role.ct, role.objId)
      else acc
    else
      -- child-type propagation: first matching child model entry wins
      match (env.childModels role.ct).find? (fun pc => pc.2 = perm.ct) with
      | some pc =>
          (env.childQuery perm.ct pc.1 role.objId).foldl
            (fun a i => listInsert a (perm.codename, perm.ct, i)) acc
      | none => acc) []

/-- Evaluation keys expected for a role including the team-inherited union of
`needed_cache_updates`: for every team in `provides_teams`, the direct
expectations of every role that team holds. -/
def expectedOf (env : MEnv) (db : Db) (role : ObjRole) : List EvalKey :=
  let direct := expected_direct_permissions env role
  ((db.providesTeams.filter (fun e => e.1 = role.id)).map (fun e => e.2)).foldl
    (fun acc t =>
      (teamRoleIds db t).foldl (fun acc rid =>
        match db.objectRoles.find? (fun r => r.id = rid) with
        | some tr => (expected_direct_permissions env tr).foldl listInsert acc
        | none => acc) acc) direct

/-- Replace-or-append into the `existing_partials` dict keyed by
`obj_perm_id`. -/
def upsertRow (m : List (EvalKey × EvalRow)) (k : EvalKey) (e : EvalRow) :
    List (EvalKey × EvalRow) :=
  match m with
  | [] => [(k, e)]
  | (k', e') :: rest => if k' = k then (k, e) :: rest else (k', e') :: upsertRow rest k e

/-- `ObjectRole.needed_cache_updates`: row ids to delete and keys to add. -/
def needed_cache_updates (env : MEnv) (db : Db) (role : ObjRole) :
    List Nat × List EvalKey :=
  let existingPartials := (db.evals.filter (fun e => e.roleId = role.id)).foldl
    (fun m e => upsertRow m (e.codename, e.ct, e.objId) e) []
  let expected := expectedOf env db role
  let existingSet := existingPartials.map (fun kv => kv.1)
  let toDelete := (existingPartials.filter (fun kv => kv.1 ∉ expected)).map (fun kv => kv.2.id)
  let toAdd := expected.filter (fun k => k ∉ existingSet)
  (toDelete, toAdd)

/-- `caching.compute_object_role_permissions` over a dirty set of object-role
ids: collect all additions and deletions, then apply one bulk insert and one
bulk delete.  The source iterates a Python set in unspecified order; the
embedding iterates the roles in database order. -/
def compute_object_role_permissions (env : MEnv) (db : Db) (roleIds : Finset Nat) : Db :=
  let targets := db.objectRoles.filter (fun r => r.id ∈ roleIds)
  let results := targets.map (fun r => (r, needed_cache_updates env db r))
  let allDel := results.foldl (fun acc rr => acc ++ rr.2.1) []
  let allAdd := results.foldl (fun acc rr => acc ++ rr.2.2.map (fun k => (rr.1.id, k))) []
  let newRows := allAdd.enum.map (fun ie =>
    { id := db.nextEvalId + ie.1, roleId := ie.2.1, codename := ie.2.2.1,
      ct := ie.2.2.2.1, objId := ie.2.2.2.2 : EvalRow })
  { db with
      evals := db.evals.filter (fun e => e.id ∉ allDel) ++ newRows,
      nextEvalId := db.nextEvalId + allAdd.length }

/-- The evaluation rows the bulk insert materializes for a single freshly
created object role (used to state the reconciliation of the simple
assignment path). -/
def freshRoleRows (env : MEnv) (db2 : Db) (R : ObjRole) : List EvalRow :=
  (((expected_direct_permissions env R).map (fun k => (R.id, k))).enum).map (fun ie =>
    { id := db2.nextEvalId + ie.1, roleId := ie.2.1, codename := ie.2.2.1,
      ct := ie.2.2.2.1, objId := ie.2.2.2.2 : EvalRow })

/-- Association-list lookup (Python `dict.get`). -/
def alistFind (m : List (Nat × α)) (k : Nat) : Option α :=
  (m.find? (fun kv => kv.1 = k)).map (fun kv => kv.2)

/-- `setdefault(k, []).append(v)` on a dict of lists. -/
def appendAt (m : List (Nat × List Nat)) (k v : Nat) : List (Nat × List Nat) :=
  match m with
  | [] => [(k, [v])]
  | (k', vs) :: rest => if k' = k then (k', vs ++ [v]) :: rest else (k', vs) :: appendAt rest k v

/-- The parent loop of `all_team_parents`, with `acc` the accumulating
`parent_team_ids` set (a dedup list standing in for a Python set) and `recur`
the recursive call at one less budget. -/
def allTeamParentsFor (recur : Nat → (Nat → List Nat) → List Nat → Option (List Nat)) :
    List Nat → (Nat → List Nat) → List Nat → List Nat → Option (List Nat)
  | [], _, _, acc => some acc
  | p :: rest, ttp, seen, acc =>
      if p ∈ seen then
        allTeamParentsFor recur rest ttp seen acc
      else
        match recur p ttp (listInsert acc p) with
        | none => none
        | some sub => allTeamParentsFor recur rest ttp seen (sub.foldl listInsert (listInsert acc p))

/-- `caching.all_team_parents`, with an explicit recursion budget: `none`
means the budget was exhausted, so the Python original recurses at least that
deep.  The source creates a fresh accumulator set per call, adds each
unskipped parent to it, and passes that same accumulator as `seen` to the
recursive call. -/
def all_team_parents : Nat → Nat → (Nat → List Nat) → List Nat → Option (List Nat)
  | 0, _, _, _ => none
  | fuel + 1, teamId, ttp, seen => allTeamParentsFor (all_team_parents fuel) (ttp teamId) ttp seen []

/-- The transitive-closure loop of `compute_team_member_roles`: for each team
with direct member roles, union the direct roles of all its computed
ancestors. -/
def allMemberRolesLoop (fuel : Nat) (ttpF : Nat → List Nat)
    (direct : List (Nat × List Nat)) : List (Nat × List Nat) → Option (List (Nat × List Nat))
  | [] => some []
  | (t, rs) :: rest =>
      match all_team_parents fuel t ttpF [] with
      | none => none
      | some parents =>
          match allMemberRolesLoop fuel ttpF direct rest with
          | none => none
          | some acc =>
              some ((t, parents.foldl (fun s p => ((alistFind direct p).getD []).foldl listInsert s)
                (rs.foldl listInsert [])) :: acc)

/-- One iteration of the persistence loop of `compute_team_member_roles`:
diff one team's `member_roles` set against the computed expectation and apply
additions and removals (skipping empty diffs, as the source does). -/
def persistTeamStep (allMap : List (Nat × List Nat)) (db : Db) (t : Nat × Nat) : Db :=
  let tid := t.1
  let existing := (db.providesTeams.filter (fun e => e.2 = tid)).map (fun e => e.1)
  let expected := (alistFind allMap tid).getD []
  let toAdd := expected.filter (fun r => r ∉ existing)
  let toRemove := existing.filter (fun r => r ∉ expected)
  let db1 := if toAdd ≠ [] then
      { db with providesTeams := db.providesTeams ++ toAdd.map (fun r => (r, tid)) }
    else db
  if toRemove ≠ [] then
    { db1 with providesTeams := db1.providesTeams.filter (fun e => ¬(e.2 = tid ∧ e.1 ∈ toRemove)) }
  else db1

/-- The persistence loop of `compute_team_member_roles` over all teams. -/
def persistMemberRoles (env : MEnv) (allMap : List (Nat × List Nat)) (db : Db) : Db :=
  env.teams.foldl (persistTeamStep allMap) db

/-- `caching.compute_team_member_roles`: recompute the `provides_teams`
relation for all teams.  Join multiplicity of the `teams__isnull=False`
queryset only duplicates appended edges, which no consumer distinguishes, so
the embedding iterates each member role once. -/
def otmOf (env : MEnv) : List (Nat × List Nat) :=
  env.teams.foldl (fun m t => appendAt m t.2 t.1) []

/-- The object roles whose definition carries the `member_team` codename. -/
def memberRolesOf (env : MEnv) (db : Db) : List ObjRole :=
  db.objectRoles.filter (fun r =>
    (rdPerms env r.rdId).any (fun p => p.codename = env.teamPermission))

/-- Teams mapped to the roles directly granting membership in them. -/
def directOf (env : MEnv) (db : Db) : List (Nat × List Nat) :=
  (memberRolesOf env db).foldl (fun m r =>
    if r.ct = env.teamCt then appendAt m r.objId r.id
    else if r.ct = env.orgCt then
      match alistFind (otmOf env) r.objId with
      | none => m
      | some ts => ts.foldl (fun m t => appendAt m t r.id) m
    else m) []

/-- Teams mapped to the actor teams of the member roles on them. -/
def ttpOf (env : MEnv) (db : Db) : List (Nat × List Nat) :=
  (memberRolesOf env db).foldl (fun m r =>
    ((db.teamEdges.filter (fun e => e.2 = r.id)).map (fun e => e.1)).foldl (fun m actorTeam =>
      if r.ct = env.teamCt then appendAt m r.objId actorTeam
      else if r.ct = env.orgCt then
        match alistFind (otmOf env) r.objId with
        | none => m
        | some ts => ts.foldl (fun m t => appendAt m t actorTeam) m
      else m) m) []

/-- The team-to-parent-teams lookup of `compute_team_member_roles`. -/
def ttpFOf (env : MEnv) (db : Db) : Nat → List Nat :=
  fun t => (alistFind (ttpOf env db) t).getD []

def compute_team_member_roles (fuel : Nat) (env : MEnv) (db : Db) : Option Db :=
  (allMemberRolesLoop fuel (ttpFOf env db) (directOf env db) (directOf env db)).map
    (fun allMap => persistMemberRoles env allMap db)

/-- `triggers.team_ancestor_roles`: ids of object roles holding a
`member_team` evaluation tuple on the team. -/
def team_ancestor_roles (env : MEnv) (db : Db) (teamId : Nat) : Finset Nat :=
  ((db.evals.filter (fun e =>
    e.codename = env.teamPermission ∧ e.objId = teamId ∧ e.ct = env.teamCt)).map
      (fun e => e.roleId)).toFinset

/-- `ObjectRole.descendent_roles`: roles held by any team this role provides
membership to. -/
def descendent_roles (db : Db) (roleId : Nat) : Finset Nat :=
  ((db.providesTeams.filter (fun e => e.1 = roleId)).map (fun e => e.2)).foldl
    (fun acc t => acc ∪ (teamRoleIds db t).toFinset) ∅

/-- Errors raised along the assignment write path. -/
inductive RbacError where
  | validation : String → RbacError
  | fuelExhausted : RbacError
deriving DecidableEq, Repr

/-- An actor: a user or a registered team. -/
inductive Actor where
  | user : Nat → Actor
  | team : Nat → Actor
deriving DecidableEq, Repr

/-- `triggers.validate_assignment_enabled` -/
def validate_assignment_enabled (env : MEnv) (actor : Actor) (ctModel : Nat)
    (hasTeamPerm : Bool) : Except RbacError Unit :=
  if env.teamTeamAllowed && env.teamOrgAllowed && env.teamOrgTeamAllowed then
    .ok ()
  else
    match actor with
    | .user _ => .ok ()
    | .team _ =>
        if !env.teamTeamAllowed && ctModel = env.teamCt then
          .error (.validation "Assigning team permissions to other teams is not allowed")
        else if !env.teamOrgAllowed && ctModel = env.orgCt then
          .error (.validation "Assigning organization permissions to teams is not allowed")
        else if !env.teamOrgTeamAllowed && ctModel = env.orgCt && hasTeamPerm then
          .error (.validation "Assigning organization member permissions to teams is not allowed")
        else
          .ok ()

/-- Does the object role still have user or team actors? -/
def roleHasActors (db : Db) (rid : Nat) : Bool :=
  db.userEdges.any (fun e => e.2 = rid) || db.teamEdges.any (fun e => e.2 = rid)

/-- `triggers.needed_updates_on_assignment` -/
def needed_updates_on_assignment (env : MEnv) (db : Db) (rd : RoleDefn) (actor : Actor)
    (role : ObjRole) (created giving : Bool) : Except RbacError (Bool × Finset Nat) :=
  (validate_assignment_enabled env actor role.ct
      (rd.perms.any (fun p => p.codename = env.teamPermission))).bind (fun _ =>
    let toU0 : Finset Nat := if created then {role.id} else ∅
    let hasTeamPerm := rd.perms.any (fun p => p.codename = env.teamPermission)
    let step1 :=
      match actor with
      | .user _ => (toU0, false)
      | .team t =>
          let s1 := toU0 ∪ team_ancestor_roles env db t
          ((if !giving then s1 ∪ descendent_roles db role.id else s1), true)
    let toU1 := step1.1
    let changesTeamOwners := step1.2
    let step2 :=
      if !giving && !roleHasActors db role.id then (toU1.erase role.id, true) else (toU1, false)
    let toU2 := step2.1
    let deleted := step2.2
    let toU3 := if (hasTeamPerm && created) || (giving && changesTeamOwners) then
        toU2 ∪ descendent_roles db role.id
      else toU2
    .ok (hasTeamPerm && (created || deleted || changesTeamOwners), toU3))

/-- Idempotent m2m `add`. -/
def addEdge (edges : List (Nat × Nat)) (a rid : Nat) : List (Nat × Nat) :=
  if (a, rid) ∈ edges then edges else edges ++ [(a, rid)]

/-- m2m `remove`. -/
def removeEdge (edges : List (Nat × Nat)) (a rid : Nat) : List (Nat × Nat) :=
  edges.filter (fun e => ¬(e.1 = a ∧ e.2 = rid))

/-- `ObjectRole.delete()` with the Django foreign-key cascades: membership
edges, `provides_teams` rows and evaluation tuples of the role go with it. -/
def deleteRoleCascade (db : Db) (rid : Nat) : Db :=
  { db with
      objectRoles := db.objectRoles.filter (fun r => r.id ≠ rid),
      userEdges := db.userEdges.filter (fun e => e.2 ≠ rid),
      teamEdges := db.teamEdges.filter (fun e => e.2 ≠ rid),
      providesTeams := db.providesTeams.filter (fun e => e.1 ≠ rid),
      evals := db.evals.filter (fun e => e.roleId ≠ rid) }

/-- `triggers.update_after_assignment` -/
def update_after_assignment (fuel : Nat) (env : MEnv) (updateTeams : Bool)
    (toUpdate : Finset Nat) (db : Db) : Except RbacError Db := do
  let db1 ←
    if updateTeams then
      match compute_team_member_roles fuel env db with
      | none => throw RbacError.fuelExhausted
      | some d => pure d
    else
      pure db
  pure (compute_object_role_permissions env db1 toUpdate)

/-- `RoleDefinition.give_or_remove_permission` (`ansible_base/models/rbac.py`).
No tracker is registered in the environment, so the tracker tail of the source
is a no-op. -/
def give_or_remove_permission (env : MEnv) (fuel : Nat) (db : Db) (rd : RoleDefn)
    (actor : Actor) (objCt objId : Nat) (giving : Bool) : Except RbacError Db :=
  match db.objectRoles.find? (fun r => r.rdId = rd.id && r.ct = objCt && r.objId = objId),
      giving with
  | none, false => .ok db  -- nothing to do
  | found, _ =>
    let roleDbCreated :=
      match found with
      | some r => (r, db, false)
      | none =>
          let r : ObjRole := ⟨db.nextRoleId, rd.id, objCt, objId⟩
          (r, { db with objectRoles := db.objectRoles ++ [r], nextRoleId := db.nextRoleId + 1 }, true)
    let role := roleDbCreated.1
    let db0 := roleDbCreated.2.1
    let created := roleDbCreated.2.2
    do
    -- NOTE: the source hardcodes giving=True in this call
    let upd ← needed_updates_on_assignment env db0 rd actor role created true
    let updateTeams := upd.1
    let toUpdate := upd.2
    let db1 :=
      match actor with
      | .user u =>
          if giving then { db0 with userEdges := addEdge db0.userEdges u role.id }
          else { db0 with userEdges := removeEdge db0.userEdges u role.id }
      | .team t =>
          if giving then { db0 with teamEdges := addEdge db0.teamEdges t role.id }
          else { db0 with teamEdges := removeEdge db0.teamEdges t role.id }
    let db2toUpdate2 :=
      if !giving && !roleHasActors db1 role.id then
        (deleteRoleCascade db1 role.id, toUpdate.erase role.id)
      else (db1, toUpdate)
    update_after_assignment fuel env updateTeams db2toUpdate2.2 db2toUpdate2.1

/-- `RoleDefinition.give_permission` -/
def give_permission (env : MEnv) (fuel : Nat) (db : Db) (rd : RoleDefn) (actor : Actor)
    (objCt objId : Nat) : Except RbacError Db :=
  give_or_remove_permission env fuel db rd actor objCt objId true

/-- `RoleDefinition.remove_permission` -/
def remove_permission (env : MEnv) (fuel : Nat) (db : Db) (rd : RoleDefn) (actor : Actor)
    (objCt objId : Nat) : Except RbacError Db :=
  give_or_remove_permission env fuel db rd actor objCt objId false

/-- Deleting a user from the host application: Django cascades the
`ObjectRole.users` join rows referencing the user; the engine registers no
signal for the user model (`connect_rbac_signals` is attached only to
registered resource models), so nothing else happens. -/
def delete_user_cascade (db : Db) (userId : Nat) : Db :=
  { db with userEdges := db.userEdges.filter (fun e => e.1 ≠ userId) }

end Machine

namespace NewGen

/-!
Embedding of the split model generation: `ansible_base/rbac/models/object_role.py`
and `ansible_base/rbac/models/evaluation.py`, where the evaluation cache has an
integer partition (`RoleEvaluation`) and a UUID partition (`RoleEvaluationUUID`)
and `ObjectRole.object_id` is text converted to the native primary-key type.
-/

/-- Primary-key type of a resource model (`get_evaluation_model` dispatch). -/
inductive PkType where
  | int
  | uuid
deriving DecidableEq, Repr

/-- A primary-key value after `to_python` conversion: the Python runtime type
of the converted object id. -/
inductive PkVal where
  | intId : Nat → PkVal
  | uuidId : Nat → PkVal
deriving DecidableEq, Repr

/-- `type(identifier[-1])`: the runtime type tag of a converted id. -/
def pkTag : PkVal → PkType
  | .intId _ => .int
  | .uuidId _ => .uuid

/-- `model._meta.pk.to_python` applied to the text column. -/
def toPython (t : PkType) (raw : Nat) : PkVal :=
  match t with
  | .int => .intId raw
  | .uuid => .uuidId raw

/-- Which physical evaluation table a row is created in: `RoleEvaluation` or
`RoleEvaluationUUID`. -/
inductive Partition where
  | int
  | uuid
deriving DecidableEq, Repr

/-- Registry and settings environment for the split model generation. -/
structure NEnv where
  rds : List Machine.RoleDefn
  /-- primary-key type per content type -/
  pkType : Nat → PkType
  /-- `get_child_models`: `(filter path string, child content type)` -/
  childModels : Nat → List (String × Nat)
  /-- `model._meta.get_field(path_to_parent).related_model` as a content type -/
  relatedModel : Nat → String → Option Nat
  /-- child-object query: child content type, filter path, parent id → child pks -/
  query : Nat → String → PkVal → List PkVal
  /-- `ANSIBLE_BASE_CACHE_PARENT_PERMISSIONS` -/
  cacheParentPermissions : Bool
  teamPermission : String

/-- An `ObjectRole` row of this generation: `object_id` is stored as text;
`objIdText` carries its digits. -/
structure NObjRole where
  id : Nat
  rdId : Nat
  ct : Nat
  objIdText : Nat
deriving DecidableEq, Repr

/-- A persisted evaluation row in either partition. -/
structure NEvalRow where
  id : Nat
  roleId : Nat
  codename : String
  ct : Nat
  objId : PkVal
deriving DecidableEq, Repr

/-- Database state of the split generation (only the tables
`needed_cache_updates` touches). -/
structure NDb where
  objectRoles : List NObjRole
  /-- `provides_teams` rows `(object_role_id, team_id)` -/
  providesTeams : List (Nat × Nat)
  /-- `ObjectRole.teams` rows `(team_id, object_role_id)` -/
  teamEdges : List (Nat × Nat)
  /-- the `RoleEvaluation` (integer) partition -/
  evalsInt : List NEvalRow
  /-- the `RoleEvaluationUUID` partition -/
  evalsUuid : List NEvalRow
deriving DecidableEq, Repr

/-- An expected evaluation key of this generation, with a typed object id. -/
abbrev NKey := String × Nat × PkVal

/-- `path.split('__', 1)` -/
def splitPathOnce (s : String) : String × String :=
  match s.splitOn "__" with
  | [] => (s, "")
  | [x] => (x, "")
  | x :: rest => (x, String.intercalate "__" rest)

/-- `ObjectRole.expected_direct_permissions` of
`ansible_base/rbac/models/object_role.py` (lines 127-182). -/
def expected_direct_permissions (env : NEnv) (role : NObjRole) : List NKey :=
  let object_id := toPython (env.pkType role.ct) role.objIdText
  let perms := match env.rds.find? (fun rd => rd.id = role.rdId) with
    | some rd => rd.perms
    | none => []
  perms.foldl (fun acc perm =>
    if perm.ct = role.ct then
      -- direct object permission
      Machine.listInsert acc (perm.codename, role.ct, object_id)
    else
      -- add child permission on the parent object
      let acc1 :=
        if is_add_perm perm.codename || env.cacheParentPermissions then
          Machine.listInsert acc (perm.codename, role.ct, object_id)
        else acc
      if is_add_perm perm.codename then
        -- propagate add permission to children that are parents of the
        -- permission model; the loop has no break, so the last match wins
        let found := (env.childModels role.ct).foldl (fun st pm =>
          if containsSub pm.1 "__" ∧ pm.2 = perm.ct then
            let split := splitPathOnce pm.1
            match env.relatedModel perm.ct split.1 with
            | some childCt => some (split.2, childCt)
            | none => st
          else st) (none : Option (String × Nat))
        match found with
        | none => acc1
        | some fc =>
            (env.query fc.2 fc.1 object_id).foldl
              (fun a i => Machine.listInsert a (perm.codename, fc.2, i)) acc1
      else
        -- child object permission: first matching child model entry
        match (env.childModels role.ct).find? (fun pm => pm.2 = perm.ct) with
        | none => acc1  -- logged warning, ignored
        | some pm =>
            (env.query perm.ct pm.1 object_id).foldl
              (fun a i => Machine.listInsert a (perm.codename, perm.ct, i)) acc1) []

/-- Roles held by a team in this generation. -/
def teamRoles (db : NDb) (teamId : Nat) : List NObjRole :=
  ((db.teamEdges.filter (fun e => e.1 = teamId)).map (fun e => e.2)).filterMap
    (fun rid => db.objectRoles.find? (fun r => r.id = rid))

/-- Expected keys including the `provides_teams` union, as in
`needed_cache_updates`. -/
def expectedOf (env : NEnv) (db : NDb) (role : NObjRole) : List NKey :=
  let direct := expected_direct_permissions env role
  ((db.providesTeams.filter (fun e => e.1 = role.id)).map (fun e => e.2)).foldl
    (fun acc t =>
      (teamRoles db t).foldl (fun acc tr =>
        (expected_direct_permissions env tr).foldl Machine.listInsert acc) acc) direct

/-- Replace-or-append into the dict keyed by `obj_perm_id`. -/
def upsertRowN (m : List (NKey × NEvalRow)) (k : NKey) (e : NEvalRow) :
    List (NKey × NEvalRow) :=
  match m with
  | [] => [(k, e)]
  | (k', e') :: rest => if k' = k then (k, e) :: rest else (k', e') :: upsertRowN rest k e

/-- A row queued for bulk creation.  The `partition` field records which
evaluation model class the source instantiates. -/
structure NNewRow where
  partition : Partition
  roleId : Nat
  codename : String
  ct : Nat
  objId : PkVal
deriving DecidableEq, Repr

/-- `ObjectRole.needed_cache_updates` of
`ansible_base/rbac/models/object_role.py` (lines 184-207): existing rows are
read from both partitions, deletions are tagged with the runtime type of the
key's object id, and every addition instantiates `RoleEvaluation` — the
integer partition. -/
def needed_cache_updates (env : NEnv) (db : NDb) (role : NObjRole) :
    List (Nat × PkType) × List NNewRow :=
  let rowsBoth := db.evalsInt.filter (fun e => e.roleId = role.id) ++
    db.evalsUuid.filter (fun e => e.roleId = role.id)
  let existingPartials := rowsBoth.foldl (fun m e => upsertRowN m (e.codename, e.ct, e.objId) e) []
  let expected := expectedOf env db role
  let existingSet := existingPartials.map (fun kv => kv.1)
  let toDelete := (existingPartials.filter (fun kv => kv.1 ∉ expected)).map
    (fun kv => (kv.2.id, pkTag kv.1.2.2))
  let toAdd := (expected.filter (fun k => k ∉ existingSet)).map
    (fun k => { partition := Partition.int, roleId := role.id, codename := k.1,
                ct := k.2.1, objId := k.2.2 : NNewRow })
  (toDelete, toAdd)

end NewGen

namespace Machine

/-!
Concrete fixture: the three-team membership cycle of the functional test
`test_teams_with_loops` (teamA member of teamB, teamB of teamC, teamC of
teamA).  Teams are 1, 2, 3 in organization 10; the member role definition is
id 1 with the `member_team` permission on the team content type 5; object
roles 11, 12, 13 target the three teams and are held by teams 3, 1, 2.
-/

/-- The `team_team_parents` mapping `compute_team_member_roles` builds for the
cycle fixture. -/
def ttpCycle3 : Nat → List Nat :=
  fun t => (alistFind [(1, [3]), (2, [1]), (3, [2])] t).getD []

/-- Environment of the cycle fixture. -/
def envCycle3 : MEnv where
  rds := [⟨1, "member_rd", [⟨"member_team", 5⟩]⟩]
  teams := [(1, 10), (2, 10), (3, 10)]
  teamCt := 5
  orgCt := 6
  teamPermission := "member_team"
  childModels := fun _ => []
  childQuery := fun _ _ _ => []
  teamTeamAllowed := true
  teamOrgAllowed := true
  teamOrgTeamAllowed := true

/-- Database of the cycle fixture. -/
def dbCycle3 : Db where
  objectRoles := [⟨11, 1, 5, 1⟩, ⟨12, 1, 5, 2⟩, ⟨13, 1, 5, 3⟩]
  userEdges := []
  teamEdges := [(3, 11), (1, 12), (2, 13)]
  providesTeams := []
  evals := []
  nextRoleId := 14
  nextEvalId := 1

end Machine


namespace Validators

/-- The model a permission atom applies to: its own model for non-add atoms,
the parent model for add atoms (`none` for a global add without a parent). -/
def appliesTo (env : VEnv) (p : Perm) : Option Nat :=
  if is_add_perm p.codename then env.parentOf p.ct else some p.ct

/-- The view requirement exactly as claim C9 states it: for every model
mentioned by any atom in the set, the set contains the `view_<model>` atom for
that model, the sole exception being a pure global add atom with no parent
model. -/
def claim9_condition (env : VEnv) (perms : List Perm) : Prop :=
  ∀ p ∈ perms, ¬(is_add_perm p.codename = true ∧ env.parentOf p.ct = none) →
    ("view_" ++ env.modelName p.ct) ∈ perms.map (fun q => q.codename)

/-- The view requirement as the code implements it: for every model some atom
applies to (own model for non-add atoms, parent model for add atoms), some
atom applying to that model has a codename containing `view` as a substring. -/
def amended9_condition (env : VEnv) (perms : List Perm) : Prop :=
  ∀ p ∈ perms, ∀ m, appliesTo env p = some m →
    ∃ q ∈ perms, appliesTo env q = some m ∧ containsSub q.codename "view" = true

/-- Membership of a permission in a group with a given key. -/
def inGroups (groups : List (Option Nat × List Perm)) (k : Option Nat) (q : Perm) : Prop :=
  ∃ ps, (k, ps) ∈ groups ∧ q ∈ ps

/-- Validator environment of the C9 counterexample: organization is content
type 6, inventory is content type 7 with organization as parent. -/
def envC9 : VEnv where
  allowSingletonUserRoles := false
  allowSingletonTeamRoles := false
  teamPermission := "member_team"
  parentOf := fun ct => if ct = 7 then some 6 else none
  childModels := fun ct => if ct = 6 then [(1, 7)] else []
  registered := [6, 7]
  modelName := fun ct => if ct = 6 then "organization" else if ct = 7 then "inventory" else ""

end Validators


namespace NewGen

/-- Environment for the C2 evaluation: content type 8 is a registered model
with a UUID primary key; role definition 3 grants `view_credential` directly
on it. -/
def envC2 : NEnv where
  rds := [⟨3, "view_credential_rd", [⟨"view_credential", 8⟩]⟩]
  pkType := fun ct => if ct = 8 then PkType.uuid else PkType.int
  childModels := fun _ => []
  relatedModel := fun _ _ => none
  query := fun _ _ _ => []
  cacheParentPermissions := false
  teamPermission := "member_team"

/-- Database for the C2 evaluation: one object role (id 21) granting role
definition 3 on the UUID resource 77 of content type 8; both evaluation
partitions empty. -/
def dbC2 : NDb where
  objectRoles := [⟨21, 3, 8, 77⟩]
  providesTeams := []
  teamEdges := []
  evalsInt := []
  evalsUuid := []

end NewGen


namespace Machine

/-- Environment of the add-permission seed scenario: organization is content
type 6, inventory is content type 7 and a registered child of organization
(filter path 1); inventories 100 and 101 live under organization 10; role
definition 2 carries `{view_organization, add_inventory}`. -/
def envC7 : MEnv where
  rds := [⟨2, "org-inv-rd", [⟨"view_organization", 6⟩, ⟨"add_inventory", 7⟩]⟩]
  teams := []
  teamCt := 5
  orgCt := 6
  teamPermission := "member_team"
  childModels := fun ct => if ct = 6 then [(1, 7)] else []
  childQuery := fun cct path parent =>
    if cct = 7 ∧ path = 1 ∧ parent = 10 then [100, 101] else []
  teamTeamAllowed := true
  teamOrgAllowed := true
  teamOrgTeamAllowed := true

/-- The role definition of the scenario. -/
def rdC7 : RoleDefn := ⟨2, "org-inv-rd", [⟨"view_organization", 6⟩, ⟨"add_inventory", 7⟩]⟩

/-- Empty starting database of the scenario. -/
def dbC7 : Db := ⟨[], [], [], [], [], 31, 1⟩

end Machine

namespace NewGen

/-- The same scenario registry for the split model generation, with string
filter paths: inventory reaches organization through the single-hop path
`organization`. -/
def envC7N : NEnv where
  rds := [⟨2, "org-inv-rd", [⟨"view_organization", 6⟩, ⟨"add_inventory", 7⟩]⟩]
  pkType := fun _ => PkType.int
  childModels := fun ct => if ct = 6 then [("organization", 7)] else []
  relatedModel := fun _ _ => none
  query := fun cct path parent =>
    if cct = 7 ∧ path = "organization" ∧ parent = PkVal.intId 10 then
      [PkVal.intId 100, PkVal.intId 101]
    else []
  cacheParentPermissions := false
  teamPermission := "member_team"

end NewGen


namespace Machine

/-- Role definition 4: just the `member_team` permission on the team content
type. -/
def rdC4 : RoleDefn := ⟨4, "member_rd", [⟨"member_team", 5⟩]⟩

/-- Environment with one team (id 1, organization 10). -/
def envC4 : MEnv where
  rds := [⟨4, "member_rd", [⟨"member_team", 5⟩]⟩]
  teams := [(1, 10)]
  teamCt := 5
  orgCt := 6
  teamPermission := "member_team"
  childModels := fun _ => []
  childQuery := fun _ _ _ => []
  teamTeamAllowed := true
  teamOrgAllowed := true
  teamOrgTeamAllowed := true

/-- Users 50 and 51 both hold object role 61, which grants `member_team` on
team 1; the computed `provides_teams` relation is deliberately stale
(empty). -/
def dbC4 : Db where
  objectRoles := [⟨61, 4, 5, 1⟩]
  userEdges := [(50, 61), (51, 61)]
  teamEdges := []
  providesTeams := []
  evals := []
  nextRoleId := 62
  nextEvalId := 1

end Machine

namespace Machine

-- Fixture for C6: the state reached by the C7 assignment — object role 31
-- (role definition 2 on organization 10) held by user 50 alone, with its two
-- materialized evaluation tuples.

def dbC6 : Db :=
  ⟨[⟨31, 2, 6, 10⟩], [(50, 31)], [], [],
   [⟨1, 31, "view_organization", 6, 10⟩, ⟨2, 31, "add_inventory", 6, 10⟩], 32, 3⟩

end Machine

namespace Machine

-- Semantic membership-grant relations, used to state the provides_teams
-- cache invariant of the round-trip theorem independently of the
-- materializer code.

/-- The key of an evaluation row. -/
def evalKey (e : EvalRow) : EvalKey := (e.codename, e.ct, e.objId)

/-- Keys of the persisted evaluation rows of one object role. -/
def roleKeys (db : Db) (rid : Nat) : List EvalKey :=
  (db.evals.filter (fun e => e.roleId = rid)).map evalKey

/-- The actor already holds the role definition on the object: the object
role for the triple exists and the membership edge is present. -/
def actorHolds (db : Db) (actor : Actor) (rdId objCt objId : Nat) : Bool :=
  match db.objectRoles.find? (fun r => r.rdId = rdId && r.ct = objCt && r.objId = objId) with
  | none => false
  | some role =>
      match actor with
      | .user u => (u, role.id) ∈ db.userEdges
      | .team t => (t, role.id) ∈ db.teamEdges

/-- The teams a member role grants membership in: its team, or every team of
its organization. -/
def grantTeams (env : MEnv) (r : ObjRole) : List Nat :=
  if r.ct = env.teamCt then [r.objId]
  else if r.ct = env.orgCt then (alistFind (otmOf env) r.objId).getD []
  else []

/-- Reachability through a team-to-feeder-teams function: the second team
transitively feeds members into the first. -/
inductive ReachF (ttpF : Nat → List Nat) : Nat → Nat → Prop where
  | direct {t s : Nat} : s ∈ ttpF t → ReachF ttpF t s
  | trans {t s w : Nat} : s ∈ ttpF t → ReachF ttpF s w → ReachF ttpF t w

/-- Semantic description of one expected evaluation key of a role: a direct
expectation, or a direct expectation of a role held by a team the role
provides membership to. -/
def expectedOfSem (env : MEnv) (db : Db) (role : ObjRole) (k : EvalKey) : Prop :=
  k ∈ expected_direct_permissions env role ∨
  ∃ t, (role.id, t) ∈ db.providesTeams ∧ ∃ rid ∈ teamRoleIds db t,
    ∃ tr, db.objectRoles.find? (fun r => r.id = rid) = some tr ∧
      k ∈ expected_direct_permissions env tr

/-- Role `rid` grants membership in team `t` directly: it is a `member_team`
role on the team itself or on the organization of the team. -/
def grantsDirect (env : MEnv) (db : Db) (rid t : Nat) : Prop :=
  ∃ role ∈ db.objectRoles, role.id = rid ∧
    ((rdPerms env role.rdId).any (fun p => p.codename = env.teamPermission)) = true ∧
    ((role.ct = env.teamCt ∧ role.objId = t) ∨
     (role.ct = env.orgCt ∧ (t, role.objId) ∈ env.teams))

/-- Team `s` feeds into team `t`: some member role on `t` is held by `s`, so
members of `s` are members of `t`. -/
def feedsInto (env : MEnv) (db : Db) (s t : Nat) : Prop :=
  ∃ rid, grantsDirect env db rid t ∧ (s, rid) ∈ db.teamEdges

/-- Transitive feeders of a team: teams whose members are, through chains of
team memberships, members of the team. -/
inductive ReachFeeder (env : MEnv) (db : Db) : Nat → Nat → Prop where
  | direct {t s : Nat} : feedsInto env db s t → ReachFeeder env db t s
  | trans {t s w : Nat} : feedsInto env db s t → ReachFeeder env db s w →
      ReachFeeder env db t w

/-- Role `rid` transitively provides membership in team `t`. -/
def ProvSem (env : MEnv) (db : Db) (rid t : Nat) : Prop :=
  grantsDirect env db rid t ∨ ∃ p, ReachFeeder env db t p ∧ grantsDirect env db rid p

/-- The `provides_teams` relation matches the semantic closure on every
registered team. -/
def provConsistent (env : MEnv) (db : Db) : Prop :=
  ∀ r t, t ∈ env.teams.map (fun x => x.1) →
    ((r, t) ∈ db.providesTeams ↔ ProvSem env db r t)

/-- The evaluation rows of every object role carry exactly the expected
keys. -/
def evalsConsistent (env : MEnv) (db : Db) : Prop :=
  ∀ A ∈ db.objectRoles, ∀ k, k ∈ roleKeys db A.id ↔ k ∈ expectedOf env db A

/-- Concatenation of a list of lists (used to restate the append-folds of
`compute_object_role_permissions`). -/
def concatAll {α : Type} : List (List α) → List α
  | [] => []
  | l :: rest => l ++ concatAll rest

/-- The bulk-insert rows built from a list of `(role_id, key)` pairs with
consecutive ids from `base` (a recursive restatement of the `enum`-indexed
construction of `compute_object_role_permissions`). -/
def rowsFromAux : Nat → List (Nat × EvalKey) → List EvalRow
  | _, [] => []
  | base, p :: rest =>
      ⟨base, p.1, p.2.1, p.2.2.1, p.2.2.2⟩ :: rowsFromAux (base + 1) rest

/-- The object roles a `compute_object_role_permissions` call iterates. -/
def corpTargets (db : Db) (s : Finset Nat) : List ObjRole :=
  db.objectRoles.filter (fun r => r.id ∈ s)

/-- The collected bulk-delete ids of a `compute_object_role_permissions`
call. -/
def corpDels (env : MEnv) (db : Db) (s : Finset Nat) : List Nat :=
  concatAll ((corpTargets db s).map (fun r => (needed_cache_updates env db r).1))

/-- The collected `(role_id, key)` pairs of the bulk insert of a
`compute_object_role_permissions` call. -/
def corpAdds (env : MEnv) (db : Db) (s : Finset Nat) : List (Nat × EvalKey) :=
  concatAll ((corpTargets db s).map (fun r =>
    (needed_cache_updates env db r).2.map (fun k => (r.id, k))))

end Machine

-- ===================== THEOREMS =====================

namespace Machine

/-- On a three-cycle in the team-parents graph, each of the three mutual
recursive calls of `all_team_parents` exhausts any finite budget: the `seen`
argument each call receives is the fresh accumulator of its caller, which
contains only the callee itself, so nothing is ever skipped. -/
theorem all_team_parents_cycle3_aux (ttp : Nat → List Nat) (a b c : Nat)
    (hta : ttp a = [c]) (htc : ttp c = [b]) (htb : ttp b = [a])
    (hca : c ≠ a) (hbc : b ≠ c) (hab : a ≠ b) :
    ∀ fuel, all_team_parents fuel a ttp (listInsert [] a) = none ∧
      all_team_parents fuel b ttp (listInsert [] b) = none ∧
      all_team_parents fuel c ttp (listInsert [] c) = none := by
  intro fuel
  induction fuel with
  | zero => refine ⟨?_, ?_, ?_⟩ <;> simp only [all_team_parents]
  | succ f ih =>
    refine ⟨?_, ?_, ?_⟩
    · simp only [all_team_parents]
      rw [hta]
      simp only [allTeamParentsFor]
      rw [if_neg (by simp [listInsert, hca])]
      rw [ih.2.2]
    · simp only [all_team_parents]
      rw [htb]
      simp only [allTeamParentsFor]
      rw [if_neg (by simp [listInsert, hab])]
      rw [ih.1]
    · simp only [all_team_parents]
      rw [htc]
      simp only [allTeamParentsFor]
      rw [if_neg (by simp [listInsert, hbc])]
      rw [ih.2.1]

/-- Top-level ancestor search from a team on a three-cycle exhausts any
budget. -/
theorem all_team_parents_cycle3_top (ttp : Nat → List Nat) (a b c : Nat)
    (hta : ttp a = [c]) (htc : ttp c = [b]) (htb : ttp b = [a])
    (hca : c ≠ a) (hbc : b ≠ c) (hab : a ≠ b) :
    ∀ fuel, all_team_parents fuel a ttp [] = none := by
  intro fuel
  match fuel with
  | 0 => simp only [all_team_parents]
  | f + 1 =>
    simp only [all_team_parents]
    rw [hta]
    simp only [allTeamParentsFor]
    rw [if_neg (by simp)]
    rw [(all_team_parents_cycle3_aux ttp a b c hta htc htb hca hbc hab f).2.2]

/-- The closure loop fails as soon as the ancestor search for its first team
fails. -/
theorem allMemberRolesLoop_head_none (fuel : Nat) (ttpF : Nat → List Nat)
    (direct : List (Nat × List Nat)) (t : Nat) (rs : List Nat)
    (rest : List (Nat × List Nat))
    (h : all_team_parents fuel t ttpF [] = none) :
    allMemberRolesLoop fuel ttpF direct ((t, rs) :: rest) = none := by
  rw [allMemberRolesLoop, h]

/-- **C3.** The claim states that `compute_team_member_roles` terminates on
every team configuration including cycles.  It does not: on the three-team
cycle of the fixture (the very configuration of the functional test
`test_teams_with_loops`), the closure computation and the underlying
`all_team_parents` ancestor search exhaust every finite recursion budget,
because each recursive call passes its own fresh accumulator as the `seen`
set, discarding the ancestor chain. -/
theorem compute_team_member_roles_cycle_nonterminating :
    ∀ fuel, compute_team_member_roles fuel envCycle3 dbCycle3 = none ∧
      all_team_parents fuel 1 ttpCycle3 [] = none := by
  intro fuel
  have htop := all_team_parents_cycle3_top ttpCycle3 1 2 3 rfl rfl rfl (by decide) (by decide)
    (by decide) fuel
  constructor
  · have hloop := allMemberRolesLoop_head_none fuel ttpCycle3 [(1, [11]), (2, [12]), (3, [13])]
      1 [11] [(2, [12]), (3, [13])] htop
    calc compute_team_member_roles fuel envCycle3 dbCycle3
        = (allMemberRolesLoop fuel ttpCycle3 [(1, [11]), (2, [12]), (3, [13])]
              [(1, [11]), (2, [12]), (3, [13])]).map
            (fun m => persistMemberRoles envCycle3 m dbCycle3) := rfl
      _ = none := by rw [hloop]; rfl
  · exact htop

end Machine

namespace Evals

/-- Membership in `user.has_roles` unfolded to the join table. -/
theorem mem_userRoleIds (db : Db) (u r : Nat) :
    r ∈ userRoleIds db u ↔ (u, r) ∈ db.userEdges := by
  simp only [userRoleIds, List.mem_map, List.mem_filter, decide_eq_true_eq]
  constructor
  · rintro ⟨⟨a, b⟩, ⟨hmem, rfl⟩, rfl⟩
    exact hmem
  · intro h
    exact ⟨(u, r), ⟨h, rfl⟩, rfl⟩

/-- `has_super_permission` unfolded to its two clauses. -/
theorem has_super_permission_iff (settings : EvalSettings) (user : EvalUser) (codename : String) :
    has_super_permission settings user codename = true ↔
      ((∃ f ∈ settings.superuserFlags, user.flags f = true) ∨
       (∃ af ∈ settings.actionFlags, startsWithStr codename af.1 = true ∧ user.flags af.2 = true)) := by
  simp [has_super_permission, List.any_eq_true, Bool.and_eq_true]

/-- The cache query of `RoleEvaluation.has_obj_perm` unfolded to an existence
statement over evaluation rows. -/
theorem roleEvaluationHasObjPerm_iff (db : Db) (uid objCt objId : Nat) (codename : String) :
    roleEvaluationHasObjPerm db uid objCt objId codename = true ↔
      (∃ e ∈ db.evals, (uid, e.roleId) ∈ db.userEdges ∧ e.ct = objCt ∧ e.objId = objId ∧
        e.codename = codename) := by
  simp only [roleEvaluationHasObjPerm, List.any_eq_true, Bool.and_eq_true, decide_eq_true_eq,
    mem_userRoleIds]
  constructor
  · rintro ⟨e, he, ⟨⟨⟨h1, h2⟩, h3⟩, h4⟩⟩
    exact ⟨e, he, h1, h2, h3, h4⟩
  · rintro ⟨e, he, h1, h2, h3, h4⟩
    exact ⟨e, he, ⟨⟨⟨h1, h2⟩, h3⟩, h4⟩⟩

/-- **C1.** For every actor, object, and permission code that normalizes,
`has_obj_perm` returns true exactly when one of the four clauses holds: a
superuser flag, a per-action bypass flag whose action prefixes the code, the
normalized code in the actor's global-permission set, or an evaluation tuple
`(role ∈ actor.has_roles, content_type(object), object.pk, code)`. -/
theorem bound_has_obj_perm_iff (settings : EvalSettings) (db : Db) (user : EvalUser)
    (objModel : ModelMeta) (objCt objId : Nat) (codename full : String)
    (hv : validate_codename_for_model codename objModel = .ok full) :
    bound_has_obj_perm settings db user objModel objCt objId codename = .ok true ↔
      ((∃ f ∈ settings.superuserFlags, user.flags f = true) ∨
       (∃ af ∈ settings.actionFlags, startsWithStr codename af.1 = true ∧ user.flags af.2 = true) ∨
       full ∈ user.singletonPermissions ∨
       (∃ e ∈ db.evals, (user.id, e.roleId) ∈ db.userEdges ∧ e.ct = objCt ∧ e.objId = objId ∧
         e.codename = full)) := by
  unfold bound_has_obj_perm
  rw [hv]
  simp only [Except.bind]
  by_cases h1 : has_super_permission settings user codename = true
  · rw [if_pos (by simp [h1])]
    constructor
    · intro _
      rcases (has_super_permission_iff settings user codename).mp h1 with hA | hB
      · exact Or.inl hA
      · exact Or.inr (Or.inl hB)
    · intro _
      rfl
  · rw [if_neg (by simp [h1])]
    by_cases h2 : full ∈ user.singletonPermissions
    · rw [if_pos h2]
      constructor
      · intro _
        exact Or.inr (Or.inr (Or.inl h2))
      · intro _
        rfl
    · rw [if_neg h2]
      constructor
      · intro h
        have hb : roleEvaluationHasObjPerm db user.id objCt objId full = true := by
          exact Except.ok.inj h
        exact Or.inr (Or.inr (Or.inr ((roleEvaluationHasObjPerm_iff db user.id objCt objId full).mp hb)))
      · intro h
        rcases h with hA | hB | hC | hD
        · exact absurd ((has_super_permission_iff settings user codename).mpr (Or.inl hA)) h1
        · exact absurd ((has_super_permission_iff settings user codename).mpr (Or.inr hB)) h1
        · exact absurd hC h2
        · rw [(roleEvaluationHasObjPerm_iff db user.id objCt objId full).mpr hD]

/-- Witness for C1: user 7 holds object role 3, which carries the
`view_organization` tuple on organization 10 (content type 6); no bypass flags
and no global permissions, so the check succeeds through the cache clause. -/
theorem bound_has_obj_perm_iff_witness :
    bound_has_obj_perm ⟨[], []⟩
      ⟨[⟨3, 1, 6, 10⟩], [(7, 3)], [], [], [⟨1, 3, "view_organization", 6, 10⟩], 4, 2⟩
      ⟨7, fun _ => false, []⟩
      ⟨"organization", [], ["add", "change", "delete", "view"]⟩
      6 10 "view_organization" = .ok true :=
  (bound_has_obj_perm_iff ⟨[], []⟩
      ⟨[⟨3, 1, 6, 10⟩], [(7, 3)], [], [], [⟨1, 3, "view_organization", 6, 10⟩], 4, 2⟩
      ⟨7, fun _ => false, []⟩
      ⟨"organization", [], ["add", "change", "delete", "view"]⟩
      6 10 "view_organization" "view_organization" rfl).mpr
    (Or.inr (Or.inr (Or.inr ⟨⟨1, 3, "view_organization", 6, 10⟩, by simp, by simp, rfl, rfl, rfl⟩)))

end Evals

namespace Validators

/-- **C8.** Creating a role definition with `content_type = null` fails when
singleton (global) roles are disabled; and with them enabled, a null-type role
whose permission set contains the team-member atom also fails. -/
theorem validate_global_role_gating (env : VEnv) (perms : List Perm) :
    (system_roles_enabled env = false →
      ∃ e, validate_permissions_for_model env perms none = .error e) ∧
    (system_roles_enabled env = true →
      env.teamPermission ∈ perms.map (fun p => p.codename) →
      ∃ e, validate_permissions_for_model env perms none = .error e) := by
  constructor
  · intro h
    refine ⟨"System-wide roles are not enabled", ?_⟩
    simp [validate_permissions_for_model, h, throw, throwThe, MonadExceptOf.throw, Except.bind,
      bind]
  · intro h hmem
    refine ⟨"the team member permission can not be used in global roles", ?_⟩
    simp [validate_permissions_for_model, h, hmem, throw, throwThe, MonadExceptOf.throw,
      Except.bind, bind]

/-- Witness for C8: with both singleton settings off, an empty global role is
rejected; with the user setting on, a global role containing `member_team` is
rejected. -/
theorem validate_global_role_gating_witness :
    (∃ e, validate_permissions_for_model
      ⟨false, false, "member_team", fun _ => none, fun _ => [], [], fun _ => ""⟩ [] none = .error e) ∧
    (∃ e, validate_permissions_for_model
      ⟨true, false, "member_team", fun _ => none, fun _ => [], [], fun _ => ""⟩
      [⟨"member_team", 5⟩] none = .error e) :=
  ⟨(validate_global_role_gating
      ⟨false, false, "member_team", fun _ => none, fun _ => [], [], fun _ => ""⟩ []).1 rfl,
   (validate_global_role_gating
      ⟨true, false, "member_team", fun _ => none, fun _ => [], [], fun _ => ""⟩
      [⟨"member_team", 5⟩]).2 rfl (by simp)⟩


/-- Appending into the permission groups dict adds exactly one membership. -/
theorem inGroups_groupAppend (groups : List (Option Nat × List Perm)) (k0 : Option Nat)
    (p : Perm) (k : Option Nat) (q : Perm) :
    inGroups (groupAppend groups k0 p) k q ↔ inGroups groups k q ∨ (k = k0 ∧ q = p) := by
  induction groups with
  | nil =>
    constructor
    · rintro ⟨ps, hmem, hq⟩
      have h1 := List.mem_singleton.mp hmem
      have hk : k = k0 := congrArg Prod.fst h1
      have hps : ps = [p] := congrArg Prod.snd h1
      subst hps
      exact Or.inr ⟨hk, List.mem_singleton.mp hq⟩
    · rintro (⟨ps, hmem, _⟩ | ⟨hk, hq⟩)
      · exact absurd hmem (List.not_mem_nil _)
      · exact ⟨[p], List.mem_singleton.mpr (by rw [hk]), List.mem_singleton.mpr hq⟩
  | cons g rest ih =>
    obtain ⟨k', ps'⟩ := g
    by_cases hk : k' = k0
    · subst hk
      simp only [groupAppend, if_pos rfl]
      constructor
      · rintro ⟨ps, hmem, hq⟩
        rcases List.mem_cons.mp hmem with hhead | htail
        · have hkk : k = k' := congrArg Prod.fst hhead
          have hps : ps = ps' ++ [p] := congrArg Prod.snd hhead
          subst hps
          rcases List.mem_append.mp hq with h1 | h1
          · exact Or.inl ⟨ps', by rw [hkk]; exact List.mem_cons_self _ _, h1⟩
          · exact Or.inr ⟨hkk, List.mem_singleton.mp h1⟩
        · exact Or.inl ⟨ps, List.mem_cons_of_mem _ htail, hq⟩
      · rintro (⟨ps, hmem, hq⟩ | ⟨hkk, hq⟩)
        · rcases List.mem_cons.mp hmem with hhead | htail
          · have hkk : k = k' := congrArg Prod.fst hhead
            have hps : ps = ps' := congrArg Prod.snd hhead
            refine ⟨ps' ++ [p], ?_, List.mem_append.mpr (Or.inl (hps ▸ hq))⟩
            rw [hkk]
            exact List.mem_cons_self _ _
          · exact ⟨ps, List.mem_cons_of_mem _ htail, hq⟩
        · refine ⟨ps' ++ [p], ?_, List.mem_append.mpr (Or.inr (List.mem_singleton.mpr hq))⟩
          rw [hkk]
          exact List.mem_cons_self _ _
    · simp only [groupAppend, if_neg hk]
      constructor
      · rintro ⟨ps, hmem, hq⟩
        rcases List.mem_cons.mp hmem with hhead | htail
        · exact Or.inl ⟨ps, List.mem_cons.mpr (Or.inl hhead), hq⟩
        · rcases ih.mp ⟨ps, htail, hq⟩ with ⟨ps2, h2, hq2⟩ | hnew
          · exact Or.inl ⟨ps2, List.mem_cons_of_mem _ h2, hq2⟩
          · exact Or.inr hnew
      · rintro (⟨ps, hmem, hq⟩ | hnew)
        · rcases List.mem_cons.mp hmem with hhead | htail
          · exact ⟨ps, List.mem_cons.mpr (Or.inl hhead), hq⟩
          · obtain ⟨ps2, h2, hq2⟩ := ih.mpr (Or.inl ⟨ps, htail, hq⟩)
            exact ⟨ps2, List.mem_cons_of_mem _ h2, hq2⟩
        · obtain ⟨ps2, h2, hq2⟩ := ih.mpr (Or.inr hnew)
          exact ⟨ps2, List.mem_cons_of_mem _ h2, hq2⟩

/-- Characterization of the groups built by a successful grouping fold:
membership in a group is membership in the starting accumulator or a
permission of the input list whose role model is the group key. -/
theorem foldlM_groups_char (env : VEnv) (ct : Option Nat) :
    ∀ (l : List Perm) (acc groups : List (Option Nat × List Perm)),
    (l.foldlM (fun groups p => do
        let rm ← roleModelFor env ct p
        pure (groupAppend groups rm p)) acc) = .ok groups →
    ∀ k q, inGroups groups k q ↔
      (inGroups acc k q ∨ (q ∈ l ∧ roleModelFor env ct q = .ok k)) := by
  intro l
  induction l with
  | nil =>
    intro acc groups h
    simp only [List.foldlM] at h
    obtain rfl : acc = groups := Except.ok.inj h
    simp
  | cons p l ih =>
    intro acc groups h
    simp only [List.foldlM] at h
    cases hrm : roleModelFor env ct p with
    | error e =>
        rw [hrm] at h
        simp [bind, Except.bind] at h
    | ok k0 =>
        rw [hrm] at h
        simp only [bind, Except.bind, pure, Except.pure] at h
        intro k q
        rw [ih (groupAppend acc k0 p) groups h k q, inGroups_groupAppend]
        constructor
        · rintro ((hacc | ⟨hkk, hqp⟩) | ⟨hql, hok⟩)
          · exact Or.inl hacc
          · refine Or.inr ⟨by rw [hqp]; exact List.mem_cons_self p l, ?_⟩
            rw [hqp, hkk]
            exact hrm
          · exact Or.inr ⟨List.mem_cons_of_mem p hql, hok⟩
        · rintro (hacc | ⟨hql, hok⟩)
          · exact Or.inl (Or.inl hacc)
          · rcases List.mem_cons.mp hql with rfl | hql
            · refine Or.inl (Or.inr ⟨?_, rfl⟩)
              rw [hrm] at hok
              exact (Except.ok.inj hok).symm
            · exact Or.inr ⟨hql, hok⟩

/-- A successful grouping fold implies every input permission resolved its
role model. -/
theorem foldlM_groups_mem_ok (env : VEnv) (ct : Option Nat) :
    ∀ (l : List Perm) (acc groups : List (Option Nat × List Perm)),
    (l.foldlM (fun groups p => do
        let rm ← roleModelFor env ct p
        pure (groupAppend groups rm p)) acc) = .ok groups →
    ∀ p ∈ l, ∃ k, roleModelFor env ct p = .ok k := by
  intro l
  induction l with
  | nil =>
    intro acc groups _ p hp
    exact absurd hp (List.not_mem_nil p)
  | cons p0 l ih =>
    intro acc groups h p hp
    simp only [List.foldlM] at h
    cases hrm : roleModelFor env ct p0 with
    | error e =>
        rw [hrm] at h
        simp [bind, Except.bind] at h
    | ok k0 =>
        rw [hrm] at h
        simp only [bind, Except.bind, pure, Except.pure] at h
        rcases List.mem_cons.mp hp with rfl | hpl
        · exact ⟨k0, hrm⟩
        · exact ih (groupAppend acc k0 p0) groups h p hpl

/-- A successful role-model resolution returns the model the permission
applies to. -/
theorem roleModelFor_ok (env : VEnv) (ct : Option Nat) (p : Perm) (k : Option Nat)
    (h : roleModelFor env ct p = .ok k) : k = appliesTo env p := by
  unfold roleModelFor at h
  unfold appliesTo
  by_cases hadd : is_add_perm p.codename = true
  · rw [if_pos (by simp [hadd])] at h
    rw [if_pos (by simp [hadd])]
    cases hpar : env.parentOf p.ct with
    | none =>
        rw [hpar] at h
        by_cases henb : system_roles_enabled env = true
        · rw [if_neg (by simp [henb])] at h
          simp only [Except.bind] at h
          cases ct with
          | none => exact (Except.ok.inj h).symm
          | some c => simp at h
        · rw [if_pos (by simp [Bool.not_eq_true] at henb ⊢; exact henb)] at h
          simp only [Except.bind] at h
          exact absurd h (by simp)
    | some par =>
        rw [hpar] at h
        simp only [Except.bind] at h
        cases ct with
        | none => exact (Except.ok.inj h).symm
        | some c =>
            simp only [] at h
            by_cases hne : par ≠ c
            · rw [if_pos hne] at h
              by_cases hcm : (env.childModels c).all (fun pc => pc.2 ≠ p.ct) = true
              · rw [if_pos hcm] at h
                exact absurd h (by simp)
              · rw [if_neg hcm] at h
                exact (Except.ok.inj h).symm
            · rw [if_neg hne] at h
              exact (Except.ok.inj h).symm
  · rw [if_neg (by simp [hadd])] at h
    rw [if_neg (by simp [hadd])]
    simp only [Except.bind] at h
    cases ct with
    | none => exact (Except.ok.inj h).symm
    | some c =>
        simp only [] at h
        by_cases hne : p.ct ≠ c
        · rw [if_pos hne] at h
          by_cases hcm : (env.childModels c).all (fun pc => pc.2 ≠ p.ct) = true
          · rw [if_pos hcm] at h
            exact absurd h (by simp)
          · rw [if_neg hcm] at h
            exact (Except.ok.inj h).symm
        · rw [if_neg hne] at h
          exact (Except.ok.inj h).symm

/-- Inversion for a successful `Except.bind`. -/
theorem except_bind_ok {α β : Type} (x : Except String α) (f : α → Except String β) (b : β)
    (h : x.bind f = .ok b) : ∃ a, x = .ok a ∧ f a = .ok b := by
  cases x with
  | error e => simp [Except.bind] at h
  | ok a => exact ⟨a, rfl, h⟩

/-- A successful validation has successfully built groups that all passed the
view check. -/
theorem validate_ok_structure (env : VEnv) (perms : List Perm) (ct : Option Nat) (u : Unit)
    (h : validate_permissions_for_model env perms ct = .ok u) :
    ∃ groups, buildGroups env ct perms = .ok groups ∧
      groups.all (fun g => groupHasView g.1 g.2) = true := by
  unfold validate_permissions_for_model at h
  obtain ⟨a, hG, h2⟩ := except_bind_ok _ _ _ h
  obtain ⟨groups, hB, h3⟩ := except_bind_ok _ _ _ h2
  refine ⟨groups, hB, ?_⟩
  split at h3
  next => exact absurd h3 (by simp)
  next =>
    split at h3
    next hall => exact hall
    next => exact absurd h3 (by simp)

/-- Validation success forces the view condition the code implements. -/
theorem validate_ok_amended (env : VEnv) (perms : List Perm) (ct : Option Nat) (u : Unit)
    (h : validate_permissions_for_model env perms ct = .ok u) :
    amended9_condition env perms := by
  obtain ⟨groups, hB, hall⟩ := validate_ok_structure env perms ct u h
  intro p hp m hm
  unfold buildGroups at hB
  obtain ⟨k, hk⟩ := foldlM_groups_mem_ok env ct perms [] groups hB p hp
  have hkm : k = some m := by rw [roleModelFor_ok env ct p k hk, hm]
  subst hkm
  have hin : inGroups groups (some m) p :=
    (foldlM_groups_char env ct perms [] groups hB (some m) p).mpr (Or.inr ⟨hp, hk⟩)
  obtain ⟨ps, hmem, hpps⟩ := hin
  have hview := (List.all_eq_true.mp hall) (some m, ps) hmem
  unfold groupHasView at hview
  obtain ⟨q, hq, hcond⟩ := List.any_eq_true.mp hview
  have hcv : containsSub q.codename "view" = true := by
    simpa using hcond
  have hq2 := (foldlM_groups_char env ct perms [] groups hB (some m) q).mp ⟨ps, hmem, hq⟩
  rcases hq2 with ⟨ps2, hmem2, _⟩ | ⟨hqperms, hqok⟩
  · exact absurd hmem2 (List.not_mem_nil _)
  · exact ⟨q, hqperms, (roleModelFor_ok env ct q (some m) hqok).symm, hcv⟩

/-- **C9 (amended).** Role-definition creation fails with a validation error
unless, for every model that some atom in the set applies to (its own model
for non-add atoms, the parent model for add atoms), the set contains an atom
applying to that model whose codename contains `view` as a substring; global
add atoms with no parent model are exempt. -/
theorem validate_view_rule_amended (env : VEnv) (perms : List Perm) (ct : Option Nat)
    (h : ¬ amended9_condition env perms) :
    ∃ e, validate_permissions_for_model env perms ct = .error e := by
  cases hval : validate_permissions_for_model env perms ct with
  | error e => exact ⟨e, rfl⟩
  | ok u => exact absurd (validate_ok_amended env perms ct u hval) h

/-- Witness for the amended C9: a role with only `change_inventory` for the
inventory type is rejected. -/
theorem validate_view_rule_amended_witness :
    ∃ e, validate_permissions_for_model envC9 [⟨"change_inventory", 7⟩] (some 7) = .error e :=
  validate_view_rule_amended envC9 [⟨"change_inventory", 7⟩] (some 7) (by
    intro hcond
    obtain ⟨q, hq, _, hview⟩ := hcond ⟨"change_inventory", 7⟩ (List.mem_singleton.mpr rfl) 7
      (by decide)
    rw [show q = ⟨"change_inventory", 7⟩ from List.mem_singleton.mp hq] at hview
    exact absurd hview (by decide))

/-- **C9 (counterexample).** The role `{view_organization, add_inventory}`
bound to the organization type — the very role of seed scenario 4 — validates
successfully, although the claim as stated demands the `view_inventory` atom
because `add_inventory` mentions the inventory model and has a parent model:
the code files an add atom under its parent model and only scans each group
for a codename containing `view`. -/
theorem validate_view_rule_counterexample :
    validate_permissions_for_model envC9 [⟨"view_organization", 6⟩, ⟨"add_inventory", 7⟩]
      (some 6) = .ok () ∧
    ¬ claim9_condition envC9 [⟨"view_organization", 6⟩, ⟨"add_inventory", 7⟩] := by
  constructor
  · rfl
  · intro h
    have h2 := h ⟨"add_inventory", 7⟩ (by simp) (by decide)
    exact absurd h2 (by decide)

end Validators

namespace Managers

/-- **C10.** With a non-empty permissions argument whose codename set equals
that of some stored role definition, `get_or_create` returns the first such
definition unchanged with `created = False`, leaving the store untouched —
regardless of the requested name, content type, managed flag, catalog and
validator settings (so no validation runs on this path, and the returned
definition may be bound to a different content type than requested). -/
theorem get_or_create_match_path (store : List StoredRD) (permissions : List String)
    (hne : permissions ≠ [])
    (hmatch : ∃ rd0 ∈ store, rd0.permissions.toFinset = permissions.toFinset) :
    ∃ rd, rd ∈ store ∧ rd.permissions.toFinset = permissions.toFinset ∧
      (∀ (env' : MgrEnv) (nextId' : Nat) (name' : String) (ct' : Option Nat) (managed' : Bool),
        get_or_create env' store nextId' permissions name' ct' managed' =
          .ok (rd, false, store)) := by
  obtain ⟨rd0, h0, hs⟩ := hmatch
  cases hfind : store.find? (fun rd => rd.permissions.toFinset = permissions.toFinset) with
  | none =>
      exfalso
      have hnone := List.find?_eq_none.mp hfind rd0 h0
      simp [hs] at hnone
  | some rd =>
      refine ⟨rd, List.mem_of_find?_eq_some hfind, by simpa using List.find?_some hfind, ?_⟩
      intro env' nextId' name' ct' managed'
      unfold get_or_create
      rw [if_pos hne, hfind]

/-- Witness for C10: the store holds one definition with permission set
`view_x` bound to content type 1; a request for the same set under a
different name and content type 2 returns that definition unchanged. -/
theorem get_or_create_match_path_witness :
    ∃ rd, rd ∈ [(⟨1, "a", some 1, false, ["view_x"]⟩ : StoredRD)] ∧
      rd.permissions.toFinset = (["view_x"] : List String).toFinset ∧
      (∀ (env' : MgrEnv) (nextId' : Nat) (name' : String) (ct' : Option Nat) (managed' : Bool),
        get_or_create env' [⟨1, "a", some 1, false, ["view_x"]⟩] nextId' ["view_x"] name' ct'
          managed' = .ok (rd, false, [⟨1, "a", some 1, false, ["view_x"]⟩])) :=
  get_or_create_match_path [⟨1, "a", some 1, false, ["view_x"]⟩] ["view_x"] (by decide)
    ⟨⟨1, "a", some 1, false, ["view_x"]⟩, by simp, by decide⟩

end Managers

namespace NewGen

/-- **C2.** The claim states that reconciliation stores each tuple in the
evaluation partition matching the primary-key type of the target resource
model, with one bulk insert and one bulk delete per partition.  Evaluating
`needed_cache_updates` on an object role over a UUID-keyed resource shows
otherwise: the single queued addition is constructed as a `RoleEvaluation` —
the integer partition — even though its object id is a UUID value, and
`compute_object_role_permissions` in `caching.py` issues exactly one bulk
insert and one bulk delete on that single model. -/
theorem needed_cache_updates_partition_mismatch :
    (needed_cache_updates envC2 dbC2 ⟨21, 3, 8, 77⟩).2 =
      [{ partition := Partition.int, roleId := 21, codename := "view_credential",
         ct := 8, objId := PkVal.uuidId 77 }] ∧
    envC2.pkType 8 = PkType.uuid := by
  constructor
  · rfl
  · rfl

end NewGen

namespace Machine

/-- **C7.** Giving `{view_organization, add_inventory}` to user 50 on
organization 10: the check `has_obj_perm(user, org, add_inventory)` passes,
`get_permissions(user, org)` is exactly `{view_organization, add_inventory}`,
and no evaluation tuple is produced for any inventory (content type 7) even
though inventories 100 and 101 exist under the organization — the add atom is
emitted on the parent organization only, and the split-generation
`expected_direct_permissions` likewise stops after the parent emission in
this simple parent-child case. -/
theorem add_permission_seed :
    ∃ db1, give_permission envC7 1 dbC7 rdC7 (.user 50) 6 10 = .ok db1 ∧
      Evals.bound_has_obj_perm ⟨[], []⟩ db1 ⟨50, fun _ => false, []⟩
        ⟨"organization", [], ["add", "change", "delete", "view"]⟩ 6 10 "add_inventory" =
          .ok true ∧
      (Evals.get_permissions db1 50 6 10).toFinset =
        ({"view_organization", "add_inventory"} : Finset String) ∧
      db1.evals.all (fun e => e.ct ≠ 7) = true ∧
      (NewGen.expected_direct_permissions NewGen.envC7N ⟨41, 2, 6, 10⟩).all
        (fun k => k.2.1 ≠ 7) = true := by
  refine ⟨_, rfl, ?_, ?_, ?_, ?_⟩
  · rfl
  · decide
  · rfl
  · rfl

/-- **C4 (counterexample).** Removing a `member_team` assignment held by a
user: the dirty set computed on the removal path is empty (it does not
include the target object role) and the team-recompute flag is false, so
`compute_team_member_roles` does not run — the stale `provides_teams`
relation survives the removal even though recomputing it would have added a
row.  (`give_or_remove_permission` passes `giving=True` to
`needed_updates_on_assignment` regardless of the operation.) -/
theorem removal_dirty_set_counterexample :
    needed_updates_on_assignment envC4 dbC4 rdC4 (.user 50) ⟨61, 4, 5, 1⟩ false true =
      .ok (false, ∅) ∧
    compute_team_member_roles 9 envC4 dbC4 = some { dbC4 with providesTeams := [(61, 1)] } ∧
    remove_permission envC4 9 dbC4 rdC4 (.user 50) 5 1 =
      .ok { dbC4 with userEdges := [(51, 61)] } := by
  refine ⟨rfl, by decide, rfl⟩

/-- **C4 (amended).** On the removal path (`created = false`, with the
hardcoded `giving = True` argument of the source call site): for a user actor
the dirty set is empty and the team-recompute flag is false; for a team actor
that passes the assignment-enabled validation, the dirty set is exactly the
roles that transitively grant membership to that team plus the target role's
descendants via `provides_teams`, and the team-recompute flag is true exactly
when the role definition carries `member_team`. -/
theorem needed_updates_on_removal_characterization (env : MEnv) (db : Db) (rd : RoleDefn)
    (role : ObjRole) :
    (∀ u : Nat, needed_updates_on_assignment env db rd (.user u) role false true =
      .ok (false, ∅)) ∧
    (∀ t : Nat, validate_assignment_enabled env (.team t) role.ct
        (rd.perms.any (fun p => p.codename = env.teamPermission)) = .ok () →
      needed_updates_on_assignment env db rd (.team t) role false true =
        .ok (rd.perms.any (fun p => p.codename = env.teamPermission),
          team_ancestor_roles env db t ∪ descendent_roles db role.id)) := by
  constructor
  · intro u
    have hval : validate_assignment_enabled env (.user u) role.ct
        (rd.perms.any (fun p => p.codename = env.teamPermission)) = .ok () := by
      unfold validate_assignment_enabled
      by_cases hc : (env.teamTeamAllowed && env.teamOrgAllowed && env.teamOrgTeamAllowed) = true
      · rw [if_pos (by simp [hc])]
      · rw [if_neg (by simp [hc])]
    unfold needed_updates_on_assignment
    rw [hval]
    simp [bind, Except.bind, pure, Except.pure, Bool.and_false, Bool.or_false]
  · intro t hval
    unfold needed_updates_on_assignment
    rw [hval]
    simp [bind, Except.bind, pure, Except.pure, Bool.and_false, Bool.or_false, Bool.or_true,
      Bool.and_true, Finset.empty_union]

/-- Witness for the amended C4 at the concrete removal fixture, for both a
user actor and a team actor. -/
theorem needed_updates_on_removal_characterization_witness :
    needed_updates_on_assignment envC4 dbC4 rdC4 (.user 50) ⟨61, 4, 5, 1⟩ false true =
      .ok (false, ∅) ∧
    needed_updates_on_assignment envC4 dbC4 rdC4 (.team 2) ⟨61, 4, 5, 1⟩ false true =
      .ok (true, team_ancestor_roles envC4 dbC4 2 ∪ descendent_roles dbC4 61) :=
  ⟨(needed_updates_on_removal_characterization envC4 dbC4 rdC4 ⟨61, 4, 5, 1⟩).1 50,
   (needed_updates_on_removal_characterization envC4 dbC4 rdC4 ⟨61, 4, 5, 1⟩).2 2 rfl⟩

/-- A single persistence step touches only the `provides_teams` relation. -/
theorem persistTeamStep_preserves (allMap : List (Nat × List Nat)) (db : Db) (t : Nat × Nat) :
    (persistTeamStep allMap db t).objectRoles = db.objectRoles ∧
    (persistTeamStep allMap db t).userEdges = db.userEdges ∧
    (persistTeamStep allMap db t).teamEdges = db.teamEdges ∧
    (persistTeamStep allMap db t).evals = db.evals ∧
    (persistTeamStep allMap db t).nextRoleId = db.nextRoleId ∧
    (persistTeamStep allMap db t).nextEvalId = db.nextEvalId := by
  refine ⟨?_, ?_, ?_, ?_, ?_, ?_⟩ <;>
    (dsimp only [persistTeamStep]; split <;> split <;> rfl)

/-- The whole persistence loop touches only the `provides_teams` relation. -/
theorem persistMemberRoles_preserves (env : MEnv) (allMap : List (Nat × List Nat)) (db : Db) :
    (persistMemberRoles env allMap db).objectRoles = db.objectRoles ∧
    (persistMemberRoles env allMap db).userEdges = db.userEdges ∧
    (persistMemberRoles env allMap db).teamEdges = db.teamEdges ∧
    (persistMemberRoles env allMap db).evals = db.evals ∧
    (persistMemberRoles env allMap db).nextRoleId = db.nextRoleId ∧
    (persistMemberRoles env allMap db).nextEvalId = db.nextEvalId := by
  unfold persistMemberRoles
  generalize env.teams = l
  induction l generalizing db with
  | nil => exact ⟨rfl, rfl, rfl, rfl, rfl, rfl⟩
  | cons t rest ih =>
    rw [List.foldl_cons]
    have hs := persistTeamStep_preserves allMap db t
    have hr := ih (persistTeamStep allMap db t)
    exact ⟨hr.1.trans hs.1, hr.2.1.trans hs.2.1, hr.2.2.1.trans hs.2.2.1,
      hr.2.2.2.1.trans hs.2.2.2.1, hr.2.2.2.2.1.trans hs.2.2.2.2.1,
      hr.2.2.2.2.2.trans hs.2.2.2.2.2⟩

/-- `compute_team_member_roles` rewrites only `provides_teams`. -/
theorem compute_team_member_roles_preserves (fuel : Nat) (env : MEnv) (db d : Db)
    (h : compute_team_member_roles fuel env db = some d) :
    d.objectRoles = db.objectRoles ∧ d.userEdges = db.userEdges ∧
    d.teamEdges = db.teamEdges ∧ d.evals = db.evals ∧
    d.nextRoleId = db.nextRoleId ∧ d.nextEvalId = db.nextEvalId := by
  simp only [compute_team_member_roles, Option.map_eq_some'] at h
  obtain ⟨m, _, hp⟩ := h
  rw [← hp]
  exact persistMemberRoles_preserves env m db

/-- `compute_object_role_permissions` rewrites only the evaluation rows and
the row counter. -/
theorem compute_object_role_permissions_fields (env : MEnv) (db : Db) (s : Finset Nat) :
    (compute_object_role_permissions env db s).objectRoles = db.objectRoles ∧
    (compute_object_role_permissions env db s).userEdges = db.userEdges ∧
    (compute_object_role_permissions env db s).teamEdges = db.teamEdges ∧
    (compute_object_role_permissions env db s).providesTeams = db.providesTeams ∧
    (compute_object_role_permissions env db s).nextRoleId = db.nextRoleId :=
  ⟨rfl, rfl, rfl, rfl, rfl⟩

/-- Case characterization of `update_after_assignment`. -/
theorem update_after_assignment_eq (fuel : Nat) (env : MEnv) (ut : Bool) (s : Finset Nat)
    (db : Db) :
    update_after_assignment fuel env ut s db =
      match ut with
      | true =>
          (match compute_team_member_roles fuel env db with
           | none => Except.error RbacError.fuelExhausted
           | some d => Except.ok (compute_object_role_permissions env d s))
      | false => Except.ok (compute_object_role_permissions env db s) := by
  cases ut
  · rfl
  · unfold update_after_assignment
    cases compute_team_member_roles fuel env db <;> rfl

/-- Unfolding of `give_or_remove_permission` when the object role already
exists. -/
theorem give_or_remove_found (env : MEnv) (fuel : Nat) (db : Db) (rd : RoleDefn)
    (actor : Actor) (objCt objId : Nat) (role : ObjRole) (giving : Bool)
    (hfound : db.objectRoles.find?
      (fun r => r.rdId = rd.id && r.ct = objCt && r.objId = objId) = some role) :
    give_or_remove_permission env fuel db rd actor objCt objId giving =
      (needed_updates_on_assignment env db rd actor role false true).bind (fun upd =>
        let db1 := match actor with
          | .user u =>
              if giving then { db with userEdges := addEdge db.userEdges u role.id }
              else { db with userEdges := removeEdge db.userEdges u role.id }
          | .team t =>
              if giving then { db with teamEdges := addEdge db.teamEdges t role.id }
              else { db with teamEdges := removeEdge db.teamEdges t role.id }
        let p := if !giving && !roleHasActors db1 role.id then
            (deleteRoleCascade db1 role.id, upd.2.erase role.id)
          else (db1, upd.2)
        update_after_assignment fuel env upd.1 p.2 p.1) := by
  unfold give_or_remove_permission
  rw [hfound]
  cases giving <;> rfl

/-- **C6 (counterexample).** The zero-actor invariant is not preserved by
actor deletion: after the C7 assignment gives object role 31 to user 50 as
its only actor, deleting user 50 cascades only the membership edge (the
engine registers no signal for the user model), leaving object role 31 in
place with zero users and zero teams. -/
theorem zero_actor_role_after_user_delete :
    ∃ db1, give_permission envC7 1 dbC7 rdC7 (.user 50) 6 10 = .ok db1 ∧
      (delete_user_cascade db1 50).objectRoles.map (fun r => r.id) = [31] ∧
      roleHasActors (delete_user_cascade db1 50) 31 = false := by
  refine ⟨_, rfl, ?_, ?_⟩
  · rfl
  · rfl

/-- **C6 (amended).** The removal path does maintain the invariant: if the
object role for the assignment exists, user `u` is its only user actor and no
team holds it, then any successful `remove_permission` by `u` deletes the
object role — no object role with that id survives.  (Deleting the user
instead, as the counterexample shows, leaves the empty object role behind.) -/
theorem remove_permission_deletes_last_actor_role (env : MEnv) (fuel : Nat) (db : Db)
    (rd : RoleDefn) (u objCt objId : Nat) (role : ObjRole) (db2 : Db)
    (hfound : db.objectRoles.find?
      (fun r => r.rdId = rd.id && r.ct = objCt && r.objId = objId) = some role)
    (honly : ∀ e ∈ db.userEdges, e.2 = role.id → e.1 = u)
    (hnoteam : ∀ e ∈ db.teamEdges, e.2 ≠ role.id)
    (hrem : remove_permission env fuel db rd (.user u) objCt objId = .ok db2) :
    ∀ r ∈ db2.objectRoles, r.id ≠ role.id := by
  unfold remove_permission at hrem
  rw [give_or_remove_found env fuel db rd (.user u) objCt objId role false hfound] at hrem
  have hact : roleHasActors { db with userEdges := removeEdge db.userEdges u role.id }
      role.id = false := by
    cases hA : roleHasActors { db with userEdges := removeEdge db.userEdges u role.id } role.id
    · rfl
    · exfalso
      have hA2 := hA
      simp only [roleHasActors, Bool.or_eq_true, List.any_eq_true, decide_eq_true_eq] at hA2
      rcases hA2 with ⟨e, he, hh⟩ | ⟨e, he, hh⟩
      · have hmem := List.mem_filter.mp he
        have heu : e.1 = u := honly e hmem.1 hh
        have hcond := hmem.2
        simp [heu, hh] at hcond
      · exact hnoteam e he hh
  cases hu : needed_updates_on_assignment env db rd (.user u) role false true with
  | error e => rw [hu] at hrem; simp [Except.bind] at hrem
  | ok upd =>
    rw [hu] at hrem
    have h3 : update_after_assignment fuel env upd.1 (upd.2.erase role.id)
        (deleteRoleCascade { db with userEdges := removeEdge db.userEdges u role.id }
          role.id) = Except.ok db2 := by
      have h2 : update_after_assignment fuel env upd.1
          ((if !false && !roleHasActors
                { db with userEdges := removeEdge db.userEdges u role.id } role.id then
              (deleteRoleCascade { db with userEdges := removeEdge db.userEdges u role.id }
                role.id, upd.2.erase role.id)
            else ({ db with userEdges := removeEdge db.userEdges u role.id }, upd.2)).2)
          ((if !false && !roleHasActors
                { db with userEdges := removeEdge db.userEdges u role.id } role.id then
              (deleteRoleCascade { db with userEdges := removeEdge db.userEdges u role.id }
                role.id, upd.2.erase role.id)
            else ({ db with userEdges := removeEdge db.userEdges u role.id }, upd.2)).1)
          = Except.ok db2 := hrem
      rw [hact] at h2
      simpa using h2
    rw [update_after_assignment_eq] at h3
    cases hb : upd.1 with
    | false =>
      rw [hb] at h3
      have h4 : Except.ok (compute_object_role_permissions env
          (deleteRoleCascade { db with userEdges := removeEdge db.userEdges u role.id }
            role.id) (upd.2.erase role.id)) = Except.ok db2 := h3
      injection h4 with hdb
      intro r hr
      rw [← hdb] at hr
      rw [(compute_object_role_permissions_fields env _ _).1] at hr
      have hr2 : r ∈ db.objectRoles.filter (fun r => r.id ≠ role.id) := hr
      exact of_decide_eq_true (List.mem_filter.mp hr2).2
    | true =>
      rw [hb] at h3
      cases hct : compute_team_member_roles fuel env
          (deleteRoleCascade { db with userEdges := removeEdge db.userEdges u role.id }
            role.id) with
      | none =>
        rw [hct] at h3
        have h5 : (Except.error RbacError.fuelExhausted : Except RbacError Db) =
            Except.ok db2 := h3
        exact absurd h5 (by simp)
      | some d =>
        rw [hct] at h3
        have h4 : Except.ok (compute_object_role_permissions env d (upd.2.erase role.id)) =
            Except.ok db2 := h3
        injection h4 with hdb
        intro r hr
        rw [← hdb] at hr
        rw [(compute_object_role_permissions_fields env d _).1] at hr
        rw [(compute_team_member_roles_preserves fuel env _ d hct).1] at hr
        have hr2 : r ∈ db.objectRoles.filter (fun r => r.id ≠ role.id) := hr
        exact of_decide_eq_true (List.mem_filter.mp hr2).2

/-- Witness for the amended C6 on the concrete single-actor state. -/
theorem remove_permission_deletes_last_actor_role_witness :
    ∃ db2, remove_permission envC7 1 dbC6 rdC7 (.user 50) 6 10 = .ok db2 ∧
      ∀ r ∈ db2.objectRoles, r.id ≠ 31 := by
  refine ⟨_, rfl, ?_⟩
  exact remove_permission_deletes_last_actor_role envC7 1 dbC6 rdC7 50 6 10
    ⟨31, 2, 6, 10⟩ _ rfl (by decide) (by decide) rfl

/-- Membership after a dedup-list insertion. -/
theorem mem_listInsert {α : Type} [DecidableEq α] (acc : List α) (k x : α)
    (h : x ∈ listInsert acc k) : x ∈ acc ∨ x = k := by
  unfold listInsert at h
  split at h
  · exact Or.inl h
  · rcases List.mem_append.mp h with h | h
    · exact Or.inl h
    · exact Or.inr (List.mem_singleton.mp h)

/-- Generic accumulator invariant for left folds: if every step only adds
elements satisfying `P`, the fold only adds elements satisfying `P`. -/
theorem foldl_mem_invariant {α β : Type} (P : α → Prop) (step : List α → β → List α) :
    ∀ (l : List β), (∀ acc b, b ∈ l → ∀ x, x ∈ step acc b → x ∈ acc ∨ P x) →
      ∀ (acc : List α) (x : α), x ∈ List.foldl step acc l → x ∈ acc ∨ P x := by
  intro l
  induction l with
  | nil => intro _ acc x hx; exact Or.inl hx
  | cons b rest ih =>
    intro hstep acc x hx
    rw [List.foldl_cons] at hx
    rcases ih (fun acc c hc => hstep acc c (List.mem_cons_of_mem b hc)) (step acc b) x hx with
      h | h
    · exact hstep acc b (List.mem_cons_self b rest) x h
    · exact Or.inr h

/-- Every key emitted by `expected_direct_permissions` carries a codename of
some permission of the role definition. -/
theorem expected_direct_codenames (env : MEnv) (role : ObjRole) :
    ∀ k ∈ expected_direct_permissions env role,
      ∃ p ∈ rdPerms env role.rdId, k.1 = p.codename := by
  intro k hk
  unfold expected_direct_permissions at hk
  have hmain := foldl_mem_invariant
    (fun k => ∃ p ∈ rdPerms env role.rdId, k.1 = p.codename) _ (rdPerms env role.rdId)
    ?_ [] k hk
  · rcases hmain with h | h
    · cases h
    · exact h
  · intro acc perm hperm x hx
    split at hx
    · rcases mem_listInsert acc _ x hx with h | h
      · exact Or.inl h
      · exact Or.inr ⟨perm, hperm, by rw [h]⟩
    · split at hx
      · split at hx
        · rcases mem_listInsert acc _ x hx with h | h
          · exact Or.inl h
          · exact Or.inr ⟨perm, hperm, by rw [h]⟩
        · exact Or.inl hx
      · split at hx
        · rcases foldl_mem_invariant (fun k => k.1 = perm.codename) _ _
            (fun a i _ x hx => by
              rcases mem_listInsert a _ x hx with h | h
              · exact Or.inl h
              · exact Or.inr (by rw [h])) acc x hx with h | h
          · exact Or.inl h
          · exact Or.inr ⟨perm, hperm, h⟩
        · exact Or.inl hx

/-- Every bulk-inserted row for a fresh role belongs to that role and carries
a codename of the role definition. -/
theorem freshRoleRows_facts (env : MEnv) (db2 : Db) (R : ObjRole) :
    ∀ row ∈ freshRoleRows env db2 R,
      row.roleId = R.id ∧ ∃ p ∈ rdPerms env R.rdId, row.codename = p.codename := by
  intro row hrow
  unfold freshRoleRows at hrow
  rcases List.mem_map.mp hrow with ⟨ie, hie, hrow⟩
  have h2 : ie.2 ∈ (expected_direct_permissions env R).map (fun k => (R.id, k)) := by
    have hsnd := List.enum_map_snd ((expected_direct_permissions env R).map
      (fun k => (R.id, k)))
    rw [← hsnd]
    exact List.mem_map_of_mem Prod.snd hie
  rcases List.mem_map.mp h2 with ⟨k, hk, hie2⟩
  obtain ⟨p, hp, hk1⟩ := expected_direct_codenames env R k hk
  constructor
  · rw [← hrow]
    show ie.2.1 = R.id
    rw [← hie2]
  · refine ⟨p, hp, ?_⟩
    rw [← hrow]
    show ie.2.2.1 = p.codename
    rw [← hie2]
    exact hk1

/-- A team with no `member_team` evaluation tuple on it has no ancestor
roles. -/
theorem team_ancestor_roles_eq_empty (env : MEnv) (db : Db) (t : Nat)
    (h : ∀ e ∈ db.evals,
      ¬(e.codename = env.teamPermission ∧ e.objId = t ∧ e.ct = env.teamCt)) :
    team_ancestor_roles env db t = ∅ := by
  unfold team_ancestor_roles
  rw [List.filter_eq_nil_iff.mpr (fun e he => by simpa using h e he)]
  rfl

/-- A role providing no team membership has no descendent roles. -/
theorem descendent_roles_empty (db : Db) (rid : Nat)
    (h : ∀ e ∈ db.providesTeams, e.1 ≠ rid) :
    descendent_roles db rid = ∅ := by
  unfold descendent_roles
  rw [List.filter_eq_nil_iff.mpr (fun e he => by simpa using h e he)]
  rfl

/-- Filtering an id-fresh role list extended by the fresh role for the
singleton dirty set keeps exactly the fresh role. -/
theorem filter_append_fresh (l : List ObjRole) (R : ObjRole)
    (h : ∀ r ∈ l, r.id ≠ R.id) :
    (l ++ [R]).filter (fun r => r.id ∈ ({R.id} : Finset Nat)) = [R] := by
  rw [List.filter_append]
  rw [List.filter_eq_nil_iff.mpr (fun r hr => by simp [h r hr])]
  simp

/-- Running the materializer on an empty dirty set is the identity. -/
theorem compute_object_role_permissions_empty (env : MEnv) (db2 : Db) :
    compute_object_role_permissions env db2 (∅ : Finset Nat) = db2 := by
  simp only [compute_object_role_permissions]
  have ht : db2.objectRoles.filter (fun r => r.id ∈ (∅ : Finset Nat)) = [] :=
    List.filter_eq_nil_iff.mpr (fun r hr => by simp)
  rw [ht]
  simp

/-- Dirty set and recompute flag of `needed_updates_on_assignment` on the
giving path for a role definition without `member_team`, when the actor (if a
team) has no ancestor roles and the target role provides no membership. -/
theorem needed_updates_give_flat (env : MEnv) (db0 : Db) (rd : RoleDefn) (actor : Actor)
    (R : ObjRole) (created : Bool)
    (hnm : rd.perms.any (fun p => p.codename = env.teamPermission) = false)
    (hval : validate_assignment_enabled env actor R.ct false = .ok ())
    (hanc : ∀ tt, actor = Actor.team tt → team_ancestor_roles env db0 tt = ∅)
    (hdesc : descendent_roles db0 R.id = ∅) :
    needed_updates_on_assignment env db0 rd actor R created true =
      .ok (false, if created then ({R.id} : Finset Nat) else ∅) := by
  cases actor with
  | user u =>
    unfold needed_updates_on_assignment
    rw [hnm, hval]
    rfl
  | team t =>
    have h1 : needed_updates_on_assignment env db0 rd (.team t) R created true =
        .ok (false, ((if created then ({R.id} : Finset Nat) else ∅) ∪
          team_ancestor_roles env db0 t) ∪ descendent_roles db0 R.id) := by
      unfold needed_updates_on_assignment
      rw [hnm, hval]
      rfl
    rw [h1, hanc t rfl, hdesc, Finset.union_empty, Finset.union_empty]

/-- Unfolding of `give_or_remove_permission` on the giving path when no
object role exists yet: the role is created, the dirty set is computed on the
extended state, the membership edge is added and the update pipeline runs. -/
theorem give_or_remove_notfound_give (env : MEnv) (fuel : Nat) (db : Db) (rd : RoleDefn)
    (actor : Actor) (objCt objId : Nat)
    (hfound : db.objectRoles.find?
      (fun r => r.rdId = rd.id && r.ct = objCt && r.objId = objId) = none) :
    give_or_remove_permission env fuel db rd actor objCt objId true =
      (needed_updates_on_assignment env
          { db with objectRoles := db.objectRoles ++ [⟨db.nextRoleId, rd.id, objCt, objId⟩],
                    nextRoleId := db.nextRoleId + 1 }
          rd actor ⟨db.nextRoleId, rd.id, objCt, objId⟩ true true).bind (fun upd =>
        update_after_assignment fuel env upd.1 upd.2
          (match actor with
           | .user u =>
               { db with
                   objectRoles := db.objectRoles ++ [⟨db.nextRoleId, rd.id, objCt, objId⟩],
                   nextRoleId := db.nextRoleId + 1,
                   userEdges := addEdge db.userEdges u db.nextRoleId }
           | .team t =>
               { db with
                   objectRoles := db.objectRoles ++ [⟨db.nextRoleId, rd.id, objCt, objId⟩],
                   nextRoleId := db.nextRoleId + 1,
                   teamEdges := addEdge db.teamEdges t db.nextRoleId })) := by
  unfold give_or_remove_permission
  rw [hfound]
  cases actor <;> rfl

/-- Reconciling the cache of a single freshly created object role appends
exactly the bulk-inserted rows of its direct expectations and deletes
nothing. -/
theorem compute_object_role_permissions_single_fresh (env : MEnv) (db2 : Db) (R : ObjRole)
    (hmem : db2.objectRoles.filter (fun r => r.id ∈ ({R.id} : Finset Nat)) = [R])
    (hevals : ∀ e ∈ db2.evals, e.roleId ≠ R.id)
    (hprov : ∀ e ∈ db2.providesTeams, e.1 ≠ R.id) :
    compute_object_role_permissions env db2 ({R.id} : Finset Nat) =
      { db2 with
          evals := db2.evals ++ freshRoleRows env db2 R,
          nextEvalId := db2.nextEvalId + (expected_direct_permissions env R).length } := by
  have hncu : needed_cache_updates env db2 R = ([], expected_direct_permissions env R) := by
    simp only [needed_cache_updates]
    have h1 : db2.evals.filter (fun e => e.roleId = R.id) = [] :=
      List.filter_eq_nil_iff.mpr (fun e he => by simpa using hevals e he)
    rw [h1]
    have h2 : expectedOf env db2 R = expected_direct_permissions env R := by
      simp only [expectedOf]
      have h3 : db2.providesTeams.filter (fun e => e.1 = R.id) = [] :=
        List.filter_eq_nil_iff.mpr (fun e he => by simpa using hprov e he)
      rw [h3]
      rfl
    rw [h2]
    simp
  simp only [compute_object_role_permissions]
  rw [hmem]
  simp only [List.map_cons, List.map_nil]
  simp only [hncu]
  have h4 : db2.evals.filter (fun e => e.id ∉ ([] : List Nat)) = db2.evals :=
    List.filter_eq_self.mpr (fun e he => by simp)
  simp only [List.foldl_cons, List.foldl_nil]
  simp only [List.append_nil, List.nil_append]
  rw [h4]
  rw [freshRoleRows]
  simp [List.length_map]

/-- Deleting the cascade of a fresh role from a state that extends `db` only
by that role, one membership edge already removed and rows of that role
restores every relation of `db`. -/
theorem deleteRoleCascade_restores (dbx db : Db) (R : ObjRole) (rows : List EvalRow)
    (hor : dbx.objectRoles = db.objectRoles ++ [R])
    (hue : dbx.userEdges = db.userEdges)
    (hte : dbx.teamEdges = db.teamEdges)
    (hpt : dbx.providesTeams = db.providesTeams)
    (hev : dbx.evals = db.evals ++ rows)
    (hrows : ∀ e ∈ rows, e.roleId = R.id)
    (hfr : ∀ r ∈ db.objectRoles, r.id ≠ R.id)
    (hfu : ∀ e ∈ db.userEdges, e.2 ≠ R.id)
    (hft : ∀ e ∈ db.teamEdges, e.2 ≠ R.id)
    (hfp : ∀ e ∈ db.providesTeams, e.1 ≠ R.id)
    (hfe : ∀ e ∈ db.evals, e.roleId ≠ R.id) :
    (deleteRoleCascade dbx R.id).evals = db.evals ∧
    (deleteRoleCascade dbx R.id).objectRoles = db.objectRoles ∧
    (deleteRoleCascade dbx R.id).userEdges = db.userEdges ∧
    (deleteRoleCascade dbx R.id).teamEdges = db.teamEdges ∧
    (deleteRoleCascade dbx R.id).providesTeams = db.providesTeams := by
  refine ⟨?_, ?_, ?_, ?_, ?_⟩
  · show dbx.evals.filter (fun e => e.roleId ≠ R.id) = db.evals
    rw [hev, List.filter_append]
    have h1 : db.evals.filter (fun e => e.roleId ≠ R.id) = db.evals :=
      List.filter_eq_self.mpr (fun e he => decide_eq_true (hfe e he))
    have h2 : rows.filter (fun e => e.roleId ≠ R.id) = [] :=
      List.filter_eq_nil_iff.mpr (fun e he => by simp [hrows e he])
    rw [h1, h2]
    exact List.append_nil _
  · show dbx.objectRoles.filter (fun r => r.id ≠ R.id) = db.objectRoles
    rw [hor, List.filter_append]
    have h1 : db.objectRoles.filter (fun r => r.id ≠ R.id) = db.objectRoles :=
      List.filter_eq_self.mpr (fun r hr => decide_eq_true (hfr r hr))
    have h2 : ([R].filter (fun r => r.id ≠ R.id)) = [] := by simp
    rw [h1, h2]
    exact List.append_nil _
  · show dbx.userEdges.filter (fun e => e.2 ≠ R.id) = db.userEdges
    rw [hue]
    exact List.filter_eq_self.mpr (fun e he => decide_eq_true (hfu e he))
  · show dbx.teamEdges.filter (fun e => e.2 ≠ R.id) = db.teamEdges
    rw [hte]
    exact List.filter_eq_self.mpr (fun e he => decide_eq_true (hft e he))
  · show dbx.providesTeams.filter (fun e => e.1 ≠ R.id) = db.providesTeams
    rw [hpt]
    exact List.filter_eq_self.mpr (fun e he => decide_eq_true (hfp e he))

/-- The removal branch of `give_or_remove_permission` for a user actor whose
edge removal leaves the role with no actors: the role cascade runs and the
materializer is invoked on the dirty set minus the deleted role. -/
theorem give_or_remove_found_remove_dead (env : MEnv) (fuel : Nat) (db : Db)
    (rd : RoleDefn) (u objCt objId : Nat) (role : ObjRole) (s : Finset Nat)
    (hfound : db.objectRoles.find?
      (fun r => r.rdId = rd.id && r.ct = objCt && r.objId = objId) = some role)
    (hneed : needed_updates_on_assignment env db rd (.user u) role false true =
      .ok (false, s))
    (hact : roleHasActors { db with userEdges := removeEdge db.userEdges u role.id }
      role.id = false) :
    give_or_remove_permission env fuel db rd (.user u) objCt objId false =
      Except.ok (compute_object_role_permissions env
        (deleteRoleCascade { db with userEdges := removeEdge db.userEdges u role.id }
          role.id)
        (s.erase role.id)) := by
  rw [give_or_remove_found env fuel db rd (.user u) objCt objId role false hfound, hneed]
  show update_after_assignment fuel env false
      ((if !false && !roleHasActors { db with userEdges := removeEdge db.userEdges u role.id }
            role.id then
          (deleteRoleCascade { db with userEdges := removeEdge db.userEdges u role.id } role.id,
            s.erase role.id)
        else ({ db with userEdges := removeEdge db.userEdges u role.id }, s)).2)
      ((if !false && !roleHasActors { db with userEdges := removeEdge db.userEdges u role.id }
            role.id then
          (deleteRoleCascade { db with userEdges := removeEdge db.userEdges u role.id } role.id,
            s.erase role.id)
        else ({ db with userEdges := removeEdge db.userEdges u role.id }, s)).1) = _
  rw [hact]
  rfl

/-- The removal branch of `give_or_remove_permission` for a team actor whose
edge removal leaves the role with no actors. -/
theorem give_or_remove_found_remove_dead_team (env : MEnv) (fuel : Nat) (db : Db)
    (rd : RoleDefn) (t objCt objId : Nat) (role : ObjRole) (s : Finset Nat)
    (hfound : db.objectRoles.find?
      (fun r => r.rdId = rd.id && r.ct = objCt && r.objId = objId) = some role)
    (hneed : needed_updates_on_assignment env db rd (.team t) role false true =
      .ok (false, s))
    (hact : roleHasActors { db with teamEdges := removeEdge db.teamEdges t role.id }
      role.id = false) :
    give_or_remove_permission env fuel db rd (.team t) objCt objId false =
      Except.ok (compute_object_role_permissions env
        (deleteRoleCascade { db with teamEdges := removeEdge db.teamEdges t role.id }
          role.id)
        (s.erase role.id)) := by
  rw [give_or_remove_found env fuel db rd (.team t) objCt objId role false hfound, hneed]
  show update_after_assignment fuel env false
      ((if !false && !roleHasActors { db with teamEdges := removeEdge db.teamEdges t role.id }
            role.id then
          (deleteRoleCascade { db with teamEdges := removeEdge db.teamEdges t role.id } role.id,
            s.erase role.id)
        else ({ db with teamEdges := removeEdge db.teamEdges t role.id }, s)).2)
      ((if !false && !roleHasActors { db with teamEdges := removeEdge db.teamEdges t role.id }
            role.id then
          (deleteRoleCascade { db with teamEdges := removeEdge db.teamEdges t role.id } role.id,
            s.erase role.id)
        else ({ db with teamEdges := removeEdge db.teamEdges t role.id }, s)).1) = _
  rw [hact]
  rfl

/-- Removing a user assignment from a state that extends `db` by exactly one
fresh role, the membership edge of that user and the materialized rows of
that role restores all five relations of `db`. -/
theorem remove_restores_user (env : MEnv) (fuel : Nat) (db dbMid : Db) (rd : RoleDefn)
    (u objCt objId : Nat) (R : ObjRole) (rows : List EvalRow)
    (hRrd : R.rdId = rd.id) (hRct : R.ct = objCt) (hRoid : R.objId = objId)
    (hOR : dbMid.objectRoles = db.objectRoles ++ [R])
    (hUE : dbMid.userEdges = db.userEdges ++ [(u, R.id)])
    (hTE : dbMid.teamEdges = db.teamEdges)
    (hPT : dbMid.providesTeams = db.providesTeams)
    (hEV : dbMid.evals = db.evals ++ rows)
    (hrows : ∀ e ∈ rows, e.roleId = R.id)
    (hnm : rd.perms.any (fun p => p.codename = env.teamPermission) = false)
    (hfound : db.objectRoles.find?
      (fun r => r.rdId = rd.id && r.ct = objCt && r.objId = objId) = none)
    (hfr : ∀ r ∈ db.objectRoles, r.id ≠ R.id)
    (hfu : ∀ e ∈ db.userEdges, e.2 ≠ R.id)
    (hft : ∀ e ∈ db.teamEdges, e.2 ≠ R.id)
    (hfp : ∀ e ∈ db.providesTeams, e.1 ≠ R.id)
    (hfe : ∀ e ∈ db.evals, e.roleId ≠ R.id)
    (hval : validate_assignment_enabled env (Actor.user u) objCt false = .ok ()) :
    ∃ dbFin,
      remove_permission env fuel dbMid rd (Actor.user u) objCt objId = .ok dbFin ∧
      dbFin.evals = db.evals ∧ dbFin.objectRoles = db.objectRoles ∧
      dbFin.userEdges = db.userEdges ∧ dbFin.teamEdges = db.teamEdges ∧
      dbFin.providesTeams = db.providesTeams := by
  have hfound2 : dbMid.objectRoles.find?
      (fun r => r.rdId = rd.id && r.ct = objCt && r.objId = objId) = some R := by
    rw [hOR, List.find?_append, hfound, Option.none_or]
    exact List.find?_cons_of_pos _ (by simp [hRrd, hRct, hRoid])
  have hdesc2 : descendent_roles dbMid R.id = ∅ :=
    descendent_roles_empty dbMid R.id (by rw [hPT]; exact hfp)
  have hneed2 : needed_updates_on_assignment env dbMid rd (Actor.user u) R false true =
      .ok (false, (∅ : Finset Nat)) :=
    needed_updates_give_flat env dbMid rd (Actor.user u) R false hnm (hRct ▸ hval)
      (fun tt htt => nomatch htt) hdesc2
  have hredge : removeEdge dbMid.userEdges u R.id = db.userEdges := by
    rw [hUE]
    unfold removeEdge
    rw [List.filter_append]
    have hkeep : db.userEdges.filter (fun e => ¬(e.1 = u ∧ e.2 = R.id)) = db.userEdges :=
      List.filter_eq_self.mpr (fun e he => decide_eq_true (fun hcon => hfu e he hcon.2))
    have hdrop : ([((u : Nat), R.id)].filter (fun e => ¬(e.1 = u ∧ e.2 = R.id))) = [] := by
      simp
    rw [hkeep, hdrop]
    exact List.append_nil _
  have hact : roleHasActors { dbMid with userEdges := removeEdge dbMid.userEdges u R.id }
      R.id = false := by
    unfold roleHasActors
    show (((removeEdge dbMid.userEdges u R.id).any (fun e => e.2 = R.id)) ||
      (dbMid.teamEdges.any (fun e => e.2 = R.id))) = false
    rw [hredge, hTE]
    have h1 : db.userEdges.any (fun e => e.2 = R.id) = false :=
      List.any_eq_false.mpr (fun e he => by simpa using hfu e he)
    have h2 : db.teamEdges.any (fun e => e.2 = R.id) = false :=
      List.any_eq_false.mpr (fun e he => by simpa using hft e he)
    rw [h1, h2]
    rfl
  have hrm := give_or_remove_found_remove_dead env fuel dbMid rd u objCt objId R ∅
    hfound2 hneed2 hact
  have hres := deleteRoleCascade_restores
    { dbMid with userEdges := removeEdge dbMid.userEdges u R.id } db R rows
    hOR hredge hTE hPT hEV hrows hfr hfu hft hfp hfe
  have hce : compute_object_role_permissions env
      (deleteRoleCascade { dbMid with userEdges := removeEdge dbMid.userEdges u R.id } R.id)
      ((∅ : Finset Nat).erase R.id) =
      deleteRoleCascade { dbMid with userEdges := removeEdge dbMid.userEdges u R.id } R.id := by
    rw [Finset.erase_empty]
    exact compute_object_role_permissions_empty env _
  refine ⟨_, hrm, ?_, ?_, ?_, ?_, ?_⟩
  · rw [hce]; exact hres.1
  · rw [hce]; exact hres.2.1
  · rw [hce]; exact hres.2.2.1
  · rw [hce]; exact hres.2.2.2.1
  · rw [hce]; exact hres.2.2.2.2

/-- Removing a team assignment from a state that extends `db` by exactly one
fresh role, the membership edge of that team and the materialized rows of
that role (none of them a `member_team` tuple) restores all five relations of
`db`. -/
theorem remove_restores_team (env : MEnv) (fuel : Nat) (db dbMid : Db) (rd : RoleDefn)
    (t objCt objId : Nat) (R : ObjRole) (rows : List EvalRow)
    (hRrd : R.rdId = rd.id) (hRct : R.ct = objCt) (hRoid : R.objId = objId)
    (hOR : dbMid.objectRoles = db.objectRoles ++ [R])
    (hUE : dbMid.userEdges = db.userEdges)
    (hTE : dbMid.teamEdges = db.teamEdges ++ [(t, R.id)])
    (hPT : dbMid.providesTeams = db.providesTeams)
    (hEV : dbMid.evals = db.evals ++ rows)
    (hrows : ∀ e ∈ rows, e.roleId = R.id)
    (hrowsNm : ∀ e ∈ rows, e.codename ≠ env.teamPermission)
    (hancDb : ∀ e ∈ db.evals,
      ¬(e.codename = env.teamPermission ∧ e.objId = t ∧ e.ct = env.teamCt))
    (hnm : rd.perms.any (fun p => p.codename = env.teamPermission) = false)
    (hfound : db.objectRoles.find?
      (fun r => r.rdId = rd.id && r.ct = objCt && r.objId = objId) = none)
    (hfr : ∀ r ∈ db.objectRoles, r.id ≠ R.id)
    (hfu : ∀ e ∈ db.userEdges, e.2 ≠ R.id)
    (hft : ∀ e ∈ db.teamEdges, e.2 ≠ R.id)
    (hfp : ∀ e ∈ db.providesTeams, e.1 ≠ R.id)
    (hfe : ∀ e ∈ db.evals, e.roleId ≠ R.id)
    (hval : validate_assignment_enabled env (Actor.team t) objCt false = .ok ()) :
    ∃ dbFin,
      remove_permission env fuel dbMid rd (Actor.team t) objCt objId = .ok dbFin ∧
      dbFin.evals = db.evals ∧ dbFin.objectRoles = db.objectRoles ∧
      dbFin.userEdges = db.userEdges ∧ dbFin.teamEdges = db.teamEdges ∧
      dbFin.providesTeams = db.providesTeams := by
  have hfound2 : dbMid.objectRoles.find?
      (fun r => r.rdId = rd.id && r.ct = objCt && r.objId = objId) = some R := by
    rw [hOR, List.find?_append, hfound, Option.none_or]
    exact List.find?_cons_of_pos _ (by simp [hRrd, hRct, hRoid])
  have hdesc2 : descendent_roles dbMid R.id = ∅ :=
    descendent_roles_empty dbMid R.id (by rw [hPT]; exact hfp)
  have hancM : ∀ tt, Actor.team t = Actor.team tt → team_ancestor_roles env dbMid tt = ∅ := by
    intro tt htt
    injection htt with hh
    subst hh
    refine team_ancestor_roles_eq_empty env dbMid t ?_
    intro e he hcontra
    rw [hEV] at he
    rcases List.mem_append.mp he with h | h
    · exact hancDb e h hcontra
    · exact hrowsNm e h hcontra.1
  have hneed2 : needed_updates_on_assignment env dbMid rd (Actor.team t) R false true =
      .ok (false, (∅ : Finset Nat)) := by
    have h := needed_updates_give_flat env dbMid rd (Actor.team t) R false hnm (hRct ▸ hval)
      hancM hdesc2
    exact h
  have hredge : removeEdge dbMid.teamEdges t R.id = db.teamEdges := by
    rw [hTE]
    unfold removeEdge
    rw [List.filter_append]
    have hkeep : db.teamEdges.filter (fun e => ¬(e.1 = t ∧ e.2 = R.id)) = db.teamEdges :=
      List.filter_eq_self.mpr (fun e he => decide_eq_true (fun hcon => hft e he hcon.2))
    have hdrop : ([((t : Nat), R.id)].filter (fun e => ¬(e.1 = t ∧ e.2 = R.id))) = [] := by
      simp
    rw [hkeep, hdrop]
    exact List.append_nil _
  have hact : roleHasActors { dbMid with teamEdges := removeEdge dbMid.teamEdges t R.id }
      R.id = false := by
    unfold roleHasActors
    show ((dbMid.userEdges.any (fun e => e.2 = R.id)) ||
      ((removeEdge dbMid.teamEdges t R.id).any (fun e => e.2 = R.id))) = false
    rw [hredge, hUE]
    have h1 : db.userEdges.any (fun e => e.2 = R.id) = false :=
      List.any_eq_false.mpr (fun e he => by simpa using hfu e he)
    have h2 : db.teamEdges.any (fun e => e.2 = R.id) = false :=
      List.any_eq_false.mpr (fun e he => by simpa using hft e he)
    rw [h1, h2]
    rfl
  have hrm := give_or_remove_found_remove_dead_team env fuel dbMid rd t objCt objId R ∅
    hfound2 hneed2 hact
  have hres := deleteRoleCascade_restores
    { dbMid with teamEdges := removeEdge dbMid.teamEdges t R.id } db R rows
    hOR hUE hredge hPT hEV hrows hfr hfu hft hfp hfe
  have hce : compute_object_role_permissions env
      (deleteRoleCascade { dbMid with teamEdges := removeEdge dbMid.teamEdges t R.id } R.id)
      ((∅ : Finset Nat).erase R.id) =
      deleteRoleCascade { dbMid with teamEdges := removeEdge dbMid.teamEdges t R.id } R.id := by
    rw [Finset.erase_empty]
    exact compute_object_role_permissions_empty env _
  refine ⟨_, hrm, ?_, ?_, ?_, ?_, ?_⟩
  · rw [hce]; exact hres.1
  · rw [hce]; exact hres.2.1
  · rw [hce]; exact hres.2.2.1
  · rw [hce]; exact hres.2.2.2.1
  · rw [hce]; exact hres.2.2.2.2

/-- **C5.** Round-trip of the assignment flow: from a well-formed state
(auto-increment role id fresh in every relation, no object role yet for the
triple) and for a role definition without `member_team` whose permissions the
registry reports faithfully, `give_permission` followed by
`remove_permission` by the same actor — a user, or a team that no role grants
membership to — succeeds and restores the evaluation-tuple cache bit for bit,
along with the object-role, membership and `provides_teams` relations. -/
theorem give_then_remove_roundtrip (env : MEnv) (fuel : Nat) (db : Db) (rd : RoleDefn)
    (actor : Actor) (objCt objId : Nat)
    (hrd : rdPerms env rd.id = rd.perms)
    (hnm : rd.perms.any (fun p => p.codename = env.teamPermission) = false)
    (hfound : db.objectRoles.find?
      (fun r => r.rdId = rd.id && r.ct = objCt && r.objId = objId) = none)
    (hfr : ∀ r ∈ db.objectRoles, r.id ≠ db.nextRoleId)
    (hfu : ∀ e ∈ db.userEdges, e.2 ≠ db.nextRoleId)
    (hft : ∀ e ∈ db.teamEdges, e.2 ≠ db.nextRoleId)
    (hfp : ∀ e ∈ db.providesTeams, e.1 ≠ db.nextRoleId)
    (hfe : ∀ e ∈ db.evals, e.roleId ≠ db.nextRoleId)
    (hval : validate_assignment_enabled env actor objCt false = .ok ())
    (hanc : ∀ tt, actor = Actor.team tt → ∀ e ∈ db.evals,
      ¬(e.codename = env.teamPermission ∧ e.objId = tt ∧ e.ct = env.teamCt)) :
    ∃ dbMid dbFin,
      give_permission env fuel db rd actor objCt objId = .ok dbMid ∧
      remove_permission env fuel dbMid rd actor objCt objId = .ok dbFin ∧
      dbFin.evals = db.evals ∧
      dbFin.objectRoles = db.objectRoles ∧
      dbFin.userEdges = db.userEdges ∧
      dbFin.teamEdges = db.teamEdges ∧
      dbFin.providesTeams = db.providesTeams := by
  cases actor with
  | user u =>
    have hdesc0 : descendent_roles
        { db with objectRoles := db.objectRoles ++ [⟨db.nextRoleId, rd.id, objCt, objId⟩],
                  nextRoleId := db.nextRoleId + 1 }
        (⟨db.nextRoleId, rd.id, objCt, objId⟩ : ObjRole).id = ∅ :=
      descendent_roles_empty _ _ (fun e he => hfp e he)
    have hneed : needed_updates_on_assignment env
        { db with objectRoles := db.objectRoles ++ [⟨db.nextRoleId, rd.id, objCt, objId⟩],
                  nextRoleId := db.nextRoleId + 1 }
        rd (Actor.user u) ⟨db.nextRoleId, rd.id, objCt, objId⟩ true true =
        .ok (false, ({db.nextRoleId} : Finset Nat)) :=
      needed_updates_give_flat env _ rd (Actor.user u) ⟨db.nextRoleId, rd.id, objCt, objId⟩
        true hnm hval (fun tt htt => nomatch htt) hdesc0
    have hgive : give_or_remove_permission env fuel db rd (Actor.user u) objCt objId true =
        Except.ok (compute_object_role_permissions env
          { db with objectRoles := db.objectRoles ++ [⟨db.nextRoleId, rd.id, objCt, objId⟩],
                    nextRoleId := db.nextRoleId + 1,
                    userEdges := addEdge db.userEdges u db.nextRoleId }
          ({db.nextRoleId} : Finset Nat)) := by
      rw [give_or_remove_notfound_give env fuel db rd (Actor.user u) objCt objId hfound, hneed]
      rfl
    have haddU : addEdge db.userEdges u db.nextRoleId =
        db.userEdges ++ [(u, db.nextRoleId)] := by
      have hni : (u, db.nextRoleId) ∉ db.userEdges := fun hmem2 => hfu _ hmem2 rfl
      unfold addEdge
      rw [if_neg hni]
    have hmid := compute_object_role_permissions_single_fresh env
        { db with objectRoles := db.objectRoles ++ [⟨db.nextRoleId, rd.id, objCt, objId⟩],
                  nextRoleId := db.nextRoleId + 1,
                  userEdges := addEdge db.userEdges u db.nextRoleId }
        ⟨db.nextRoleId, rd.id, objCt, objId⟩
        (filter_append_fresh db.objectRoles ⟨db.nextRoleId, rd.id, objCt, objId⟩
          (fun r hr => hfr r hr))
        (fun e he => hfe e he) (fun e he => hfp e he)
    obtain ⟨dbFin, hrem, he1, he2, he3, he4, he5⟩ := remove_restores_user env fuel db
      (compute_object_role_permissions env
        { db with objectRoles := db.objectRoles ++ [⟨db.nextRoleId, rd.id, objCt, objId⟩],
                  nextRoleId := db.nextRoleId + 1,
                  userEdges := addEdge db.userEdges u db.nextRoleId }
        ({db.nextRoleId} : Finset Nat))
      rd u objCt objId ⟨db.nextRoleId, rd.id, objCt, objId⟩
      (freshRoleRows env
        { db with objectRoles := db.objectRoles ++ [⟨db.nextRoleId, rd.id, objCt, objId⟩],
                  nextRoleId := db.nextRoleId + 1,
                  userEdges := addEdge db.userEdges u db.nextRoleId }
        ⟨db.nextRoleId, rd.id, objCt, objId⟩)
      rfl rfl rfl
      (compute_object_role_permissions_fields env _ _).1
      ((compute_object_role_permissions_fields env _ _).2.1.trans haddU)
      (compute_object_role_permissions_fields env _ _).2.2.1
      (compute_object_role_permissions_fields env _ _).2.2.2.1
      (congrArg Db.evals hmid)
      (fun e he => (freshRoleRows_facts env _ _ e he).1)
      hnm hfound
      (fun r hr => hfr r hr) (fun e he => hfu e he) (fun e he => hft e he)
      (fun e he => hfp e he) (fun e he => hfe e he)
      hval
    exact ⟨_, dbFin, hgive, hrem, he1, he2, he3, he4, he5⟩
  | team t =>
    have hdesc0 : descendent_roles
        { db with objectRoles := db.objectRoles ++ [⟨db.nextRoleId, rd.id, objCt, objId⟩],
                  nextRoleId := db.nextRoleId + 1 }
        (⟨db.nextRoleId, rd.id, objCt, objId⟩ : ObjRole).id = ∅ :=
      descendent_roles_empty _ _ (fun e he => hfp e he)
    have hanc0 : ∀ tt, Actor.team t = Actor.team tt → team_ancestor_roles env
        { db with objectRoles := db.objectRoles ++ [⟨db.nextRoleId, rd.id, objCt, objId⟩],
                  nextRoleId := db.nextRoleId + 1 } tt = ∅ := by
      intro tt htt
      injection htt with hh
      subst hh
      exact team_ancestor_roles_eq_empty env _ t (fun e he => hanc t rfl e he)
    have hneed : needed_updates_on_assignment env
        { db with objectRoles := db.objectRoles ++ [⟨db.nextRoleId, rd.id, objCt, objId⟩],
                  nextRoleId := db.nextRoleId + 1 }
        rd (Actor.team t) ⟨db.nextRoleId, rd.id, objCt, objId⟩ true true =
        .ok (false, ({db.nextRoleId} : Finset Nat)) := by
      have h := needed_updates_give_flat env
        { db with objectRoles := db.objectRoles ++ [⟨db.nextRoleId, rd.id, objCt, objId⟩],
                  nextRoleId := db.nextRoleId + 1 }
        rd (Actor.team t) ⟨db.nextRoleId, rd.id, objCt, objId⟩
        true hnm hval hanc0 hdesc0
      exact h
    have hgive : give_or_remove_permission env fuel db rd (Actor.team t) objCt objId true =
        Except.ok (compute_object_role_permissions env
          { db with objectRoles := db.objectRoles ++ [⟨db.nextRoleId, rd.id, objCt, objId⟩],
                    nextRoleId := db.nextRoleId + 1,
                    teamEdges := addEdge db.teamEdges t db.nextRoleId }
          ({db.nextRoleId} : Finset Nat)) := by
      rw [give_or_remove_notfound_give env fuel db rd (Actor.team t) objCt objId hfound, hneed]
      rfl
    have haddT : addEdge db.teamEdges t db.nextRoleId =
        db.teamEdges ++ [(t, db.nextRoleId)] := by
      have hni : (t, db.nextRoleId) ∉ db.teamEdges := fun hmem2 => hft _ hmem2 rfl
      unfold addEdge
      rw [if_neg hni]
    have hmid := compute_object_role_permissions_single_fresh env
        { db with objectRoles := db.objectRoles ++ [⟨db.nextRoleId, rd.id, objCt, objId⟩],
                  nextRoleId := db.nextRoleId + 1,
                  teamEdges := addEdge db.teamEdges t db.nextRoleId }
        ⟨db.nextRoleId, rd.id, objCt, objId⟩
        (filter_append_fresh db.objectRoles ⟨db.nextRoleId, rd.id, objCt, objId⟩
          (fun r hr => hfr r hr))
        (fun e he => hfe e he) (fun e he => hfp e he)
    obtain ⟨dbFin, hrem, he1, he2, he3, he4, he5⟩ := remove_restores_team env fuel db
      (compute_object_role_permissions env
        { db with objectRoles := db.objectRoles ++ [⟨db.nextRoleId, rd.id, objCt, objId⟩],
                  nextRoleId := db.nextRoleId + 1,
                  teamEdges := addEdge db.teamEdges t db.nextRoleId }
        ({db.nextRoleId} : Finset Nat))
      rd t objCt objId ⟨db.nextRoleId, rd.id, objCt, objId⟩
      (freshRoleRows env
        { db with objectRoles := db.objectRoles ++ [⟨db.nextRoleId, rd.id, objCt, objId⟩],
                  nextRoleId := db.nextRoleId + 1,
                  teamEdges := addEdge db.teamEdges t db.nextRoleId }
        ⟨db.nextRoleId, rd.id, objCt, objId⟩)
      rfl rfl rfl
      (compute_object_role_permissions_fields env _ _).1
      (compute_object_role_permissions_fields env _ _).2.1
      ((compute_object_role_permissions_fields env _ _).2.2.1.trans haddT)
      (compute_object_role_permissions_fields env _ _).2.2.2.1
      (congrArg Db.evals hmid)
      (fun e he => (freshRoleRows_facts env _ _ e he).1)
      (by
        intro e he
        obtain ⟨h1, p, hp, hcode⟩ := freshRoleRows_facts env _ _ e he
        have hp2 : p ∈ rdPerms env rd.id := hp
        rw [hrd] at hp2
        have hnp := List.any_eq_false.mp hnm p hp2
        intro hcontra
        apply hnp
        exact decide_eq_true (by rw [← hcode]; exact hcontra))
      (hanc t rfl)
      hnm hfound
      (fun r hr => hfr r hr) (fun e he => hfu e he) (fun e he => hft e he)
      (fun e he => hfp e he) (fun e he => hfe e he)
      hval
    exact ⟨_, dbFin, hgive, hrem, he1, he2, he3, he4, he5⟩

/-- Witness for the C5 round trip on the concrete seed scenario: giving and
removing the organization role of the C7 fixture to user 50 on an empty
database. -/
theorem give_then_remove_roundtrip_witness :
    ∃ dbMid dbFin,
      give_permission envC7 1 dbC7 rdC7 (.user 50) 6 10 = .ok dbMid ∧
      remove_permission envC7 1 dbMid rdC7 (.user 50) 6 10 = .ok dbFin ∧
      dbFin.evals = dbC7.evals ∧ dbFin.objectRoles = dbC7.objectRoles ∧
      dbFin.userEdges = dbC7.userEdges ∧ dbFin.teamEdges = dbC7.teamEdges ∧
      dbFin.providesTeams = dbC7.providesTeams :=
  give_then_remove_roundtrip envC7 1 dbC7 rdC7 (.user 50) 6 10 rfl (by decide) rfl
    (fun r hr => nomatch hr) (fun e he => nomatch he) (fun e he => nomatch he)
    (fun e he => nomatch he) (fun e he => nomatch he) rfl
    (fun tt htt => nomatch htt)

end Machine

namespace Machine

/-- Two-sided membership description of a dedup-list insertion. -/
theorem mem_listInsert_iff {α : Type} [DecidableEq α] (acc : List α) (k x : α) :
    x ∈ listInsert acc k ↔ x ∈ acc ∨ x = k := by
  constructor
  · exact mem_listInsert acc k x
  · intro h
    unfold listInsert
    by_cases hk : k ∈ acc
    · rw [if_pos hk]
      rcases h with h | h
      · exact h
      · rw [h]; exact hk
    · rw [if_neg hk]
      rcases h with h | h
      · exact List.mem_append.mpr (Or.inl h)
      · exact List.mem_append.mpr (Or.inr (List.mem_singleton.mpr h))

/-- Insertion into a dedup list preserves the no-duplicates invariant. -/
theorem listInsert_nodup {α : Type} [DecidableEq α] (acc : List α) (k : α)
    (h : acc.Nodup) : (listInsert acc k).Nodup := by
  unfold listInsert
  by_cases hk : k ∈ acc
  · rw [if_pos hk]; exact h
  · rw [if_neg hk]
    simp [List.nodup_append, h, hk]

/-- Membership in a dedup-list union fold. -/
theorem mem_foldl_listInsert {α : Type} [DecidableEq α] (l : List α) :
    ∀ (acc : List α) (x : α), x ∈ l.foldl listInsert acc ↔ x ∈ acc ∨ x ∈ l := by
  induction l with
  | nil => intro acc x; simp
  | cons a rest ih =>
    intro acc x
    rw [List.foldl_cons, ih, mem_listInsert_iff]
    constructor
    · rintro ((h | h) | h)
      · exact Or.inl h
      · exact Or.inr (by rw [h]; exact List.mem_cons_self a rest)
      · exact Or.inr (List.mem_cons_of_mem a h)
    · rintro (h | h)
      · exact Or.inl (Or.inl h)
      · rcases List.mem_cons.mp h with h | h
        · exact Or.inl (Or.inr h)
        · exact Or.inr h

/-- A dedup-list union fold preserves the no-duplicates invariant. -/
theorem nodup_foldl_listInsert {α : Type} [DecidableEq α] (l : List α) :
    ∀ acc, List.Nodup acc → List.Nodup (l.foldl listInsert acc) := by
  induction l with
  | nil => intro acc h; exact h
  | cons a rest ih =>
    intro acc h
    rw [List.foldl_cons]
    exact ih _ (listInsert_nodup acc a h)

/-- Lookup after a `setdefault(k, []).append(v)` operation. -/
theorem alistFind_appendAt (m : List (Nat × List Nat)) (k v k' : Nat) :
    alistFind (appendAt m k v) k' =
      if k' = k then some ((alistFind m k).getD [] ++ [v]) else alistFind m k' := by
  induction m with
  | nil =>
    by_cases h : k' = k
    · simp [appendAt, alistFind, List.find?, h]
    · simp [appendAt, alistFind, List.find?, h, Ne.symm h]
  | cons p rest ih =>
    by_cases h0 : p.1 = k
    · have happ : appendAt (p :: rest) k v = (p.1, p.2 ++ [v]) :: rest := by
        cases p with
        | mk k0 vs => simp [appendAt, show k0 = k from h0]
      rw [happ]
      by_cases h : k' = k
      · simp [alistFind, List.find?, h, h0]
      · have hne : ¬(p.1 = k') := by rw [h0]; exact fun hh => h hh.symm
        simp [alistFind, List.find?, hne, h]
    · have happ : appendAt (p :: rest) k v = p :: appendAt rest k v := by
        cases p with
        | mk k0 vs => simp [appendAt, show ¬(k0 = k) from h0]
      rw [happ]
      by_cases h1 : p.1 = k'
      · have h : ¬(k' = k) := by rw [← h1]; exact h0
        simp [alistFind, List.find?, h1, h]
      · simp only [alistFind, List.find?] at ih ⊢
        simp [h0, h1, ih]

/-- Membership after a replace-or-append dictionary update. -/
theorem mem_upsertRow (m : List (EvalKey × EvalRow)) (k : EvalKey) (e : EvalRow)
    (kv : EvalKey × EvalRow) (h : kv ∈ upsertRow m k e) : kv ∈ m ∨ kv = (k, e) := by
  induction m with
  | nil =>
    simp only [upsertRow] at h
    exact Or.inr (List.mem_singleton.mp h)
  | cons p rest ih =>
    cases p with
    | mk k0 e0 =>
      by_cases h0 : k0 = k
      · simp only [upsertRow, if_pos h0] at h
        rcases List.mem_cons.mp h with h | h
        · exact Or.inr h
        · exact Or.inl (List.mem_cons_of_mem _ h)
      · simp only [upsertRow, if_neg h0] at h
        rcases List.mem_cons.mp h with h | h
        · exact Or.inl (by rw [h]; exact List.mem_cons_self _ _)
        · rcases ih h with h | h
          · exact Or.inl (List.mem_cons_of_mem _ h)
          · exact Or.inr h

/-- Key set after a replace-or-append dictionary update. -/
theorem keys_upsertRow (m : List (EvalKey × EvalRow)) (k : EvalKey) (e : EvalRow)
    (x : EvalKey) :
    x ∈ (upsertRow m k e).map (fun kv => kv.1) ↔ x = k ∨ x ∈ m.map (fun kv => kv.1) := by
  induction m with
  | nil => simp [upsertRow]
  | cons p rest ih =>
    cases p with
    | mk k0 e0 =>
      by_cases h0 : k0 = k
      · simp [upsertRow, if_pos h0, h0]
      · simp [upsertRow, if_neg h0, ih]
        tauto

/-- A replace-or-append with a fresh key appends. -/
theorem upsertRow_fresh (m : List (EvalKey × EvalRow)) (k : EvalKey) (e : EvalRow)
    (h : k ∉ m.map (fun kv => kv.1)) : upsertRow m k e = m ++ [(k, e)] := by
  induction m with
  | nil => rfl
  | cons p rest ih =>
    cases p with
    | mk k0 e0 =>
      have h0 : ¬(k0 = k) := by
        intro hh
        exact h (by rw [← hh]; exact List.mem_map_of_mem _ (List.mem_cons_self _ _))
      have h1 : k ∉ rest.map (fun kv => kv.1) :=
        fun hh => h (by simp only [List.map_cons]; exact List.mem_cons_of_mem _ hh)
      simp only [upsertRow, if_neg h0, ih h1, List.cons_append]

/-- Keys of the `existing_partials` dictionary are exactly the keys of the
folded rows. -/
theorem keys_partials (rows : List EvalRow) :
    ∀ (m0 : List (EvalKey × EvalRow)) (x : EvalKey),
      x ∈ (rows.foldl (fun m e => upsertRow m (e.codename, e.ct, e.objId) e) m0).map
          (fun kv => kv.1) ↔
        x ∈ m0.map (fun kv => kv.1) ∨ x ∈ rows.map evalKey := by
  induction rows with
  | nil => intro m0 x; simp
  | cons e rest ih =>
    intro m0 x
    rw [List.foldl_cons, ih, keys_upsertRow]
    simp [evalKey]
    constructor
    · rintro ((h | h) | h)
      · exact Or.inr (Or.inl h)
      · exact Or.inl h
      · exact Or.inr (Or.inr h)
    · rintro (h | h | h)
      · exact Or.inl (Or.inr h)
      · exact Or.inl (Or.inl h)
      · exact Or.inr h

/-- Provenance of `existing_partials` entries built from an empty start: the
value is one of the rows and the key is its key. -/
theorem mem_partials (rows : List EvalRow) :
    ∀ (m0 : List (EvalKey × EvalRow)) (kv : EvalKey × EvalRow),
      kv ∈ rows.foldl (fun m e => upsertRow m (e.codename, e.ct, e.objId) e) m0 →
        kv ∈ m0 ∨ (kv.2 ∈ rows ∧ kv.1 = evalKey kv.2) := by
  induction rows with
  | nil => intro m0 kv h; exact Or.inl h
  | cons e rest ih =>
    intro m0 kv h
    rw [List.foldl_cons] at h
    rcases ih _ kv h with h | h
    · rcases mem_upsertRow m0 _ e kv h with h | h
      · exact Or.inl h
      · refine Or.inr ⟨?_, ?_⟩
        · rw [h]; exact List.mem_cons_self _ _
        · rw [h]; rfl
    · exact Or.inr ⟨List.mem_cons_of_mem _ h.1, h.2⟩

/-- Folding rows with fresh pairwise-distinct keys into a partials
dictionary appends them in order. -/
theorem partials_append_fresh (l : List EvalRow) :
    ∀ (m : List (EvalKey × EvalRow)),
      (l.map evalKey).Nodup →
      (∀ e ∈ l, evalKey e ∉ m.map (fun kv => kv.1)) →
      l.foldl (fun m e => upsertRow m (e.codename, e.ct, e.objId) e) m =
        m ++ l.map (fun e => (evalKey e, e)) := by
  induction l with
  | nil => intro m _ _; simp
  | cons e rest ih =>
    intro m hnd hdis
    rw [List.foldl_cons]
    have hstep : upsertRow m (e.codename, e.ct, e.objId) e = m ++ [(evalKey e, e)] :=
      upsertRow_fresh m _ e (hdis e (List.mem_cons_self _ _))
    rw [hstep]
    rw [List.map_cons] at hnd
    have hnd2 := (List.nodup_cons.mp hnd).2
    have hne := (List.nodup_cons.mp hnd).1
    rw [ih (m ++ [(evalKey e, e)]) hnd2 ?_]
    · rw [List.map_cons, List.append_assoc]
      rfl
    · intro e2 he2 hmem
      rw [List.map_append] at hmem
      rcases List.mem_append.mp hmem with h | h
      · exact hdis e2 (List.mem_cons_of_mem _ he2) h
      · have : evalKey e2 = evalKey e := by simpa using h
        exact hne (this ▸ List.mem_map_of_mem evalKey he2)

/-- Generic membership description of a left fold whose step has a two-sided
membership description. -/
theorem foldl_mem_char {α β : Type} (P : β → α → Prop) (step : List α → β → List α)
    (hstep : ∀ acc b x, x ∈ step acc b ↔ x ∈ acc ∨ P b x) :
    ∀ (l : List β) (acc : List α) (x : α),
      x ∈ List.foldl step acc l ↔ x ∈ acc ∨ ∃ b ∈ l, P b x := by
  intro l
  induction l with
  | nil => intro acc x; simp
  | cons b rest ih =>
    intro acc x
    rw [List.foldl_cons, ih, hstep]
    constructor
    · rintro ((h | h) | ⟨c, hc, h⟩)
      · exact Or.inl h
      · exact Or.inr ⟨b, List.mem_cons_self _ _, h⟩
      · exact Or.inr ⟨c, List.mem_cons_of_mem _ hc, h⟩
    · rintro (h | ⟨c, hc, h⟩)
      · exact Or.inl (Or.inl h)
      · rcases List.mem_cons.mp hc with hc | hc
        · exact Or.inl (Or.inr (hc ▸ h))
        · exact Or.inr ⟨c, hc, h⟩

/-- Two-sided membership description of the expected key set of a role. -/
theorem mem_expectedOf (env : MEnv) (db : Db) (role : ObjRole) (k : EvalKey) :
    k ∈ expectedOf env db role ↔ expectedOfSem env db role k := by
  unfold expectedOf expectedOfSem
  have hinner : ∀ (t : Nat) (acc : List EvalKey) (x : EvalKey),
      x ∈ (teamRoleIds db t).foldl (fun acc rid =>
        match db.objectRoles.find? (fun r => r.id = rid) with
        | some tr => (expected_direct_permissions env tr).foldl listInsert acc
        | none => acc) acc ↔
      x ∈ acc ∨ ∃ rid ∈ teamRoleIds db t, ∃ tr,
        db.objectRoles.find? (fun r => r.id = rid) = some tr ∧
        x ∈ expected_direct_permissions env tr := by
    intro t acc x
    refine foldl_mem_char
      (fun rid x2 => ∃ tr, db.objectRoles.find? (fun r => r.id = rid) = some tr ∧
        x2 ∈ expected_direct_permissions env tr)
      (fun acc rid =>
        match db.objectRoles.find? (fun r => r.id = rid) with
        | some tr => (expected_direct_permissions env tr).foldl listInsert acc
        | none => acc) ?_ (teamRoleIds db t) acc x
    intro acc2 rid x2
    cases hf : db.objectRoles.find? (fun r => r.id = rid) with
    | none => simp [hf]
    | some tr => simp [hf, mem_foldl_listInsert]
  have houter := foldl_mem_char
    (fun t x => ∃ rid ∈ teamRoleIds db t, ∃ tr,
      db.objectRoles.find? (fun r => r.id = rid) = some tr ∧
      x ∈ expected_direct_permissions env tr)
    (fun acc t => (teamRoleIds db t).foldl (fun acc rid =>
        match db.objectRoles.find? (fun r => r.id = rid) with
        | some tr => (expected_direct_permissions env tr).foldl listInsert acc
        | none => acc) acc)
    (fun acc b x => hinner b acc x)
    ((db.providesTeams.filter (fun e => e.1 = role.id)).map (fun e => e.2))
    (expected_direct_permissions env role) k
  rw [houter]
  constructor
  · rintro (h | ⟨t, ht, h⟩)
    · exact Or.inl h
    · refine Or.inr ⟨t, ?_, h⟩
      rcases List.mem_map.mp ht with ⟨e, he, het⟩
      have hmem := List.mem_filter.mp he
      have h1 : e.1 = role.id := by simpa using hmem.2
      have : e = (role.id, t) := by
        cases e with
        | mk a b =>
          simp only at h1 het
          rw [h1, het]
      rw [← this]
      exact hmem.1
  · rintro (h | ⟨t, ht, h⟩)
    · exact Or.inl h
    · refine Or.inr ⟨t, ?_, h⟩
      refine List.mem_map.mpr ⟨(role.id, t), ?_, rfl⟩
      exact List.mem_filter.mpr ⟨ht, by simp⟩

/-- Generic no-duplicates invariant for left folds. -/
theorem foldl_nodup_invariant {α β : Type} (step : List α → β → List α)
    (hstep : ∀ acc b, List.Nodup acc → List.Nodup (step acc b)) :
    ∀ (l : List β) (acc : List α), List.Nodup acc → List.Nodup (List.foldl step acc l) := by
  intro l
  induction l with
  | nil => intro acc h; exact h
  | cons b rest ih =>
    intro acc h
    rw [List.foldl_cons]
    exact ih _ (hstep acc b h)

/-- The direct expectation list of a role has no duplicate keys. -/
theorem expected_direct_permissions_nodup (env : MEnv) (role : ObjRole) :
    (expected_direct_permissions env role).Nodup := by
  unfold expected_direct_permissions
  refine foldl_nodup_invariant _ ?_ _ [] List.nodup_nil
  intro acc perm hacc
  split
  · exact listInsert_nodup _ _ hacc
  · split
    · split
      · exact listInsert_nodup _ _ hacc
      · exact hacc
    · split
      · exact foldl_nodup_invariant _ (fun a i ha => listInsert_nodup a _ ha) _ acc hacc
      · exact hacc

/-- The expected key list of a role has no duplicate keys. -/
theorem expectedOf_nodup (env : MEnv) (db : Db) (role : ObjRole) :
    (expectedOf env db role).Nodup := by
  unfold expectedOf
  refine foldl_nodup_invariant _ ?_ _ _ (expected_direct_permissions_nodup env role)
  intro acc t hacc
  refine foldl_nodup_invariant _ ?_ _ _ hacc
  intro acc2 rid hacc2
  split
  · exact nodup_foldl_listInsert _ _ hacc2
  · exact hacc2

/-- Membership in a list-valued association list after one append. -/
theorem mem_alistFind_appendAt (m : List (Nat × List Nat)) (kk vv k v : Nat) :
    v ∈ (alistFind (appendAt m kk vv) k).getD [] ↔
      v ∈ (alistFind m k).getD [] ∨ (kk = k ∧ vv = v) := by
  rw [alistFind_appendAt]
  by_cases h : k = kk
  · rw [if_pos h]
    subst h
    simp [eq_comm]
  · rw [if_neg h]
    have h2 : ¬(kk = k) := fun hh => h hh.symm
    simp [h2]

/-- Generic membership description of association-list folds through the
lookup-with-default lens. -/
theorem alistFind_foldl_char {β : Type}
    (step : List (Nat × List Nat) → β → List (Nat × List Nat))
    (P : β → Nat → Nat → Prop)
    (hstep : ∀ m b k v, v ∈ (alistFind (step m b) k).getD [] ↔
      v ∈ (alistFind m k).getD [] ∨ P b k v) :
    ∀ (l : List β) (m0 : List (Nat × List Nat)) (k v : Nat),
      v ∈ (alistFind (l.foldl step m0) k).getD [] ↔
        v ∈ (alistFind m0 k).getD [] ∨ ∃ b ∈ l, P b k v := by
  intro l
  induction l with
  | nil => intro m0 k v; simp
  | cons b rest ih =>
    intro m0 k v
    rw [List.foldl_cons, ih, hstep]
    constructor
    · rintro ((h | h) | ⟨c, hc, h⟩)
      · exact Or.inl h
      · exact Or.inr ⟨b, List.mem_cons_self _ _, h⟩
      · exact Or.inr ⟨c, List.mem_cons_of_mem _ hc, h⟩
    · rintro (h | ⟨c, hc, h⟩)
      · exact Or.inl (Or.inl h)
      · rcases List.mem_cons.mp hc with hc | hc
        · exact Or.inl (Or.inr (hc ▸ h))
        · exact Or.inr ⟨c, hc, h⟩

/-- Membership in the organization-to-teams map. -/
theorem mem_otmOf (env : MEnv) (org t : Nat) :
    t ∈ (alistFind (otmOf env) org).getD [] ↔ (t, org) ∈ env.teams := by
  unfold otmOf
  rw [alistFind_foldl_char (fun m p => appendAt m p.2 p.1)
    (fun p k v => p.2 = k ∧ p.1 = v)
    (fun m p k v => mem_alistFind_appendAt m p.2 p.1 k v) env.teams [] org t]
  simp only [alistFind, List.find?, Option.map, Option.getD]
  constructor
  · rintro (h | ⟨p, hp, h1, h2⟩)
    · exact absurd h (List.not_mem_nil t)
    · have : p = (t, org) := by
        cases p with
        | mk a b =>
          simp only at h1 h2
          rw [h1, h2]
      rw [← this]
      exact hp
  · intro h
    exact Or.inr ⟨(t, org), h, rfl, rfl⟩

/-- The per-role step of the `direct` and `ttp` builders rewritten through
`grantTeams`. -/
theorem grant_step_eq (env : MEnv) (m : List (Nat × List Nat)) (r : ObjRole) (a : Nat) :
    (if r.ct = env.teamCt then appendAt m r.objId a
     else if r.ct = env.orgCt then
       match alistFind (otmOf env) r.objId with
       | none => m
       | some ts => ts.foldl (fun m t => appendAt m t a) m
     else m) =
    (grantTeams env r).foldl (fun m t => appendAt m t a) m := by
  by_cases h1 : r.ct = env.teamCt
  · simp [grantTeams, h1]
  · by_cases h2 : r.ct = env.orgCt
    · simp only [grantTeams, if_neg h1, if_pos h2]
      cases h : alistFind (otmOf env) r.objId <;> simp [h]
    · simp [grantTeams, h1, h2]

/-- Membership of one `grantTeams` fold. -/
theorem mem_grant_fold (env : MEnv) (r : ObjRole) (a : Nat)
    (m : List (Nat × List Nat)) (k v : Nat) :
    v ∈ (alistFind ((grantTeams env r).foldl (fun m t => appendAt m t a) m) k).getD [] ↔
      v ∈ (alistFind m k).getD [] ∨ (k ∈ grantTeams env r ∧ v = a) := by
  rw [alistFind_foldl_char (fun m t => appendAt m t a)
    (fun t k v => t = k ∧ a = v)
    (fun m t k v => mem_alistFind_appendAt m t a k v) (grantTeams env r) m k v]
  constructor
  · rintro (h | ⟨t, ht, h1, h2⟩)
    · exact Or.inl h
    · exact Or.inr ⟨h1 ▸ ht, h2.symm⟩
  · rintro (h | ⟨hk, hv⟩)
    · exact Or.inl h
    · exact Or.inr ⟨k, hk, rfl, hv.symm⟩

/-- Projected membership in an edge list filtered by its second component. -/
theorem pair_edge_mem (edges : List (Nat × Nat)) (a rid : Nat) :
    a ∈ (edges.filter (fun e => e.2 = rid)).map (fun e => e.1) ↔ (a, rid) ∈ edges := by
  constructor
  · intro h
    rcases List.mem_map.mp h with ⟨e, he, h1⟩
    have hmem := List.mem_filter.mp he
    have h2 : e.2 = rid := by simpa using hmem.2
    have h3 : e = (a, rid) := by
      cases e with
      | mk x y => simp only at h1 h2; rw [h1, h2]
    rw [← h3]
    exact hmem.1
  · intro h
    exact List.mem_map.mpr ⟨(a, rid), List.mem_filter.mpr ⟨h, by simp⟩, rfl⟩

/-- Membership in the team-to-granting-roles map of the materializer. -/
theorem mem_directOf (env : MEnv) (db : Db) (t rid : Nat) :
    rid ∈ (alistFind (directOf env db) t).getD [] ↔
      ∃ r ∈ memberRolesOf env db, r.id = rid ∧ t ∈ grantTeams env r := by
  unfold directOf
  rw [alistFind_foldl_char
    (fun m r => if r.ct = env.teamCt then appendAt m r.objId r.id
      else if r.ct = env.orgCt then
        match alistFind (otmOf env) r.objId with
        | none => m
        | some ts => ts.foldl (fun m t => appendAt m t r.id) m
      else m)
    (fun r k v => k ∈ grantTeams env r ∧ v = r.id)
    (fun m r k v => by
      dsimp only
      rw [grant_step_eq]
      exact mem_grant_fold env r r.id m k v)
    (memberRolesOf env db) [] t rid]
  simp only [alistFind, List.find?, Option.map, Option.getD, List.not_mem_nil, false_or]
  constructor
  · rintro ⟨r, hr, hk, hv⟩
    exact ⟨r, hr, hv.symm, hk⟩
  · rintro ⟨r, hr, hid, hgt⟩
    exact ⟨r, hr, hgt, hid.symm⟩

/-- Membership in the team-to-feeder-teams lookup of the materializer. -/
theorem mem_ttpFOf (env : MEnv) (db : Db) (t s : Nat) :
    s ∈ ttpFOf env db t ↔
      ∃ r ∈ memberRolesOf env db, t ∈ grantTeams env r ∧ (s, r.id) ∈ db.teamEdges := by
  unfold ttpFOf ttpOf
  rw [alistFind_foldl_char
    (fun m r => ((db.teamEdges.filter (fun e => e.2 = r.id)).map (fun e => e.1)).foldl
      (fun m actorTeam =>
        if r.ct = env.teamCt then appendAt m r.objId actorTeam
        else if r.ct = env.orgCt then
          match alistFind (otmOf env) r.objId with
          | none => m
          | some ts => ts.foldl (fun m t => appendAt m t actorTeam) m
        else m) m)
    (fun r k v => ∃ a ∈ (db.teamEdges.filter (fun e => e.2 = r.id)).map (fun e => e.1),
      k ∈ grantTeams env r ∧ v = a)
    (fun m r k v => by
      rw [alistFind_foldl_char
        (fun m actorTeam =>
          if r.ct = env.teamCt then appendAt m r.objId actorTeam
          else if r.ct = env.orgCt then
            match alistFind (otmOf env) r.objId with
            | none => m
            | some ts => ts.foldl (fun m t => appendAt m t actorTeam) m
          else m)
        (fun a k v => k ∈ grantTeams env r ∧ v = a)
        (fun m a k v => by
          dsimp only
          rw [grant_step_eq]
          exact mem_grant_fold env r a m k v)
        ((db.teamEdges.filter (fun e => e.2 = r.id)).map (fun e => e.1)) m k v])
    (memberRolesOf env db) [] t s]
  simp only [alistFind, List.find?, Option.map, Option.getD, List.not_mem_nil, false_or]
  constructor
  · rintro ⟨r, hr, a, ha, hk, hv⟩
    refine ⟨r, hr, hk, ?_⟩
    rw [hv]
    exact (pair_edge_mem db.teamEdges a r.id).mp ha
  · rintro ⟨r, hr, hgt, hedge⟩
    exact ⟨r, hr, s, (pair_edge_mem db.teamEdges s r.id).mpr hedge, hgt, rfl⟩

/-- Semantic direct membership grants coincide with the `direct` map of the
materializer. -/
theorem grantsDirect_iff (env : MEnv) (db : Db) (hctne : env.teamCt ≠ env.orgCt)
    (rid t : Nat) :
    grantsDirect env db rid t ↔
      ∃ r ∈ memberRolesOf env db, r.id = rid ∧ t ∈ grantTeams env r := by
  constructor
  · rintro ⟨role, hmem, hid, hany, hcase⟩
    refine ⟨role, List.mem_filter.mpr ⟨hmem, by simpa using hany⟩, hid, ?_⟩
    unfold grantTeams
    rcases hcase with ⟨hct, hobj⟩ | ⟨hct, hteam⟩
    · rw [if_pos hct, hobj]
      exact List.mem_singleton.mpr rfl
    · have hne : ¬(role.ct = env.teamCt) := by rw [hct]; exact fun hh => hctne hh.symm
      rw [if_neg hne, if_pos hct]
      exact (mem_otmOf env role.objId t).mpr hteam
  · rintro ⟨r, hr, hid, hgt⟩
    have hmem := List.mem_filter.mp hr
    refine ⟨r, hmem.1, hid, by simpa using hmem.2, ?_⟩
    unfold grantTeams at hgt
    by_cases h1 : r.ct = env.teamCt
    · rw [if_pos h1] at hgt
      exact Or.inl ⟨h1, (List.mem_singleton.mp hgt).symm⟩
    · by_cases h2 : r.ct = env.orgCt
      · rw [if_neg h1, if_pos h2] at hgt
        exact Or.inr ⟨h2, (mem_otmOf env r.objId t).mp hgt⟩
      · rw [if_neg h1, if_neg h2] at hgt
        exact absurd hgt (List.not_mem_nil t)

/-- Semantic feeder edges coincide with the `ttp` lookup of the
materializer. -/
theorem feedsInto_iff (env : MEnv) (db : Db) (hctne : env.teamCt ≠ env.orgCt)
    (s t : Nat) : feedsInto env db s t ↔ s ∈ ttpFOf env db t := by
  rw [mem_ttpFOf]
  constructor
  · rintro ⟨rid, hgd, hedge⟩
    rcases (grantsDirect_iff env db hctne rid t).mp hgd with ⟨r, hr, hid, hgt⟩
    exact ⟨r, hr, hgt, by rw [hid]; exact hedge⟩
  · rintro ⟨r, hr, hgt, hedge⟩
    exact ⟨r.id, (grantsDirect_iff env db hctne r.id t).mpr ⟨r, hr, rfl, hgt⟩, hedge⟩

/-- Semantic feeder reachability coincides with reachability through the
materializer lookup. -/
theorem reachFeeder_iff (env : MEnv) (db : Db) (hctne : env.teamCt ≠ env.orgCt)
    (t s : Nat) : ReachFeeder env db t s ↔ ReachF (ttpFOf env db) t s := by
  constructor
  · intro h
    induction h with
    | direct h => exact ReachF.direct ((feedsInto_iff env db hctne _ _).mp h)
    | trans h _ ih => exact ReachF.trans ((feedsInto_iff env db hctne _ _).mp h) ih
  · intro h
    induction h with
    | direct h => exact ReachFeeder.direct ((feedsInto_iff env db hctne _ _).mpr h)
    | trans h _ ih => exact ReachFeeder.trans ((feedsInto_iff env db hctne _ _).mpr h) ih

/-- The ancestor-search loop only grows its accumulator. -/
theorem allTeamParentsFor_acc_subset
    (recur : Nat → (Nat → List Nat) → List Nat → Option (List Nat)) :
    ∀ (l : List Nat) (ttp : Nat → List Nat) (seen acc res : List Nat),
      allTeamParentsFor recur l ttp seen acc = some res → ∀ x ∈ acc, x ∈ res := by
  intro l
  induction l with
  | nil =>
    intro ttp seen acc res h x hx
    simp only [allTeamParentsFor] at h
    cases h
    exact hx
  | cons p rest ih =>
    intro ttp seen acc res h x hx
    simp only [allTeamParentsFor] at h
    split at h
    · exact ih ttp seen acc res h x hx
    · split at h
      · cases h
      · refine ih ttp seen _ res h x ?_
        rw [mem_foldl_listInsert]
        exact Or.inl ((mem_listInsert_iff acc p x).mpr (Or.inl hx))

/-- Soundness of the ancestor-search loop: returned teams are reachable. -/
theorem allTeamParentsFor_sound
    (recur : Nat → (Nat → List Nat) → List Nat → Option (List Nat))
    (ttp : Nat → List Nat) (t : Nat)
    (hrec : ∀ q seen2 res2, recur q ttp seen2 = some res2 →
      ∀ w ∈ res2, ReachF ttp q w) :
    ∀ (l : List Nat) (seen acc res : List Nat),
      (∀ x ∈ l, x ∈ ttp t) → (∀ x ∈ acc, ReachF ttp t x) →
      allTeamParentsFor recur l ttp seen acc = some res →
      ∀ w ∈ res, ReachF ttp t w := by
  intro l
  induction l with
  | nil =>
    intro seen acc res _ hacc h
    simp only [allTeamParentsFor] at h
    cases h
    exact hacc
  | cons p rest ih =>
    intro seen acc res hl hacc h
    simp only [allTeamParentsFor] at h
    split at h
    · exact ih seen acc res (fun x hx => hl x (List.mem_cons_of_mem p hx)) hacc h
    · split at h
      · cases h
      · rename_i sub hsub
        refine ih seen _ res (fun x hx => hl x (List.mem_cons_of_mem p hx)) ?_ h
        intro x hx
        rw [mem_foldl_listInsert] at hx
        rcases hx with hx | hx
        · rcases (mem_listInsert_iff acc p x).mp hx with hx | hx
          · exact hacc x hx
          · subst hx
            exact ReachF.direct (hl x (List.mem_cons_self x rest))
        · exact ReachF.trans (hl p (List.mem_cons_self p rest)) (hrec p _ sub hsub x hx)

/-- Soundness of the ancestor search. -/
theorem all_team_parents_sound (ttp : Nat → List Nat) :
    ∀ (fuel t : Nat) (seen res : List Nat),
      all_team_parents fuel t ttp seen = some res → ∀ w ∈ res, ReachF ttp t w := by
  intro fuel
  induction fuel with
  | zero =>
    intro t seen res h
    simp only [all_team_parents] at h
    cases h
  | succ f ih =>
    intro t seen res h
    simp only [all_team_parents] at h
    exact allTeamParentsFor_sound (all_team_parents f) ttp t
      (fun q seen2 res2 hq => ih q seen2 res2 hq)
      (ttp t) seen [] res (fun x hx => hx)
      (fun x hx => absurd hx (List.not_mem_nil x)) h

/-- Closure property of the ancestor-search loop: on success, every parent
of a returned team is returned or was in the received seen set. -/
theorem allTeamParentsFor_closure
    (recur : Nat → (Nat → List Nat) → List Nat → Option (List Nat))
    (ttp : Nat → List Nat)
    (hrec : ∀ q seen2 res2, recur q ttp seen2 = some res2 →
      (∀ x ∈ ttp q, x ∈ res2 ∨ x ∈ seen2) ∧
      (∀ w ∈ res2, ∀ x ∈ ttp w, x ∈ res2 ∨ x ∈ seen2)) :
    ∀ (l : List Nat) (seen acc res : List Nat),
      allTeamParentsFor recur l ttp seen acc = some res →
      (∀ w ∈ acc, ∀ x ∈ ttp w, x ∈ res ∨ x ∈ seen) →
      (∀ p ∈ l, p ∈ res ∨ p ∈ seen) ∧
      (∀ w ∈ res, ∀ x ∈ ttp w, x ∈ res ∨ x ∈ seen) := by
  intro l
  induction l with
  | nil =>
    intro seen acc res h hacc
    simp only [allTeamParentsFor] at h
    cases h
    exact ⟨fun p hp => absurd hp (List.not_mem_nil p), hacc⟩
  | cons p rest ih =>
    intro seen acc res h hacc
    simp only [allTeamParentsFor] at h
    split at h
    · rename_i hp
      have hrest := ih seen acc res h hacc
      refine ⟨?_, hrest.2⟩
      intro q hq
      rcases List.mem_cons.mp hq with hq | hq
      · exact Or.inr (by rw [hq]; exact hp)
      · exact hrest.1 q hq
    · split at h
      · cases h
      · rename_i sub hsub
        have hmono := allTeamParentsFor_acc_subset recur rest ttp seen _ res h
        have hrecp := hrec p (listInsert acc p) sub hsub
        have hsubres : ∀ x ∈ sub, x ∈ res := fun x hx =>
          hmono x ((mem_foldl_listInsert sub _ x).mpr (Or.inr hx))
        have haccres : ∀ x ∈ acc, x ∈ res := fun x hx =>
          hmono x ((mem_foldl_listInsert sub _ x).mpr
            (Or.inl ((mem_listInsert_iff acc p x).mpr (Or.inl hx))))
        have hpres : p ∈ res :=
          hmono p ((mem_foldl_listInsert sub _ p).mpr
            (Or.inl ((mem_listInsert_iff acc p p).mpr (Or.inr rfl))))
        have hLacc2 : ∀ w ∈ sub.foldl listInsert (listInsert acc p),
            ∀ x ∈ ttp w, x ∈ res ∨ x ∈ seen := by
          intro w hw x hx
          rw [mem_foldl_listInsert] at hw
          rcases hw with hw | hw
          · rcases (mem_listInsert_iff acc p w).mp hw with hw | hw
            · exact hacc w hw x hx
            · subst hw
              rcases hrecp.1 x hx with hx2 | hx2
              · exact Or.inl (hsubres x hx2)
              · rcases (mem_listInsert_iff acc w x).mp hx2 with hx2 | hx2
                · exact Or.inl (haccres x hx2)
                · exact Or.inl (by rw [hx2]; exact hpres)
          · rcases hrecp.2 w hw x hx with hx2 | hx2
            · exact Or.inl (hsubres x hx2)
            · rcases (mem_listInsert_iff acc p x).mp hx2 with hx2 | hx2
              · exact Or.inl (haccres x hx2)
              · exact Or.inl (by rw [hx2]; exact hpres)
        have hrest := ih seen _ res h hLacc2
        refine ⟨?_, hrest.2⟩
        intro q hq
        rcases List.mem_cons.mp hq with hq | hq
        · exact Or.inl (by rw [hq]; exact hpres)
        · exact hrest.1 q hq

/-- Closure property of the ancestor search. -/
theorem all_team_parents_closure (ttp : Nat → List Nat) :
    ∀ (fuel t : Nat) (seen res : List Nat),
      all_team_parents fuel t ttp seen = some res →
      (∀ x ∈ ttp t, x ∈ res ∨ x ∈ seen) ∧
      (∀ w ∈ res, ∀ x ∈ ttp w, x ∈ res ∨ x ∈ seen) := by
  intro fuel
  induction fuel with
  | zero =>
    intro t seen res h
    simp only [all_team_parents] at h
    cases h
  | succ f ih =>
    intro t seen res h
    simp only [all_team_parents] at h
    exact allTeamParentsFor_closure (all_team_parents f) ttp
      (fun q s2 r2 hq => ih q s2 r2 hq) (ttp t) seen [] res h
      (fun w hw => absurd hw (List.not_mem_nil w))

/-- Completeness of the ancestor search from an empty seen set: every
reachable team is returned. -/
theorem all_team_parents_complete (ttp : Nat → List Nat) (fuel t : Nat) (res : List Nat)
    (h : all_team_parents fuel t ttp [] = some res) :
    ∀ w, ReachF ttp t w → w ∈ res := by
  have hcl := all_team_parents_closure ttp fuel t [] res h
  have hroot : ∀ x ∈ ttp t, x ∈ res := by
    intro x hx
    rcases hcl.1 x hx with h2 | h2
    · exact h2
    · exact absurd h2 (List.not_mem_nil x)
  have hclosed : ∀ w ∈ res, ∀ x ∈ ttp w, x ∈ res := by
    intro w hw x hx
    rcases hcl.2 w hw x hx with h2 | h2
    · exact h2
    · exact absurd h2 (List.not_mem_nil x)
  have hstep : ∀ s w, ReachF ttp s w → s ∈ res → w ∈ res := by
    intro s w hreach
    induction hreach with
    | direct hd => intro hs; exact hclosed _ hs _ hd
    | trans hd _ ihr => intro hs; exact ihr (hclosed _ hs _ hd)
  intro w hw
  induction hw with
  | direct hd => exact hroot _ hd
  | trans hd hr _ => exact hstep _ _ hr (hroot _ hd)

/-- Lookup in a cons association list. -/
theorem alistFind_cons (k0 : Nat) (v0 : α) (rest : List (Nat × α)) (t : Nat) :
    alistFind ((k0, v0) :: rest) t = if k0 = t then some v0 else alistFind rest t := by
  by_cases h : k0 = t <;> simp [alistFind, List.find?, h]

/-- Membership description of the closure loop of the materializer: on
success, each entry carries its direct roles plus the direct roles of every
ancestor the search returned. -/
theorem allMemberRolesLoop_char (fuel : Nat) (ttpF : Nat → List Nat)
    (direct : List (Nat × List Nat)) :
    ∀ (l out : List (Nat × List Nat)),
      allMemberRolesLoop fuel ttpF direct l = some out →
      ∀ t v, v ∈ (alistFind out t).getD [] ↔
        (∃ rs, alistFind l t = some rs ∧
          ∃ parents, all_team_parents fuel t ttpF [] = some parents ∧
            (v ∈ rs ∨ ∃ p ∈ parents, v ∈ (alistFind direct p).getD [])) := by
  intro l
  induction l with
  | nil =>
    intro out h t v
    simp only [allMemberRolesLoop] at h
    cases h
    simp [alistFind]
  | cons e rest ih =>
    intro out h t v
    cases e with
    | mk t0 rs0 =>
      simp only [allMemberRolesLoop] at h
      split at h
      · cases h
      · rename_i parents hparents
        split at h
        · cases h
        · rename_i acc hacc
          cases h
          rw [alistFind_cons, alistFind_cons]
          by_cases h0 : t0 = t
          · rw [if_pos h0, if_pos h0]
            subst h0
            have hval : ∀ x, x ∈ parents.foldl
                (fun s p => ((alistFind direct p).getD []).foldl listInsert s)
                (rs0.foldl listInsert []) ↔
                x ∈ rs0 ∨ ∃ p ∈ parents, x ∈ (alistFind direct p).getD [] := by
              intro x
              rw [foldl_mem_char (fun p x => x ∈ (alistFind direct p).getD [])
                (fun s p => ((alistFind direct p).getD []).foldl listInsert s)
                (fun s p x => mem_foldl_listInsert _ s x) parents _ x]
              rw [mem_foldl_listInsert]
              simp
            simp only [Option.getD_some]
            rw [hval]
            constructor
            · intro hv
              exact ⟨rs0, rfl, parents, hparents, hv⟩
            · rintro ⟨rs, hrs, parents2, hparents2, hv⟩
              have h1 : rs = rs0 := by
                injection hrs with h1
                exact h1.symm
              have h2 : parents2 = parents := by
                rw [hparents] at hparents2
                injection hparents2 with h2
                exact h2.symm
              rw [h1, h2] at hv
              exact hv
          · rw [if_neg h0, if_neg h0]
            exact ih acc hacc t v

/-- Raw membership description of one persistence step: a row survives if it
was there or was added, and was not removed. -/
theorem persistTeamStep_mem (allMap : List (Nat × List Nat)) (d : Db) (te : Nat × Nat)
    (r t0 : Nat) :
    (r, t0) ∈ (persistTeamStep allMap d te).providesTeams ↔
      (((r, t0) ∈ d.providesTeams ∨ (t0 = te.1 ∧
        r ∈ ((alistFind allMap te.1).getD []).filter (fun x =>
          x ∉ (d.providesTeams.filter (fun e => e.2 = te.1)).map (fun e => e.1)))) ∧
      ¬(t0 = te.1 ∧ r ∈ ((d.providesTeams.filter (fun e => e.2 = te.1)).map
          (fun e => e.1)).filter (fun x => x ∉ (alistFind allMap te.1).getD []))) := by
  unfold persistTeamStep
  dsimp only
  split
  · split
    · simp only [List.mem_filter, List.mem_append, List.mem_map, Prod.mk.injEq,
        decide_eq_true_eq]
      constructor
      · rintro ⟨h1, h2⟩
        refine ⟨?_, fun hcon => h2 ⟨hcon.1, hcon.2⟩⟩
        rcases h1 with h1 | ⟨x, hx, hx1, hx2⟩
        · exact Or.inl h1
        · exact Or.inr ⟨hx2.symm, by rw [← hx1]; exact hx⟩
      · rintro ⟨h1, h2⟩
        refine ⟨?_, fun hcon => h2 ⟨hcon.1, hcon.2⟩⟩
        rcases h1 with h1 | ⟨ht, hr⟩
        · exact Or.inl h1
        · exact Or.inr ⟨r, hr, rfl, ht.symm⟩
    · rename_i hA
      have hAe := not_ne_iff.mp hA
      rw [hAe]
      simp only [List.mem_filter, List.mem_map, decide_eq_true_eq, List.not_mem_nil,
        and_false, or_false]
  · rename_i hR
    have hRe := not_ne_iff.mp hR
    rw [hRe]
    split
    · simp only [List.mem_append, List.mem_map, Prod.mk.injEq, List.not_mem_nil,
        and_false, not_false_eq_true, and_true]
      constructor
      · rintro (h1 | ⟨x, hx, hx1, hx2⟩)
        · exact Or.inl h1
        · exact Or.inr ⟨hx2.symm, by rw [← hx1]; exact hx⟩
      · rintro (h1 | ⟨ht, hr⟩)
        · exact Or.inl h1
        · exact Or.inr ⟨r, hr, rfl, ht.symm⟩
    · rename_i hA
      have hAe := not_ne_iff.mp hA
      rw [hAe]
      simp

/-- Set-level description of one persistence step: after processing a team,
its rows are exactly the computed expectation; other teams are untouched. -/
theorem persistTeamStep_set (allMap : List (Nat × List Nat)) (d : Db) (te : Nat × Nat)
    (r t0 : Nat) :
    (r, t0) ∈ (persistTeamStep allMap d te).providesTeams ↔
      (if t0 = te.1 then r ∈ (alistFind allMap te.1).getD []
       else (r, t0) ∈ d.providesTeams) := by
  rw [persistTeamStep_mem]
  by_cases h : t0 = te.1
  · rw [if_pos h]
    subst h
    constructor
    · rintro ⟨h1, h2⟩
      by_contra hB
      rcases h1 with h1 | ⟨-, h1⟩
      · refine h2 ⟨rfl, List.mem_filter.mpr ⟨(pair_edge_mem d.providesTeams r te.1).mpr h1, ?_⟩⟩
        simpa using hB
      · exact hB (List.mem_filter.mp h1).1
    · intro hB
      constructor
      · by_cases hA : r ∈ (d.providesTeams.filter (fun e => e.2 = te.1)).map (fun e => e.1)
        · exact Or.inl ((pair_edge_mem d.providesTeams r te.1).mp hA)
        · exact Or.inr ⟨rfl, List.mem_filter.mpr ⟨hB, by simpa using hA⟩⟩
      · rintro ⟨-, hcon⟩
        have hc2 := (List.mem_filter.mp hcon).2
        exact absurd hB (by simpa using hc2)
  · rw [if_neg h]
    simp [h]

/-- Set-level description of the full persistence fold: every listed team ends
with exactly its computed rows; teams outside the environment keep theirs. -/
theorem persist_fold_mem (allMap : List (Nat × List Nat)) :
    ∀ (teams : List (Nat × Nat)) (db : Db) (r t0 : Nat),
      (r, t0) ∈ (teams.foldl (persistTeamStep allMap) db).providesTeams ↔
        (if t0 ∈ teams.map (fun x => x.1) then r ∈ (alistFind allMap t0).getD []
         else (r, t0) ∈ db.providesTeams) := by
  intro teams
  induction teams with
  | nil => intro db r t0; simp
  | cons te rest ih =>
    intro db r t0
    rw [List.foldl_cons, ih]
    by_cases hrest : t0 ∈ rest.map (fun x => x.1)
    · rw [if_pos hrest, if_pos (by rw [List.map_cons]; exact List.mem_cons_of_mem _ hrest)]
    · rw [if_neg hrest, persistTeamStep_set]
      by_cases h0 : t0 = te.1
      · rw [if_pos h0, if_pos (by rw [List.map_cons, h0]; exact List.mem_cons_self _ _), ← h0]
      · rw [if_neg h0, if_neg (by rw [List.map_cons]; simp [h0, hrest])]

/-- Loop success propagates: every key of the iterated list had a successful
ancestor search. -/
theorem allMemberRolesLoop_parents_ok (fuel : Nat) (ttpF : Nat → List Nat)
    (direct : List (Nat × List Nat)) :
    ∀ (l out : List (Nat × List Nat)), allMemberRolesLoop fuel ttpF direct l = some out →
      ∀ t rs, alistFind l t = some rs →
        ∃ parents, all_team_parents fuel t ttpF [] = some parents := by
  intro l
  induction l with
  | nil =>
    intro out h t rs hf
    simp [alistFind] at hf
  | cons e rest ih =>
    intro out h t rs hf
    cases e with
    | mk t0 rs0 =>
      simp only [allMemberRolesLoop] at h
      split at h
      · cases h
      · rename_i parents hparents
        split at h
        · cases h
        · rename_i acc hacc
          rw [alistFind_cons] at hf
          by_cases h0 : t0 = t
          · exact ⟨parents, h0 ▸ hparents⟩
          · rw [if_neg h0] at hf
            exact ih acc hacc t rs hf

/-- The computed member-role map agrees with the semantic closure: a role is
listed for a team exactly when it grants membership in it directly or grants
membership in some team feeding into it. -/
theorem allMap_iff_provSem (fuel : Nat) (env : MEnv) (db : Db)
    (hctne : env.teamCt ≠ env.orgCt) (allMap : List (Nat × List Nat))
    (hloop : allMemberRolesLoop fuel (ttpFOf env db) (directOf env db) (directOf env db) =
      some allMap) (r t0 : Nat) :
    r ∈ (alistFind allMap t0).getD [] ↔ ProvSem env db r t0 := by
  rw [allMemberRolesLoop_char fuel (ttpFOf env db) (directOf env db) _ allMap hloop t0 r]
  constructor
  · rintro ⟨rs, hfind, parents, hpar, hcase⟩
    rcases hcase with hr | ⟨p, hp, hr⟩
    · have hrd : r ∈ (alistFind (directOf env db) t0).getD [] := by
        rw [hfind]; exact hr
      exact Or.inl ((grantsDirect_iff env db hctne r t0).mpr ((mem_directOf env db t0 r).mp hrd))
    · have hreach : ReachF (ttpFOf env db) t0 p :=
        all_team_parents_sound (ttpFOf env db) fuel t0 [] parents hpar p hp
      have hgd := (grantsDirect_iff env db hctne r p).mpr ((mem_directOf env db p r).mp hr)
      exact Or.inr ⟨p, (reachFeeder_iff env db hctne t0 p).mpr hreach, hgd⟩
  · intro hps
    have hdir : ∃ rid, grantsDirect env db rid t0 := by
      rcases hps with hgd | ⟨p, hrf, hgd⟩
      · exact ⟨r, hgd⟩
      · cases hrf with
        | direct hfeed => exact ⟨hfeed.choose, hfeed.choose_spec.1⟩
        | trans hfeed hrest => exact ⟨hfeed.choose, hfeed.choose_spec.1⟩
    rcases hdir with ⟨rid, hgd0⟩
    have hrid : rid ∈ (alistFind (directOf env db) t0).getD [] :=
      (mem_directOf env db t0 rid).mpr ((grantsDirect_iff env db hctne rid t0).mp hgd0)
    cases hfind : alistFind (directOf env db) t0 with
    | none =>
      rw [hfind] at hrid
      exact absurd hrid (List.not_mem_nil rid)
    | some rs =>
      rcases allMemberRolesLoop_parents_ok fuel (ttpFOf env db) (directOf env db) _ allMap
        hloop t0 rs hfind with ⟨parents, hpar⟩
      refine ⟨rs, rfl, parents, hpar, ?_⟩
      rcases hps with hgd | ⟨p, hrf, hgd⟩
      · left
        have := (mem_directOf env db t0 r).mpr ((grantsDirect_iff env db hctne r t0).mp hgd)
        rw [hfind] at this
        exact this
      · right
        refine ⟨p, ?_, (mem_directOf env db p r).mpr ((grantsDirect_iff env db hctne r p).mp hgd)⟩
        exact all_team_parents_complete (ttpFOf env db) fuel t0 parents hpar p
          ((reachFeeder_iff env db hctne t0 p).mp hrf)

/-- On success, `compute_team_member_roles` rewrites `provides_teams` so that
rows of registered teams match the semantic membership closure of the input
state, and rows of unregistered teams are untouched. -/
theorem compute_team_member_roles_provides_char (fuel : Nat) (env : MEnv) (db d : Db)
    (hctne : env.teamCt ≠ env.orgCt)
    (h : compute_team_member_roles fuel env db = some d) (r t0 : Nat) :
    ((r, t0) ∈ d.providesTeams ↔
      (if t0 ∈ env.teams.map (fun x => x.1) then ProvSem env db r t0
       else (r, t0) ∈ db.providesTeams)) := by
  unfold compute_team_member_roles at h
  cases hloop : allMemberRolesLoop fuel (ttpFOf env db) (directOf env db) (directOf env db) with
  | none =>
    rw [hloop] at h
    cases h
  | some allMap =>
    rw [hloop] at h
    simp only [Option.map_some'] at h
    cases h
    rw [show persistMemberRoles env allMap db = env.teams.foldl (persistTeamStep allMap) db
      from rfl]
    rw [persist_fold_mem]
    by_cases ht : t0 ∈ env.teams.map (fun x => x.1)
    · rw [if_pos ht, if_pos ht]
      exact allMap_iff_provSem fuel env db hctne allMap hloop r t0
    · rw [if_neg ht, if_neg ht]

/-- Membership in a concatenation of lists. -/
theorem mem_concatAll {α : Type} (L : List (List α)) (x : α) :
    x ∈ concatAll L ↔ ∃ l ∈ L, x ∈ l := by
  induction L with
  | nil => simp [concatAll]
  | cons l rest ih => simp [concatAll, ih]

/-- The append-folds of `compute_object_role_permissions` are concatenations. -/
theorem foldl_append_concatAll {α β : Type} (f : β → List α) :
    ∀ (l : List β) (init : List α),
      l.foldl (fun acc b => acc ++ f b) init = init ++ concatAll (l.map f) := by
  intro l
  induction l with
  | nil => intro init; simp [concatAll]
  | cons b rest ih =>
    intro init
    rw [List.foldl_cons, ih, List.map_cons, List.append_assoc]
    rfl

/-- Filtering distributes over concatenation. -/
theorem filter_concatAll {α : Type} (p : α → Bool) :
    ∀ (L : List (List α)),
      (concatAll L).filter p = concatAll (L.map (fun l => l.filter p)) := by
  intro L
  induction L with
  | nil => rfl
  | cons l rest ih =>
    show (l ++ concatAll rest).filter p = _
    rw [List.filter_append, ih]
    rfl

/-- A concatenation of empty lists is empty. -/
theorem concatAll_nil_of_all {α : Type} :
    ∀ (L : List (List α)), (∀ l ∈ L, l = []) → concatAll L = [] := by
  intro L
  induction L with
  | nil => intro _; rfl
  | cons l rest ih =>
    intro h
    show l ++ concatAll rest = []
    rw [h l (List.mem_cons_self _ _), ih (fun l2 hl2 => h l2 (List.mem_cons_of_mem _ hl2))]
    rfl

/-- The `enum`-indexed bulk-insert construction equals the recursive one. -/
theorem enumFrom_rows_eq (base : Nat) :
    ∀ (l : List (Nat × EvalKey)) (k : Nat),
      (List.enumFrom k l).map (fun ie =>
        ({ id := base + ie.1, roleId := ie.2.1, codename := ie.2.2.1,
           ct := ie.2.2.2.1, objId := ie.2.2.2.2 } : EvalRow)) = rowsFromAux (base + k) l := by
  intro l
  induction l with
  | nil => intro k; rfl
  | cons p rest ih =>
    intro k
    have h1 : base + (k + 1) = (base + k) + 1 := by omega
    rw [show List.enumFrom k (p :: rest) = (k, p) :: List.enumFrom (k + 1) rest from rfl,
      List.map_cons, ih (k + 1), h1]
    rfl

/-- Rows of the bulk insert all carry ids at or above the base. -/
theorem rowsFromAux_id_ge :
    ∀ (l : List (Nat × EvalKey)) (base : Nat), ∀ e ∈ rowsFromAux base l, base ≤ e.id := by
  intro l
  induction l with
  | nil =>
    intro base e he
    cases he
  | cons p rest ih =>
    intro base e he
    rcases List.mem_cons.mp he with h | h
    · rw [h]
    · exact Nat.le_trans (Nat.le_succ base) (ih (base + 1) e h)

/-- Provenance of bulk-insert rows: role id and key come from the pair list. -/
theorem mem_rowsFromAux :
    ∀ (l : List (Nat × EvalKey)) (base : Nat),
      ∀ e ∈ rowsFromAux base l, ∃ p ∈ l, e.roleId = p.1 ∧ evalKey e = p.2 := by
  intro l
  induction l with
  | nil =>
    intro base e he
    cases he
  | cons p rest ih =>
    rcases p with ⟨rid, c, ct2, o⟩
    intro base e he
    rcases List.mem_cons.mp he with h | h
    · refine ⟨(rid, c, ct2, o), List.mem_cons_self _ _, by rw [h], ?_⟩
      rw [h]
      rfl
    · rcases ih (base + 1) e h with ⟨q, hq, h1, h2⟩
      exact ⟨q, List.mem_cons_of_mem _ hq, h1, h2⟩

/-- Keys of the bulk-insert rows of one role. -/
theorem rowsFromAux_filter_roleId :
    ∀ (l : List (Nat × EvalKey)) (base A : Nat),
      ((rowsFromAux base l).filter (fun e => e.roleId = A)).map evalKey =
        (l.filter (fun p => p.1 = A)).map (fun p => p.2) := by
  intro l
  induction l with
  | nil => intro base A; rfl
  | cons p rest ih =>
    rcases p with ⟨rid, c, ct2, o⟩
    intro base A
    by_cases h : rid = A
    · simp [rowsFromAux, List.filter_cons, h, ih, evalKey]
    · simp [rowsFromAux, List.filter_cons, h, ih]

/-- Membership in the cached key set of a role. -/
theorem mem_roleKeys (db : Db) (rid : Nat) (k : EvalKey) :
    k ∈ roleKeys db rid ↔ ∃ e ∈ db.evals, e.roleId = rid ∧ evalKey e = k := by
  unfold roleKeys
  simp [and_assoc]

/-- Membership in the role ids held by a team. -/
theorem mem_teamRoleIds (db : Db) (t x : Nat) :
    x ∈ teamRoleIds db t ↔ (t, x) ∈ db.teamEdges := by
  unfold teamRoleIds
  constructor
  · intro h
    rcases List.mem_map.mp h with ⟨e, he, h1⟩
    have hmem := List.mem_filter.mp he
    have h2 : e.1 = t := by simpa using hmem.2
    have h3 : e = (t, x) := by
      cases e with
      | mk a b => simp only at h1 h2; rw [h1, h2]
    rw [← h3]
    exact hmem.1
  · intro h
    exact List.mem_map.mpr ⟨(t, x), List.mem_filter.mpr ⟨h, by simp⟩, rfl⟩

/-- A successful search in a prefix stays successful after an append. -/
theorem find_append_some {α : Type} (l l2 : List α) (p : α → Bool) (x : α)
    (h : l.find? p = some x) : (l ++ l2).find? p = some x := by
  induction l with
  | nil => simp [List.find?] at h
  | cons a rest ih =>
    rw [List.cons_append]
    cases hpa : p a
    · rw [List.find?_cons_of_neg _ (by simp [hpa])] at h ⊢
      exact ih h
    · rw [List.find?_cons_of_pos _ hpa] at h ⊢
      exact h

/-- Shape of the evaluation table after a `compute_object_role_permissions`
call: survivors of the bulk delete followed by the bulk-inserted rows. -/
theorem corp_evals_eq (env : MEnv) (db : Db) (s : Finset Nat) :
    (compute_object_role_permissions env db s).evals =
      db.evals.filter (fun e => e.id ∉ corpDels env db s) ++
      rowsFromAux db.nextEvalId (corpAdds env db s) := by
  have hdel : ((corpTargets db s).map (fun r => (r, needed_cache_updates env db r))).foldl
      (fun acc rr => acc ++ rr.2.1) ([] : List Nat) = corpDels env db s := by
    rw [foldl_append_concatAll
      (fun rr : ObjRole × (List Nat × List EvalKey) => rr.2.1), List.map_map]
    rfl
  have hadd : ((corpTargets db s).map (fun r => (r, needed_cache_updates env db r))).foldl
      (fun acc rr => acc ++ rr.2.2.map (fun k => (rr.1.id, k)))
      ([] : List (Nat × EvalKey)) = corpAdds env db s := by
    rw [foldl_append_concatAll
      (fun rr : ObjRole × (List Nat × List EvalKey) => rr.2.2.map (fun k => (rr.1.id, k))),
      List.map_map]
    rfl
  have henum := enumFrom_rows_eq db.nextEvalId (corpAdds env db s) 0
  rw [Nat.add_zero] at henum
  calc (compute_object_role_permissions env db s).evals
      = db.evals.filter (fun e => e.id ∉ ((corpTargets db s).map
          (fun r => (r, needed_cache_updates env db r))).foldl
          (fun acc rr => acc ++ rr.2.1) []) ++
        (List.enumFrom 0 (((corpTargets db s).map
          (fun r => (r, needed_cache_updates env db r))).foldl
          (fun acc rr => acc ++ rr.2.2.map (fun k => (rr.1.id, k))) [])).map
          (fun ie =>
            ({ id := db.nextEvalId + ie.1, roleId := ie.2.1, codename := ie.2.2.1,
               ct := ie.2.2.2.1, objId := ie.2.2.2.2 } : EvalRow)) := rfl
    _ = _ := by rw [hdel, hadd, henum]

/-- When every cached key of a role is still expected, the role contributes no
deletions. -/
theorem ncu_delete_nil (env : MEnv) (db : Db) (role : ObjRole)
    (h : ∀ e ∈ db.evals, e.roleId = role.id → evalKey e ∈ expectedOf env db role) :
    (needed_cache_updates env db role).1 = [] := by
  unfold needed_cache_updates
  dsimp only
  rw [List.map_eq_nil_iff, List.filter_eq_nil_iff]
  intro kv hkv
  rcases mem_partials (db.evals.filter (fun e => e.roleId = role.id)) [] kv hkv with
    h0 | ⟨hrow, hkey⟩
  · cases h0
  · have hmem := List.mem_filter.mp hrow
    have hk := h kv.2 hmem.1 (by simpa using hmem.2)
    simp [hkey, hk]

/-- When every expected key of a role is already cached, the role contributes
no insertions. -/
theorem ncu_add_nil (env : MEnv) (db : Db) (role : ObjRole)
    (h : ∀ k ∈ expectedOf env db role,
      ∃ e ∈ db.evals, e.roleId = role.id ∧ evalKey e = k) :
    (needed_cache_updates env db role).2 = [] := by
  unfold needed_cache_updates
  dsimp only
  rw [List.filter_eq_nil_iff]
  intro k hk
  rcases h k hk with ⟨e, he, hrid, hkey⟩
  have hmem : k ∈ ((db.evals.filter (fun e => e.roleId = role.id)).foldl
      (fun m e => upsertRow m (e.codename, e.ct, e.objId) e) []).map (fun kv => kv.1) := by
    rw [keys_partials]
    right
    exact List.mem_map.mpr ⟨e, List.mem_filter.mpr ⟨he, by simp [hrid]⟩, hkey⟩
  simp [hmem]

/-- The queued insertions of a role are expected keys that are not yet cached,
without repetition. -/
theorem ncu_add_facts (env : MEnv) (db : Db) (role : ObjRole) :
    (∀ k ∈ (needed_cache_updates env db role).2,
      k ∈ expectedOf env db role ∧
      ¬∃ e ∈ db.evals, e.roleId = role.id ∧ evalKey e = k) ∧
    (needed_cache_updates env db role).2.Nodup := by
  constructor
  · intro k hk
    have hmem := List.mem_filter.mp hk
    refine ⟨hmem.1, ?_⟩
    rintro ⟨e, he, hrid, hkey⟩
    have hk2 := hmem.2
    simp only [decide_not, Bool.not_eq_true', decide_eq_false_iff_not] at hk2
    apply hk2
    rw [keys_partials]
    right
    exact List.mem_map.mpr ⟨e, List.mem_filter.mpr ⟨he, by simp [hrid]⟩, hkey⟩
  · exact List.Nodup.filter _ (expectedOf_nodup env db role)

/-- Exact deletions of a role whose cached rows split into consistent old rows
followed by fresh rows with expected-disjoint, repetition-free keys: exactly
the fresh rows are deleted. -/
theorem ncu_delete_exact (env : MEnv) (db : Db) (role : ObjRole)
    (oldRows newRows : List EvalRow)
    (hsplit : db.evals.filter (fun e => e.roleId = role.id) = oldRows ++ newRows)
    (hold : ∀ e ∈ oldRows, evalKey e ∈ expectedOf env db role)
    (hnew : ∀ e ∈ newRows, evalKey e ∉ expectedOf env db role)
    (hnd : (newRows.map evalKey).Nodup) :
    (needed_cache_updates env db role).1 = newRows.map (fun e => e.id) := by
  unfold needed_cache_updates
  dsimp only
  rw [hsplit, List.foldl_append]
  have hfresh : ∀ e ∈ newRows, evalKey e ∉ (oldRows.foldl
      (fun m e => upsertRow m (e.codename, e.ct, e.objId) e) []).map (fun kv => kv.1) := by
    intro e he hk
    rw [keys_partials] at hk
    rcases hk with h0 | h0
    · simp at h0
    · rcases List.mem_map.mp h0 with ⟨e2, he2, hke⟩
      exact hnew e he (hke ▸ hold e2 he2)
  rw [partials_append_fresh newRows _ hnd hfresh]
  rw [List.filter_append, List.map_append]
  have h1 : ((oldRows.foldl (fun m e => upsertRow m (e.codename, e.ct, e.objId) e) []).filter
      (fun kv => kv.1 ∉ expectedOf env db role)) = [] := by
    rw [List.filter_eq_nil_iff]
    intro kv hkv
    rcases mem_partials oldRows [] kv hkv with h0 | ⟨hrow, hkey⟩
    · cases h0
    · simp [hkey, hold kv.2 hrow]
  have h2 : ((newRows.map (fun e => (evalKey e, e))).filter
      (fun kv => kv.1 ∉ expectedOf env db role)) = newRows.map (fun e => (evalKey e, e)) := by
    rw [List.filter_eq_self]
    intro kv hkv
    rcases List.mem_map.mp hkv with ⟨e, he, hke⟩
    simp [← hke, hnew e he]
  rw [h1, h2, List.map_map]
  simp

/-- Provenance of the collected bulk-insert pairs. -/
theorem mem_corpAdds (env : MEnv) (db : Db) (s : Finset Nat) (p : Nat × EvalKey)
    (hp : p ∈ corpAdds env db s) :
    ∃ r ∈ db.objectRoles, r.id ∈ s ∧ p.1 = r.id ∧
      p.2 ∈ (needed_cache_updates env db r).2 := by
  unfold corpAdds at hp
  rcases (mem_concatAll _ _).mp hp with ⟨l, hl, hpl⟩
  rcases List.mem_map.mp hl with ⟨r, hr, hlr⟩
  have hrr := List.mem_filter.mp hr
  rw [← hlr] at hpl
  rcases List.mem_map.mp hpl with ⟨k, hk, hkp⟩
  cases hkp
  exact ⟨r, hrr.1, by simpa using hrr.2, rfl, hk⟩

/-- Membership in the collected bulk-delete ids from one target role. -/
theorem mem_corpDels_of (env : MEnv) (db : Db) (s : Finset Nat) (r : ObjRole)
    (hr : r ∈ db.objectRoles) (hrs : r.id ∈ s) (x : Nat)
    (hx : x ∈ (needed_cache_updates env db r).1) : x ∈ corpDels env db s := by
  unfold corpDels
  rw [mem_concatAll]
  exact ⟨(needed_cache_updates env db r).1,
    List.mem_map.mpr ⟨r, List.mem_filter.mpr ⟨hr, by simp [hrs]⟩, rfl⟩, hx⟩

/-- Provenance of the collected bulk-delete ids. -/
theorem mem_corpDels (env : MEnv) (db : Db) (s : Finset Nat) (x : Nat)
    (hx : x ∈ corpDels env db s) :
    ∃ r ∈ db.objectRoles, r.id ∈ s ∧ x ∈ (needed_cache_updates env db r).1 := by
  unfold corpDels at hx
  rcases (mem_concatAll _ _).mp hx with ⟨l, hl, hxl⟩
  rcases List.mem_map.mp hl with ⟨r, hr, hlr⟩
  have hrr := List.mem_filter.mp hr
  rw [← hlr] at hxl
  exact ⟨r, hrr.1, by simpa using hrr.2, hxl⟩

/-- Per-role keys of the collected bulk-insert pairs are repetition-free when
object-role ids are. -/
theorem corpAdds_keys_nodup (env : MEnv) (db : Db) (s : Finset Nat)
    (hidnd : (db.objectRoles.map (fun r => r.id)).Nodup) (A : Nat) :
    (((corpAdds env db s).filter (fun p => p.1 = A)).map (fun p => p.2)).Nodup := by
  have key : ∀ (l : List ObjRole), (l.map (fun r => r.id)).Nodup →
      (((concatAll (l.map (fun r => (needed_cache_updates env db r).2.map
        (fun k => (r.id, k))))).filter (fun p => p.1 = A)).map
          (fun p : Nat × EvalKey => p.2)).Nodup := by
    intro l
    induction l with
    | nil =>
      intro _
      simp [concatAll]
    | cons r rest ih =>
      intro hnd
      rw [List.map_cons] at hnd ⊢
      have hnd1 := (List.nodup_cons.mp hnd).1
      have hnd2 := (List.nodup_cons.mp hnd).2
      show ((((needed_cache_updates env db r).2.map (fun k => (r.id, k)) ++
        concatAll (rest.map (fun r => (needed_cache_updates env db r).2.map
          (fun k => (r.id, k))))).filter (fun p => p.1 = A)).map
            (fun p : Nat × EvalKey => p.2)).Nodup
      rw [List.filter_append, List.map_append]
      by_cases hA : r.id = A
      · have hrest : (concatAll (rest.map (fun r => (needed_cache_updates env db r).2.map
            (fun k => (r.id, k))))).filter (fun p => p.1 = A) = [] := by
          rw [List.filter_eq_nil_iff]
          intro p hp
          rcases (mem_concatAll _ _).mp hp with ⟨l2, hl2, hpl2⟩
          rcases List.mem_map.mp hl2 with ⟨r2, hr2, hlr2⟩
          rw [← hlr2] at hpl2
          rcases List.mem_map.mp hpl2 with ⟨k, hk, hkp⟩
          cases hkp
          have : r2.id ≠ A := by
            intro hc
            have hmem2 : r2.id ∈ rest.map (fun r => r.id) :=
              List.mem_map_of_mem (fun r => r.id) hr2
            rw [hc, ← hA] at hmem2
            exact hnd1 hmem2
          simp [this]
        rw [hrest]
        have hhead : ((needed_cache_updates env db r).2.map (fun k => (r.id, k))).filter
            (fun p => p.1 = A) = (needed_cache_updates env db r).2.map (fun k => (r.id, k)) := by
          rw [List.filter_eq_self]
          intro p hp
          rcases List.mem_map.mp hp with ⟨k, hk, hkp⟩
          cases hkp
          simp [hA]
        rw [hhead]
        simp only [List.map_nil, List.append_nil, List.map_map]
        have : ((fun p : Nat × EvalKey => p.2) ∘ fun k : EvalKey => (r.id, k)) = id := rfl
        rw [this, List.map_id]
        exact (ncu_add_facts env db r).2
      · have hhead : ((needed_cache_updates env db r).2.map (fun k => (r.id, k))).filter
            (fun p => p.1 = A) = [] := by
          rw [List.filter_eq_nil_iff]
          intro p hp
          rcases List.mem_map.mp hp with ⟨k, hk, hkp⟩
          cases hkp
          simp [hA]
        rw [hhead]
        simp only [List.map_nil, List.nil_append]
        exact ih hnd2
  have hsub : ((corpTargets db s).map (fun r => r.id)).Nodup := by
    unfold corpTargets
    exact ((List.filter_sublist _).map (fun r : ObjRole => r.id)).nodup hidnd
  exact key (corpTargets db s) hsub

/-- When no target role has stale cached keys, the call only appends the
bulk-inserted rows. -/
theorem corp_extends (env : MEnv) (db : Db) (s : Finset Nat)
    (hnodel : ∀ r ∈ db.objectRoles, r.id ∈ s →
      ∀ e ∈ db.evals, e.roleId = r.id → evalKey e ∈ expectedOf env db r) :
    (compute_object_role_permissions env db s).evals =
      db.evals ++ rowsFromAux db.nextEvalId (corpAdds env db s) := by
  rw [corp_evals_eq]
  have hdel : corpDels env db s = [] := by
    unfold corpDels
    apply concatAll_nil_of_all
    intro l hl
    rcases List.mem_map.mp hl with ⟨r, hr, hlr⟩
    have hrr := List.mem_filter.mp hr
    rw [← hlr]
    exact ncu_delete_nil env db r (hnodel r hrr.1 (by simpa using hrr.2))
  rw [hdel]
  have hfilt : db.evals.filter (fun e => e.id ∉ ([] : List Nat)) = db.evals :=
    List.filter_eq_self.mpr (fun e he => by simp)
  rw [hfilt]

/-- Master cleanup shape: when the evaluation table splits into consistent
original rows (ids below the base) and fresh rows (ids at or above it) whose
keys are not expected, and every fresh row belongs to a targeted role, the
call deletes exactly the fresh rows and inserts nothing. -/
theorem corp_cleanup (env : MEnv) (dbR : Db) (s : Finset Nat) (base : Nat)
    (origEvals added : List EvalRow)
    (hev : dbR.evals = origEvals ++ added)
    (horig : ∀ e ∈ origEvals, e.id < base)
    (haddid : ∀ e ∈ added, base ≤ e.id)
    (hassoc : ∀ r ∈ dbR.objectRoles, r.id ∈ s →
        (∀ e ∈ origEvals, e.roleId = r.id → evalKey e ∈ expectedOf env dbR r) ∧
        (∀ k ∈ expectedOf env dbR r, ∃ e ∈ origEvals, e.roleId = r.id ∧ evalKey e = k))
    (hnewk : ∀ r ∈ dbR.objectRoles, r.id ∈ s →
        ∀ e ∈ added, e.roleId = r.id → evalKey e ∉ expectedOf env dbR r)
    (hnewnd : ∀ A : Nat, ((added.filter (fun e => e.roleId = A)).map evalKey).Nodup)
    (hcover : ∀ e ∈ added, ∃ r ∈ dbR.objectRoles, r.id ∈ s ∧ e.roleId = r.id) :
    (compute_object_role_permissions env dbR s).evals = origEvals := by
  have hsplit : ∀ (A : Nat), dbR.evals.filter (fun e => e.roleId = A) =
      origEvals.filter (fun e => e.roleId = A) ++ added.filter (fun e => e.roleId = A) := by
    intro A
    rw [hev, List.filter_append]
  have hdel_each : ∀ r ∈ dbR.objectRoles, r.id ∈ s →
      (needed_cache_updates env dbR r).1 =
        (added.filter (fun e => e.roleId = r.id)).map (fun e => e.id) := by
    intro r hr hrs
    apply ncu_delete_exact env dbR r (origEvals.filter (fun e => e.roleId = r.id))
      (added.filter (fun e => e.roleId = r.id)) (hsplit r.id)
    · intro e he
      have hm := List.mem_filter.mp he
      exact (hassoc r hr hrs).1 e hm.1 (by simpa using hm.2)
    · intro e he
      have hm := List.mem_filter.mp he
      exact hnewk r hr hrs e hm.1 (by simpa using hm.2)
    · exact hnewnd r.id
  have hadd_each : ∀ r ∈ dbR.objectRoles, r.id ∈ s →
      (needed_cache_updates env dbR r).2 = [] := by
    intro r hr hrs
    apply ncu_add_nil
    intro k hk
    rcases (hassoc r hr hrs).2 k hk with ⟨e, he, h1, h2⟩
    exact ⟨e, by rw [hev]; exact List.mem_append_left _ he, h1, h2⟩
  have hadds : corpAdds env dbR s = [] := by
    unfold corpAdds
    apply concatAll_nil_of_all
    intro l hl
    rcases List.mem_map.mp hl with ⟨r, hr, hlr⟩
    have hrr := List.mem_filter.mp hr
    rw [← hlr, hadd_each r hrr.1 (by simpa using hrr.2)]
    rfl
  rw [corp_evals_eq, hadds, hev, List.filter_append]
  have h1 : origEvals.filter (fun e => e.id ∉ corpDels env dbR s) = origEvals := by
    rw [List.filter_eq_self]
    intro e he
    have hnot : e.id ∉ corpDels env dbR s := by
      intro hmem
      rcases mem_corpDels env dbR s e.id hmem with ⟨r, hr, hrs, hx⟩
      rw [hdel_each r hr hrs] at hx
      rcases List.mem_map.mp hx with ⟨e2, he2, hid⟩
      have h2 := haddid e2 (List.mem_filter.mp he2).1
      have h3 := horig e he
      omega
    simpa using hnot
  have h2 : added.filter (fun e => e.id ∉ corpDels env dbR s) = [] := by
    rw [List.filter_eq_nil_iff]
    intro e he
    have hmem : e.id ∈ corpDels env dbR s := by
      rcases hcover e he with ⟨r, hr, hrs, hrid⟩
      apply mem_corpDels_of env dbR s r hr hrs
      rw [hdel_each r hr hrs]
      exact List.mem_map.mpr ⟨e, List.mem_filter.mpr ⟨he, by simp [hrid]⟩, rfl⟩
    simp [hmem]
  rw [h1, h2]
  simp [rowsFromAux]

/-- Expected keys only grow when provides rows, team edges and resolvable
roles are preserved. -/
theorem expectedOfSem_mono (env : MEnv) (db db2 : Db) (role : ObjRole)
    (hpt : ∀ x ∈ db.providesTeams, x ∈ db2.providesTeams)
    (hte : ∀ x ∈ db.teamEdges, x ∈ db2.teamEdges)
    (hor : ∀ rid tr, db.objectRoles.find? (fun r => r.id = rid) = some tr →
      db2.objectRoles.find? (fun r => r.id = rid) = some tr)
    (k : EvalKey) (h : expectedOfSem env db role k) : expectedOfSem env db2 role k := by
  rcases h with h | ⟨t, hpt0, rid, hrid, tr, hf, hk⟩
  · exact Or.inl h
  · refine Or.inr ⟨t, hpt _ hpt0, rid, ?_, tr, hor rid tr hf, hk⟩
    rw [mem_teamRoleIds] at hrid ⊢
    exact hte _ hrid

/-- Membership form of expected-key monotonicity. -/
theorem mem_expectedOf_mono (env : MEnv) (db db2 : Db) (role : ObjRole)
    (hpt : ∀ x ∈ db.providesTeams, x ∈ db2.providesTeams)
    (hte : ∀ x ∈ db.teamEdges, x ∈ db2.teamEdges)
    (hor : ∀ rid tr, db.objectRoles.find? (fun r => r.id = rid) = some tr →
      db2.objectRoles.find? (fun r => r.id = rid) = some tr)
    (k : EvalKey) (h : k ∈ expectedOf env db role) : k ∈ expectedOf env db2 role := by
  rw [mem_expectedOf] at h ⊢
  exact expectedOfSem_mono env db db2 role hpt hte hor k h

/-- Expected keys are stable under set-equal provides rows and equal actor
and role tables. -/
theorem mem_expectedOf_congr (env : MEnv) (db db2 : Db) (role : ObjRole)
    (hpt : ∀ x : Nat × Nat, x ∈ db2.providesTeams ↔ x ∈ db.providesTeams)
    (hte : db2.teamEdges = db.teamEdges)
    (hor : db2.objectRoles = db.objectRoles) (k : EvalKey) :
    k ∈ expectedOf env db2 role ↔ k ∈ expectedOf env db role := by
  constructor
  · intro h
    exact mem_expectedOf_mono env db2 db role (fun x hx => (hpt x).mp hx)
      (fun x hx => hte ▸ hx) (fun rid tr hf => by rw [← hor]; exact hf) k h
  · intro h
    exact mem_expectedOf_mono env db db2 role (fun x hx => (hpt x).mpr hx)
      (fun x hx => hte.symm ▸ hx) (fun rid tr hf => by rw [hor]; exact hf) k h

/-- Direct membership grants are monotone in the role table. -/
theorem grantsDirect_mono (env : MEnv) (db db2 : Db)
    (hor : ∀ x ∈ db.objectRoles, x ∈ db2.objectRoles) (rid t : Nat)
    (h : grantsDirect env db rid t) : grantsDirect env db2 rid t := by
  rcases h with ⟨role, hm, h1, h2, h3⟩
  exact ⟨role, hor role hm, h1, h2, h3⟩

/-- Feeder edges are monotone in the role table and team edges. -/
theorem feedsInto_mono (env : MEnv) (db db2 : Db)
    (hor : ∀ x ∈ db.objectRoles, x ∈ db2.objectRoles)
    (hte : ∀ x ∈ db.teamEdges, x ∈ db2.teamEdges) (s t : Nat)
    (h : feedsInto env db s t) : feedsInto env db2 s t := by
  rcases h with ⟨rid, hgd, hedge⟩
  exact ⟨rid, grantsDirect_mono env db db2 hor rid t hgd, hte _ hedge⟩

/-- Feeder reachability is monotone in the role table and team edges. -/
theorem reachFeeder_mono (env : MEnv) (db db2 : Db)
    (hor : ∀ x ∈ db.objectRoles, x ∈ db2.objectRoles)
    (hte : ∀ x ∈ db.teamEdges, x ∈ db2.teamEdges) (t s : Nat)
    (h : ReachFeeder env db t s) : ReachFeeder env db2 t s := by
  induction h with
  | direct h => exact ReachFeeder.direct (feedsInto_mono env db db2 hor hte _ _ h)
  | trans h _ ih => exact ReachFeeder.trans (feedsInto_mono env db db2 hor hte _ _ h) ih

/-- The semantic membership closure is monotone in the role table and team
edges. -/
theorem provSem_mono (env : MEnv) (db db2 : Db)
    (hor : ∀ x ∈ db.objectRoles, x ∈ db2.objectRoles)
    (hte : ∀ x ∈ db.teamEdges, x ∈ db2.teamEdges) (rid t : Nat)
    (h : ProvSem env db rid t) : ProvSem env db2 rid t := by
  rcases h with h | ⟨p, hr, hg⟩
  · exact Or.inl (grantsDirect_mono env db db2 hor rid t h)
  · exact Or.inr ⟨p, reachFeeder_mono env db db2 hor hte t p hr,
      grantsDirect_mono env db db2 hor rid p hg⟩

/-- The semantic membership closure only reads the role table and team
edges. -/
theorem provSem_congr (env : MEnv) (db db2 : Db)
    (hor : db2.objectRoles = db.objectRoles) (hte : db2.teamEdges = db.teamEdges)
    (rid t : Nat) : ProvSem env db2 rid t ↔ ProvSem env db rid t :=
  ⟨provSem_mono env db2 db (fun x hx => hor ▸ hx) (fun x hx => hte ▸ hx) rid t,
   provSem_mono env db db2 (fun x hx => hor.symm ▸ hx) (fun x hx => hte.symm ▸ hx) rid t⟩

/-- Membership in the roles granting any permission to a team. -/
theorem mem_team_ancestor_roles (env : MEnv) (db : Db) (t x : Nat) :
    x ∈ team_ancestor_roles env db t ↔
      ∃ e ∈ db.evals,
        (e.codename = env.teamPermission ∧ e.objId = t ∧ e.ct = env.teamCt) ∧
        e.roleId = x := by
  unfold team_ancestor_roles
  rw [List.mem_toFinset]
  simp only [List.mem_map, List.mem_filter, decide_eq_true_eq]
  constructor
  · rintro ⟨e, ⟨he, hp⟩, hx⟩
    exact ⟨e, he, hp, hx⟩
  · rintro ⟨e, he, hp, hx⟩
    exact ⟨e, ⟨he, hp⟩, hx⟩

/-- Team-ancestor roles are monotone in the evaluation table. -/
theorem team_ancestor_roles_mono (env : MEnv) (db db2 : Db) (t : Nat)
    (hev : ∀ e ∈ db.evals, e ∈ db2.evals) :
    ∀ x ∈ team_ancestor_roles env db t, x ∈ team_ancestor_roles env db2 t := by
  intro x hx
  rw [mem_team_ancestor_roles] at hx ⊢
  rcases hx with ⟨e, he, h1, h2⟩
  exact ⟨e, hev e he, h1, h2⟩

/-- Membership in a union fold of finsets over a list. -/
theorem finset_foldl_union_mem (g : Nat → Finset Nat) :
    ∀ (l : List Nat) (init : Finset Nat) (x : Nat),
      x ∈ l.foldl (fun acc t => acc ∪ g t) init ↔ x ∈ init ∨ ∃ t ∈ l, x ∈ g t := by
  intro l
  induction l with
  | nil => intro init x; simp
  | cons t rest ih =>
    intro init x
    rw [List.foldl_cons, ih]
    constructor
    · rintro (h | h)
      · rcases Finset.mem_union.mp h with h | h
        · exact Or.inl h
        · exact Or.inr ⟨t, List.mem_cons_self _ _, h⟩
      · rcases h with ⟨t2, ht2, h⟩
        exact Or.inr ⟨t2, List.mem_cons_of_mem _ ht2, h⟩
    · rintro (h | ⟨t2, ht2, h⟩)
      · exact Or.inl (Finset.mem_union_left _ h)
      · rcases List.mem_cons.mp ht2 with h2 | h2
        · exact Or.inl (Finset.mem_union_right _ (h2 ▸ h))
        · exact Or.inr ⟨t2, h2, h⟩

/-- Membership in the descendant roles of a role. -/
theorem mem_descendent_roles (db : Db) (rid x : Nat) :
    x ∈ descendent_roles db rid ↔
      ∃ t, (rid, t) ∈ db.providesTeams ∧ (t, x) ∈ db.teamEdges := by
  unfold descendent_roles
  rw [finset_foldl_union_mem (fun t => (teamRoleIds db t).toFinset)]
  simp only [Finset.not_mem_empty, false_or, List.mem_toFinset]
  constructor
  · rintro ⟨t, ht, hx⟩
    rcases List.mem_map.mp ht with ⟨e, he, het⟩
    have hm := List.mem_filter.mp he
    have h1 : e.1 = rid := by simpa using hm.2
    refine ⟨t, ?_, (mem_teamRoleIds db t x).mp hx⟩
    have h2 : e = (rid, t) := by
      cases e with
      | mk a b => simp only at h1 het; rw [h1, het]
    rw [← h2]
    exact hm.1
  · rintro ⟨t, hpt, hte⟩
    refine ⟨t, ?_, (mem_teamRoleIds db t x).mpr hte⟩
    exact List.mem_map.mpr ⟨(rid, t), List.mem_filter.mpr ⟨hpt, by simp⟩, rfl⟩

/-- Descendant roles are monotone in provides rows and team edges. -/
theorem descendent_roles_mono (db db2 : Db) (rid : Nat)
    (hpt : ∀ x ∈ db.providesTeams, x ∈ db2.providesTeams)
    (hte : ∀ x ∈ db.teamEdges, x ∈ db2.teamEdges) :
    ∀ x ∈ descendent_roles db rid, x ∈ descendent_roles db2 rid := by
  intro x hx
  rw [mem_descendent_roles] at hx ⊢
  rcases hx with ⟨t, h1, h2⟩
  exact ⟨t, hpt _ h1, hte _ h2⟩

/-- Rebuilding team membership from a state that extends a consistent base
never loses provides rows of the base. -/
theorem ctmr_provides_mono (fuel : Nat) (env : MEnv) (db0 dbX d : Db)
    (hctne : env.teamCt ≠ env.orgCt)
    (hpc : provConsistent env db0)
    (hor : ∀ x ∈ db0.objectRoles, x ∈ dbX.objectRoles)
    (hte : ∀ x ∈ db0.teamEdges, x ∈ dbX.teamEdges)
    (hptX : dbX.providesTeams = db0.providesTeams)
    (h : compute_team_member_roles fuel env dbX = some d) :
    ∀ x ∈ db0.providesTeams, x ∈ d.providesTeams := by
  intro x hx
  cases x with
  | mk r t =>
    rw [compute_team_member_roles_provides_char fuel env dbX d hctne h r t]
    by_cases ht : t ∈ env.teams.map (fun y => y.1)
    · rw [if_pos ht]
      exact provSem_mono env db0 dbX hor hte r t ((hpc r t ht).mp hx)
    · rw [if_neg ht, hptX]
      exact hx

/-- Rebuilding team membership on a state whose role table and team edges
equal a consistent base restores its provides rows up to set equality. -/
theorem ctmr_restores_set (fuel : Nat) (env : MEnv) (db0 dbR d : Db)
    (hctne : env.teamCt ≠ env.orgCt)
    (hor : dbR.objectRoles = db0.objectRoles) (hte : dbR.teamEdges = db0.teamEdges)
    (hpc : provConsistent env db0)
    (hunreg : ∀ x : Nat × Nat, x.2 ∉ env.teams.map (fun y => y.1) →
      (x ∈ dbR.providesTeams ↔ x ∈ db0.providesTeams))
    (h : compute_team_member_roles fuel env dbR = some d) :
    ∀ x : Nat × Nat, x ∈ d.providesTeams ↔ x ∈ db0.providesTeams := by
  intro x
  cases x with
  | mk r t =>
    rw [compute_team_member_roles_provides_char fuel env dbR d hctne h r t]
    by_cases ht : t ∈ env.teams.map (fun y => y.1)
    · rw [if_pos ht, provSem_congr env db0 dbR hor hte r t]
      exact (hpc r t ht).symm
    · rw [if_neg ht]
      exact hunreg (r, t) ht

/-- Adding a membership edge adds at most that pair. -/
theorem mem_addEdge (edges : List (Nat × Nat)) (a rid : Nat) (x : Nat × Nat) :
    x ∈ addEdge edges a rid ↔ x ∈ edges ∨ x = (a, rid) := by
  unfold addEdge
  split
  · rename_i h
    constructor
    · exact Or.inl
    · rintro (h2 | h2)
      · exact h2
      · rw [h2]
        exact h
  · simp

/-- Removing a just-added fresh membership edge restores the edge list. -/
theorem removeEdge_addEdge (edges : List (Nat × Nat)) (a rid : Nat)
    (h : (a, rid) ∉ edges) : removeEdge (addEdge edges a rid) a rid = edges := by
  unfold addEdge removeEdge
  rw [if_neg h, List.filter_append]
  have h1 : edges.filter (fun e => ¬(e.1 = a ∧ e.2 = rid)) = edges := by
    rw [List.filter_eq_self]
    intro e he
    have hne : ¬(e.1 = a ∧ e.2 = rid) := by
      rintro ⟨ha, hb⟩
      apply h
      have h3 : e = (a, rid) := by
        cases e with
        | mk x y => simp only at ha hb; rw [ha, hb]
      rw [← h3]
      exact he
    exact decide_eq_true hne
  rw [h1]
  simp

/-- A false `actorHolds` check for a user on a found role means the edge is
absent. -/
theorem actorHolds_user_edge (db : Db) (u rdId objCt objId : Nat) (role : ObjRole)
    (hfind : db.objectRoles.find?
      (fun r => r.rdId = rdId && r.ct = objCt && r.objId = objId) = some role)
    (hnh : actorHolds db (.user u) rdId objCt objId = false) :
    (u, role.id) ∉ db.userEdges := by
  unfold actorHolds at hnh
  rw [hfind] at hnh
  exact of_decide_eq_false hnh

/-- A false `actorHolds` check for a team on a found role means the edge is
absent. -/
theorem actorHolds_team_edge (db : Db) (t rdId objCt objId : Nat) (role : ObjRole)
    (hfind : db.objectRoles.find?
      (fun r => r.rdId = rdId && r.ct = objCt && r.objId = objId) = some role)
    (hnh : actorHolds db (.team t) rdId objCt objId = false) :
    (t, role.id) ∉ db.teamEdges := by
  unfold actorHolds at hnh
  rw [hfind] at hnh
  exact of_decide_eq_false hnh

/-- A search failing on a prefix continues in the suffix. -/
theorem find_append_right {α : Type} (l l2 : List α) (p : α → Bool)
    (h : l.find? p = none) : (l ++ l2).find? p = l2.find? p := by
  induction l with
  | nil => rfl
  | cons a rest ih =>
    cases hpa : p a with
    | true =>
      rw [List.find?_cons_of_pos _ hpa] at h
      cases h
    | false =>
      rw [List.find?_cons_of_neg _ (by simp [hpa])] at h
      rw [List.cons_append, List.find?_cons_of_neg _ (by simp [hpa])]
      exact ih h

/-- `roleHasActors` reads only the membership edges. -/
theorem roleHasActors_congr (db db2 : Db) (rid : Nat)
    (hu : db2.userEdges = db.userEdges) (ht : db2.teamEdges = db.teamEdges) :
    roleHasActors db2 rid = roleHasActors db rid := by
  unfold roleHasActors
  rw [hu, ht]

/-- A role referenced by no membership edge has no actors. -/
theorem roleHasActors_false_of_fresh (db : Db) (rid : Nat)
    (hu : ∀ e ∈ db.userEdges, e.2 ≠ rid) (ht : ∀ e ∈ db.teamEdges, e.2 ≠ rid) :
    roleHasActors db rid = false := by
  have h1 : db.userEdges.any (fun e => e.2 = rid) = false := by
    rw [List.any_eq_false]
    intro e he
    simp [hu e he]
  have h2 : db.teamEdges.any (fun e => e.2 = rid) = false := by
    rw [List.any_eq_false]
    intro e he
    simp [ht e he]
  unfold roleHasActors
  rw [h1, h2]
  rfl

/-- A failing gate propagates through `needed_updates_on_assignment`. -/
theorem needed_updates_error (env : MEnv) (db : Db) (rd : RoleDefn) (actor : Actor)
    (role : ObjRole) (created giving : Bool) (err : RbacError)
    (hval : validate_assignment_enabled env actor role.ct
      (rd.perms.any (fun p => p.codename = env.teamPermission)) = .error err) :
    needed_updates_on_assignment env db rd actor role created giving = .error err := by
  unfold needed_updates_on_assignment
  rw [hval]
  rfl

/-- `needed_updates_on_assignment`, user actor, existing role: no recompute
and an empty dirty set (the giving flag is hardcoded at the call site). -/
theorem needed_updates_user_existing (env : MEnv) (db : Db) (rd : RoleDefn) (u : Nat)
    (role : ObjRole) :
    needed_updates_on_assignment env db rd (.user u) role false true =
      .ok (false, (∅ : Finset Nat)) := by
  have hval : validate_assignment_enabled env (.user u) role.ct
      (rd.perms.any (fun p => p.codename = env.teamPermission)) = .ok () := by
    unfold validate_assignment_enabled
    split
    · rfl
    · rfl
  unfold needed_updates_on_assignment
  rw [hval]
  simp [Except.bind]

/-- `needed_updates_on_assignment`, user actor, freshly created role: the
role itself is dirty, plus its descendants for a `member_team` definition. -/
theorem needed_updates_user_created (env : MEnv) (db : Db) (rd : RoleDefn) (u : Nat)
    (role : ObjRole) :
    needed_updates_on_assignment env db rd (.user u) role true true =
      .ok (rd.perms.any (fun p => p.codename = env.teamPermission),
        if rd.perms.any (fun p => p.codename = env.teamPermission) = true then
          {role.id} ∪ descendent_roles db role.id
        else {role.id}) := by
  have hval : validate_assignment_enabled env (.user u) role.ct
      (rd.perms.any (fun p => p.codename = env.teamPermission)) = .ok () := by
    unfold validate_assignment_enabled
    split
    · rfl
    · rfl
  unfold needed_updates_on_assignment
  rw [hval]
  simp [Except.bind]

/-- `needed_updates_on_assignment`, team actor, existing role: the team's
ancestor roles and the role's descendants are dirty. -/
theorem needed_updates_team_existing (env : MEnv) (db : Db) (rd : RoleDefn) (t : Nat)
    (role : ObjRole)
    (hval : validate_assignment_enabled env (.team t) role.ct
      (rd.perms.any (fun p => p.codename = env.teamPermission)) = .ok ()) :
    needed_updates_on_assignment env db rd (.team t) role false true =
      .ok (rd.perms.any (fun p => p.codename = env.teamPermission),
        team_ancestor_roles env db t ∪ descendent_roles db role.id) := by
  unfold needed_updates_on_assignment
  rw [hval]
  simp [Except.bind]

/-- `needed_updates_on_assignment`, team actor, freshly created role. -/
theorem needed_updates_team_created (env : MEnv) (db : Db) (rd : RoleDefn) (t : Nat)
    (role : ObjRole)
    (hval : validate_assignment_enabled env (.team t) role.ct
      (rd.perms.any (fun p => p.codename = env.teamPermission)) = .ok ()) :
    needed_updates_on_assignment env db rd (.team t) role true true =
      .ok (rd.perms.any (fun p => p.codename = env.teamPermission),
        ({role.id} ∪ team_ancestor_roles env db t) ∪ descendent_roles db role.id) := by
  unfold needed_updates_on_assignment
  rw [hval]
  simp [Except.bind]

/-- Round trip, user actor, pre-existing (shared) object role: the giving
pipeline runs with an empty dirty set and no team recompute, and so does the
removal, so the cache never moves. -/
theorem c5_user_found (env : MEnv) (fuel : Nat) (db dbMid dbFin : Db) (rd : RoleDefn)
    (u objCt objId : Nat) (role0 : ObjRole)
    (hfind : db.objectRoles.find?
      (fun r => r.rdId = rd.id && r.ct = objCt && r.objId = objId) = some role0)
    (hW5 : ∀ r ∈ db.objectRoles, roleHasActors db r.id = true)
    (hnh : (u, role0.id) ∉ db.userEdges)
    (hgive : give_or_remove_permission env fuel db rd (.user u) objCt objId true = .ok dbMid)
    (hrem : give_or_remove_permission env fuel dbMid rd (.user u) objCt objId false
      = .ok dbFin) :
    dbFin.evals = db.evals := by
  rw [give_or_remove_found env fuel db rd (.user u) objCt objId role0 true hfind,
    needed_updates_user_existing env db rd u role0] at hgive
  have hg2 : Except.ok (compute_object_role_permissions env
      { db with userEdges := addEdge db.userEdges u role0.id } (∅ : Finset Nat)) =
      Except.ok dbMid := hgive
  rw [compute_object_role_permissions_empty] at hg2
  injection hg2 with hdbMid
  have hMue : dbMid.userEdges = addEdge db.userEdges u role0.id := by rw [← hdbMid]
  have hMor : dbMid.objectRoles = db.objectRoles := by rw [← hdbMid]
  have hMte : dbMid.teamEdges = db.teamEdges := by rw [← hdbMid]
  have hMev : dbMid.evals = db.evals := by rw [← hdbMid]
  have hfind2 : dbMid.objectRoles.find?
      (fun r => r.rdId = rd.id && r.ct = objCt && r.objId = objId) = some role0 := by
    rw [hMor]
    exact hfind
  rw [give_or_remove_found env fuel dbMid rd (.user u) objCt objId role0 false hfind2,
    needed_updates_user_existing env dbMid rd u role0] at hrem
  have hrole0 : role0 ∈ db.objectRoles := List.mem_of_find?_eq_some hfind
  have hact : roleHasActors
      { dbMid with userEdges := removeEdge dbMid.userEdges u role0.id } role0.id = true := by
    rw [roleHasActors_congr db
      { dbMid with userEdges := removeEdge dbMid.userEdges u role0.id } role0.id ?_ ?_]
    · exact hW5 role0 hrole0
    · show removeEdge dbMid.userEdges u role0.id = db.userEdges
      rw [hMue]
      exact removeEdge_addEdge db.userEdges u role0.id hnh
    · show dbMid.teamEdges = db.teamEdges
      exact hMte
  have h2 : update_after_assignment fuel env false
      ((if (!false && !roleHasActors
            { dbMid with userEdges := removeEdge dbMid.userEdges u role0.id } role0.id) = true
        then
          (deleteRoleCascade { dbMid with userEdges := removeEdge dbMid.userEdges u role0.id }
            role0.id, (∅ : Finset Nat).erase role0.id)
        else ({ dbMid with userEdges := removeEdge dbMid.userEdges u role0.id },
          (∅ : Finset Nat))).2)
      ((if (!false && !roleHasActors
            { dbMid with userEdges := removeEdge dbMid.userEdges u role0.id } role0.id) = true
        then
          (deleteRoleCascade { dbMid with userEdges := removeEdge dbMid.userEdges u role0.id }
            role0.id, (∅ : Finset Nat).erase role0.id)
        else ({ dbMid with userEdges := removeEdge dbMid.userEdges u role0.id },
          (∅ : Finset Nat))).1)
      = Except.ok dbFin := hrem
  rw [hact] at h2
  simp only [Bool.not_true, Bool.not_false, Bool.true_and, Bool.and_false, Bool.false_eq_true,
    if_false] at h2
  have h3 : Except.ok (compute_object_role_permissions env
      { dbMid with userEdges := removeEdge dbMid.userEdges u role0.id } (∅ : Finset Nat)) =
      Except.ok dbFin := h2
  rw [compute_object_role_permissions_empty] at h3
  injection h3 with h4
  rw [← h4]
  show dbMid.evals = db.evals
  exact hMev

/-- Removal after a fresh-role give, user actor: the role lost its only
actor, so the cascade deletes it together with all its fresh rows, and the
reconcile pass runs on an empty dirty set. -/
theorem c5_user_notfound_remove (env : MEnv) (fuel : Nat) (db dbMid dbFin : Db)
    (rd : RoleDefn) (u objCt objId : Nat) (added : List EvalRow)
    (hfind : db.objectRoles.find?
      (fun r => r.rdId = rd.id && r.ct = objCt && r.objId = objId) = none)
    (hfrU : ∀ e ∈ db.userEdges, e.2 < db.nextRoleId)
    (hfrT : ∀ e ∈ db.teamEdges, e.2 < db.nextRoleId)
    (hfrE : ∀ e ∈ db.evals, e.roleId < db.nextRoleId)
    (hMor : dbMid.objectRoles = db.objectRoles ++ [⟨db.nextRoleId, rd.id, objCt, objId⟩])
    (hMue : dbMid.userEdges = addEdge db.userEdges u db.nextRoleId)
    (hMte : dbMid.teamEdges = db.teamEdges)
    (hMev : dbMid.evals = db.evals ++ added)
    (hadded : ∀ e ∈ added, e.roleId = db.nextRoleId)
    (hrem : give_or_remove_permission env fuel dbMid rd (.user u) objCt objId false
      = .ok dbFin) :
    dbFin.evals = db.evals := by
  have hfind2 : dbMid.objectRoles.find?
      (fun r => r.rdId = rd.id && r.ct = objCt && r.objId = objId) =
      some ⟨db.nextRoleId, rd.id, objCt, objId⟩ := by
    rw [hMor, find_append_right _ _ _ hfind]
    simp [List.find?]
  rw [give_or_remove_found env fuel dbMid rd (.user u) objCt objId
      ⟨db.nextRoleId, rd.id, objCt, objId⟩ false hfind2,
    needed_updates_user_existing env dbMid rd u ⟨db.nextRoleId, rd.id, objCt, objId⟩] at hrem
  have hue : removeEdge dbMid.userEdges u db.nextRoleId = db.userEdges := by
    rw [hMue]
    exact removeEdge_addEdge db.userEdges u db.nextRoleId
      (fun hc => Nat.lt_irrefl db.nextRoleId (hfrU _ hc))
  have hact : roleHasActors
      { dbMid with userEdges := removeEdge dbMid.userEdges u db.nextRoleId }
      db.nextRoleId = false := by
    apply roleHasActors_false_of_fresh
    · intro e he
      have he2 : e ∈ db.userEdges := by
        rw [← hue]
        exact he
      exact Nat.ne_of_lt (hfrU e he2)
    · intro e he
      have he2 : e ∈ db.teamEdges := by
        rw [← hMte]
        exact he
      exact Nat.ne_of_lt (hfrT e he2)
  have h2 : update_after_assignment fuel env false
      ((if (!false && !roleHasActors
            { dbMid with userEdges := removeEdge dbMid.userEdges u db.nextRoleId }
            db.nextRoleId) = true
        then
          (deleteRoleCascade
            { dbMid with userEdges := removeEdge dbMid.userEdges u db.nextRoleId }
            db.nextRoleId, (∅ : Finset Nat).erase db.nextRoleId)
        else ({ dbMid with userEdges := removeEdge dbMid.userEdges u db.nextRoleId },
          (∅ : Finset Nat))).2)
      ((if (!false && !roleHasActors
            { dbMid with userEdges := removeEdge dbMid.userEdges u db.nextRoleId }
            db.nextRoleId) = true
        then
          (deleteRoleCascade
            { dbMid with userEdges := removeEdge dbMid.userEdges u db.nextRoleId }
            db.nextRoleId, (∅ : Finset Nat).erase db.nextRoleId)
        else ({ dbMid with userEdges := removeEdge dbMid.userEdges u db.nextRoleId },
          (∅ : Finset Nat))).1)
      = Except.ok dbFin := hrem
  rw [hact] at h2
  simp only [Bool.not_false, Bool.not_true, Bool.true_and, Bool.and_false, if_true,
    Finset.erase_empty] at h2
  have h3 : Except.ok (compute_object_role_permissions env
      (deleteRoleCascade
        { dbMid with userEdges := removeEdge dbMid.userEdges u db.nextRoleId }
        db.nextRoleId)
      (∅ : Finset Nat)) = Except.ok dbFin := h2
  rw [compute_object_role_permissions_empty] at h3
  injection h3 with h4
  rw [← h4]
  show dbMid.evals.filter (fun e => e.roleId ≠ db.nextRoleId) = db.evals
  have hA : db.evals.filter (fun e => e.roleId ≠ db.nextRoleId) = db.evals :=
    List.filter_eq_self.mpr (fun e he => decide_eq_true (Nat.ne_of_lt (hfrE e he)))
  have hB : added.filter (fun e => e.roleId ≠ db.nextRoleId) = [] :=
    List.filter_eq_nil_iff.mpr (fun e he => by simp [hadded e he])
  rw [hMev, List.filter_append, hA, hB, List.append_nil]

/-- Round trip, user actor, no pre-existing object role: the fresh role is
created and cached, then the removal cascades it away entirely. -/
theorem c5_user_notfound (env : MEnv) (fuel : Nat) (db dbMid dbFin : Db) (rd : RoleDefn)
    (u objCt objId : Nat)
    (hfind : db.objectRoles.find?
      (fun r => r.rdId = rd.id && r.ct = objCt && r.objId = objId) = none)
    (hfrU : ∀ e ∈ db.userEdges, e.2 < db.nextRoleId)
    (hfrT : ∀ e ∈ db.teamEdges, e.2 < db.nextRoleId)
    (hfrP : ∀ e ∈ db.providesTeams, e.1 < db.nextRoleId)
    (hfrE : ∀ e ∈ db.evals, e.roleId < db.nextRoleId)
    (hgive : give_or_remove_permission env fuel db rd (.user u) objCt objId true = .ok dbMid)
    (hrem : give_or_remove_permission env fuel dbMid rd (.user u) objCt objId false
      = .ok dbFin) :
    dbFin.evals = db.evals := by
  rw [give_or_remove_notfound_give env fuel db rd (.user u) objCt objId hfind] at hgive
  rw [needed_updates_user_created env
    { db with objectRoles := db.objectRoles ++ [⟨db.nextRoleId, rd.id, objCt, objId⟩],
              nextRoleId := db.nextRoleId + 1 }
    rd u ⟨db.nextRoleId, rd.id, objCt, objId⟩] at hgive
  have hdesc : descendent_roles
      { db with objectRoles := db.objectRoles ++ [⟨db.nextRoleId, rd.id, objCt, objId⟩],
                nextRoleId := db.nextRoleId + 1 }
      (⟨db.nextRoleId, rd.id, objCt, objId⟩ : ObjRole).id = ∅ := by
    apply descendent_roles_empty
    intro e he
    exact Nat.ne_of_lt (hfrP e he)
  rw [hdesc, Finset.union_empty, ite_self] at hgive
  have hnodel : ∀ (dbG : Db), dbG.objectRoles =
        db.objectRoles ++ [⟨db.nextRoleId, rd.id, objCt, objId⟩] →
      dbG.evals = db.evals →
      ∀ r ∈ dbG.objectRoles,
        r.id ∈ ({(⟨db.nextRoleId, rd.id, objCt, objId⟩ : ObjRole).id} : Finset Nat) →
        ∀ e ∈ dbG.evals, e.roleId = r.id → evalKey e ∈ expectedOf env dbG r := by
    intro dbG hor hev r hr hrs e he hrid
    exfalso
    have h1 : r.id = db.nextRoleId := Finset.mem_singleton.mp hrs
    rw [hev] at he
    have h2 : e.roleId < db.nextRoleId := hfrE e he
    omega
  have hadds : ∀ (dbG : Db),
      ∀ e ∈ rowsFromAux db.nextEvalId (corpAdds env dbG
        ({(⟨db.nextRoleId, rd.id, objCt, objId⟩ : ObjRole).id} : Finset Nat)),
        e.roleId = db.nextRoleId := by
    intro dbG e he
    rcases mem_rowsFromAux _ _ e he with ⟨p, hp, h1, h2⟩
    rcases mem_corpAdds env dbG _ p hp with ⟨r, hr, hrs, h3, h4⟩
    have h5 : r.id = db.nextRoleId := Finset.mem_singleton.mp hrs
    rw [h1, h3, h5]
  cases hb : rd.perms.any (fun p => p.codename = env.teamPermission) with
  | false =>
    rw [hb] at hgive
    have hg3 : Except.ok (compute_object_role_permissions env
        { db with objectRoles := db.objectRoles ++ [⟨db.nextRoleId, rd.id, objCt, objId⟩],
                  nextRoleId := db.nextRoleId + 1,
                  userEdges := addEdge db.userEdges u db.nextRoleId }
        ({(⟨db.nextRoleId, rd.id, objCt, objId⟩ : ObjRole).id} : Finset Nat)) =
        Except.ok dbMid := hgive
    injection hg3 with hdbMid
    refine c5_user_notfound_remove env fuel db dbMid dbFin rd u objCt objId
      (rowsFromAux db.nextEvalId (corpAdds env
        { db with objectRoles := db.objectRoles ++ [⟨db.nextRoleId, rd.id, objCt, objId⟩],
                  nextRoleId := db.nextRoleId + 1,
                  userEdges := addEdge db.userEdges u db.nextRoleId }
        ({(⟨db.nextRoleId, rd.id, objCt, objId⟩ : ObjRole).id} : Finset Nat)))
      hfind hfrU hfrT hfrE ?_ ?_ ?_ ?_ (hadds _) hrem
    · rw [← hdbMid]
      rfl
    · rw [← hdbMid]
      rfl
    · rw [← hdbMid]
      rfl
    · rw [← hdbMid]
      rw [corp_extends env
        { db with objectRoles := db.objectRoles ++ [⟨db.nextRoleId, rd.id, objCt, objId⟩],
                  nextRoleId := db.nextRoleId + 1,
                  userEdges := addEdge db.userEdges u db.nextRoleId }
        ({(⟨db.nextRoleId, rd.id, objCt, objId⟩ : ObjRole).id} : Finset Nat)
        (hnodel _ rfl rfl)]
  | true =>
    rw [hb] at hgive
    have hg2 : update_after_assignment fuel env true
        ({(⟨db.nextRoleId, rd.id, objCt, objId⟩ : ObjRole).id} : Finset Nat)
        { db with objectRoles := db.objectRoles ++ [⟨db.nextRoleId, rd.id, objCt, objId⟩],
                  nextRoleId := db.nextRoleId + 1,
                  userEdges := addEdge db.userEdges u db.nextRoleId }
        = Except.ok dbMid := hgive
    rw [update_after_assignment_eq] at hg2
    have hg3 : (match compute_team_member_roles fuel env
        { db with objectRoles := db.objectRoles ++ [⟨db.nextRoleId, rd.id, objCt, objId⟩],
                  nextRoleId := db.nextRoleId + 1,
                  userEdges := addEdge db.userEdges u db.nextRoleId } with
      | none => (Except.error RbacError.fuelExhausted : Except RbacError Db)
      | some d => Except.ok (compute_object_role_permissions env d
          ({(⟨db.nextRoleId, rd.id, objCt, objId⟩ : ObjRole).id} : Finset Nat)))
      = Except.ok dbMid := hg2
    cases hct : compute_team_member_roles fuel env
        { db with objectRoles := db.objectRoles ++ [⟨db.nextRoleId, rd.id, objCt, objId⟩],
                  nextRoleId := db.nextRoleId + 1,
                  userEdges := addEdge db.userEdges u db.nextRoleId } with
    | none =>
      rw [hct] at hg3
      exact absurd hg3 (by simp)
    | some dbT =>
      rw [hct] at hg3
      have hg4 : Except.ok (compute_object_role_permissions env dbT
          ({(⟨db.nextRoleId, rd.id, objCt, objId⟩ : ObjRole).id} : Finset Nat)) =
          Except.ok dbMid := hg3
      injection hg4 with hdbMid
      have hpres := compute_team_member_roles_preserves fuel env _ dbT hct
      refine c5_user_notfound_remove env fuel db dbMid dbFin rd u objCt objId
        (rowsFromAux db.nextEvalId (corpAdds env dbT
          ({(⟨db.nextRoleId, rd.id, objCt, objId⟩ : ObjRole).id} : Finset Nat)))
        hfind hfrU hfrT hfrE ?_ ?_ ?_ ?_ (hadds _) hrem
      · rw [← hdbMid, (compute_object_role_permissions_fields env dbT _).1, hpres.1]
      · rw [← hdbMid, (compute_object_role_permissions_fields env dbT _).2.1, hpres.2.1]
      · rw [← hdbMid, (compute_object_role_permissions_fields env dbT _).2.2.1, hpres.2.2.1]
      · rw [← hdbMid]
        rw [corp_extends env dbT
          ({(⟨db.nextRoleId, rd.id, objCt, objId⟩ : ObjRole).id} : Finset Nat)
          (hnodel dbT hpres.1 hpres.2.2.2.1)]
        rw [hpres.2.2.2.1, hpres.2.2.2.2.2]

/-- Common removal-side reconciliation: a state whose role table, team edges
and (as a set) provides rows match the consistent base, and whose evaluation
table is the base plus fresh not-expected rows of dirty roles, is restored to
the base rows by the reconcile pass over any superset of those dirty roles. -/
theorem c5_remove_cleanup (env : MEnv) (db dbR : Db) (sG sR : Finset Nat)
    (added : List EvalRow)
    (hidnd : (db.objectRoles.map (fun r => r.id)).Nodup)
    (hfrE : ∀ e ∈ db.evals, e.id < db.nextEvalId)
    (hec : evalsConsistent env db)
    (hRor : dbR.objectRoles = db.objectRoles)
    (hRte : dbR.teamEdges = db.teamEdges)
    (hRev : dbR.evals = db.evals ++ added)
    (hRiff : ∀ x : Nat × Nat, x ∈ dbR.providesTeams ↔ x ∈ db.providesTeams)
    (haddid : ∀ e ∈ added, db.nextEvalId ≤ e.id)
    (haddprov : ∀ e ∈ added, ∃ r ∈ db.objectRoles, r.id ∈ sG ∧ e.roleId = r.id ∧
      ¬∃ e2 ∈ db.evals, e2.roleId = r.id ∧ evalKey e2 = evalKey e)
    (haddnd : ∀ A : Nat, ((added.filter (fun e => e.roleId = A)).map evalKey).Nodup)
    (hsub : ∀ x ∈ sG, x ∈ sR) :
    (compute_object_role_permissions env dbR sR).evals = db.evals := by
  apply corp_cleanup env dbR sR db.nextEvalId db.evals added hRev hfrE haddid ?_ ?_ haddnd ?_
  · -- consistency of the original rows of every target
    intro r hr hrs
    rw [hRor] at hr
    constructor
    · intro e he hrid
      have h1 : evalKey e ∈ roleKeys db r.id :=
        (mem_roleKeys db r.id (evalKey e)).mpr ⟨e, he, hrid, rfl⟩
      have h2 : evalKey e ∈ expectedOf env db r := (hec r hr (evalKey e)).mp h1
      exact (mem_expectedOf_congr env db dbR r hRiff hRte hRor (evalKey e)).mpr h2
    · intro k hk
      have h1 : k ∈ expectedOf env db r :=
        (mem_expectedOf_congr env db dbR r hRiff hRte hRor k).mp hk
      have h2 : k ∈ roleKeys db r.id := (hec r hr k).mpr h1
      exact (mem_roleKeys db r.id k).mp h2
  · -- fresh rows carry keys that are not expected
    intro r hr hrs e he hrid
    rw [hRor] at hr
    rcases haddprov e he with ⟨r2, hr2, hr2s, hrid2, hnc⟩
    have hrr : r2 = r :=
      List.inj_on_of_nodup_map hidnd hr2 hr (by rw [← hrid2, ← hrid])
    subst hrr
    intro hcon
    apply hnc
    have h1 : evalKey e ∈ expectedOf env db r2 :=
      (mem_expectedOf_congr env db dbR r2 hRiff hRte hRor (evalKey e)).mp hcon
    have h2 : evalKey e ∈ roleKeys db r2.id := (hec r2 hr (evalKey e)).mpr h1
    exact (mem_roleKeys db r2.id (evalKey e)).mp h2
  · -- every fresh row belongs to a target
    intro e he
    rcases haddprov e he with ⟨r, hr, hrs, hrid, hnc⟩
    refine ⟨r, ?_, hsub r.id hrs, hrid⟩
    rw [hRor]
    exact hr

/-- Removal after a give to a team on a pre-existing object role: the dirty
set of the removal (computed with the hardcoded giving flag) covers the give
dirty set, the team graph recompute (if any) restores the provides rows of
the consistent base, and the reconcile pass deletes exactly the fresh rows. -/
theorem c5_team_found_remove (env : MEnv) (fuel : Nat) (db dbMid dbFin : Db)
    (rd : RoleDefn) (tA objCt objId : Nat) (role0 : ObjRole) (added : List EvalRow)
    (hctne : env.teamCt ≠ env.orgCt)
    (hidnd : (db.objectRoles.map (fun r => r.id)).Nodup)
    (hfrE : ∀ e ∈ db.evals, e.id < db.nextEvalId)
    (hW5 : ∀ r ∈ db.objectRoles, roleHasActors db r.id = true)
    (hec : evalsConsistent env db)
    (hpc : provConsistent env db)
    (hfind : db.objectRoles.find?
      (fun r => r.rdId = rd.id && r.ct = objCt && r.objId = objId) = some role0)
    (hnh : (tA, role0.id) ∉ db.teamEdges)
    (hval : validate_assignment_enabled env (.team tA) role0.ct
      (rd.perms.any (fun p => p.codename = env.teamPermission)) = .ok ())
    (hMor : dbMid.objectRoles = db.objectRoles)
    (hMue : dbMid.userEdges = db.userEdges)
    (hMte : dbMid.teamEdges = addEdge db.teamEdges tA role0.id)
    (hMev : dbMid.evals = db.evals ++ added)
    (hMpt : ∀ x ∈ db.providesTeams, x ∈ dbMid.providesTeams)
    (hMunreg : ∀ x : Nat × Nat, x.2 ∉ env.teams.map (fun y => y.1) →
      (x ∈ dbMid.providesTeams ↔ x ∈ db.providesTeams))
    (hMpt2 : rd.perms.any (fun p => p.codename = env.teamPermission) = false →
      dbMid.providesTeams = db.providesTeams)
    (haddid : ∀ e ∈ added, db.nextEvalId ≤ e.id)
    (haddprov : ∀ e ∈ added, ∃ r ∈ db.objectRoles,
      r.id ∈ team_ancestor_roles env db tA ∪ descendent_roles db role0.id ∧
      e.roleId = r.id ∧ ¬∃ e2 ∈ db.evals, e2.roleId = r.id ∧ evalKey e2 = evalKey e)
    (haddnd : ∀ A : Nat, ((added.filter (fun e => e.roleId = A)).map evalKey).Nodup)
    (hrem : give_or_remove_permission env fuel dbMid rd (.team tA) objCt objId false
      = .ok dbFin) :
    dbFin.evals = db.evals := by
  have hrole0 : role0 ∈ db.objectRoles := List.mem_of_find?_eq_some hfind
  have hfind2 : dbMid.objectRoles.find?
      (fun r => r.rdId = rd.id && r.ct = objCt && r.objId = objId) = some role0 := by
    rw [hMor]
    exact hfind
  rw [give_or_remove_found env fuel dbMid rd (.team tA) objCt objId role0 false hfind2,
    needed_updates_team_existing env dbMid rd tA role0 hval] at hrem
  have hte1 : removeEdge dbMid.teamEdges tA role0.id = db.teamEdges := by
    rw [hMte]
    exact removeEdge_addEdge db.teamEdges tA role0.id hnh
  have hact : roleHasActors
      { dbMid with teamEdges := removeEdge dbMid.teamEdges tA role0.id } role0.id = true := by
    rw [roleHasActors_congr db
      { dbMid with teamEdges := removeEdge dbMid.teamEdges tA role0.id } role0.id hMue hte1]
    exact hW5 role0 hrole0
  have h2 : update_after_assignment fuel env
      (rd.perms.any (fun p => p.codename = env.teamPermission))
      ((if (!false && !roleHasActors
            { dbMid with teamEdges := removeEdge dbMid.teamEdges tA role0.id } role0.id) = true
        then
          (deleteRoleCascade
            { dbMid with teamEdges := removeEdge dbMid.teamEdges tA role0.id } role0.id,
           (team_ancestor_roles env dbMid tA ∪
             descendent_roles dbMid role0.id).erase role0.id)
        else ({ dbMid with teamEdges := removeEdge dbMid.teamEdges tA role0.id },
          team_ancestor_roles env dbMid tA ∪ descendent_roles dbMid role0.id)).2)
      ((if (!false && !roleHasActors
            { dbMid with teamEdges := removeEdge dbMid.teamEdges tA role0.id } role0.id) = true
        then
          (deleteRoleCascade
            { dbMid with teamEdges := removeEdge dbMid.teamEdges tA role0.id } role0.id,
           (team_ancestor_roles env dbMid tA ∪
             descendent_roles dbMid role0.id).erase role0.id)
        else ({ dbMid with teamEdges := removeEdge dbMid.teamEdges tA role0.id },
          team_ancestor_roles env dbMid tA ∪ descendent_roles dbMid role0.id)).1)
      = Except.ok dbFin := hrem
  rw [hact] at h2
  simp only [Bool.not_false, Bool.not_true, Bool.true_and, Bool.and_false, Bool.false_eq_true,
    if_false] at h2
  rw [update_after_assignment_eq] at h2
  have hsub : ∀ x ∈ team_ancestor_roles env db tA ∪ descendent_roles db role0.id,
      x ∈ team_ancestor_roles env dbMid tA ∪ descendent_roles dbMid role0.id := by
    intro x hx
    rcases Finset.mem_union.mp hx with hx | hx
    · exact Finset.mem_union_left _ (team_ancestor_roles_mono env db dbMid tA
        (fun e2 he2 => by rw [hMev]; exact List.mem_append_left _ he2) x hx)
    · exact Finset.mem_union_right _ (descendent_roles_mono db dbMid role0.id hMpt
        (fun y hy => by
          rw [hMte]
          exact (mem_addEdge db.teamEdges tA role0.id y).mpr (Or.inl hy)) x hx)
  cases hb : rd.perms.any (fun p => p.codename = env.teamPermission) with
  | false =>
    rw [hb] at h2
    have h3 : Except.ok (compute_object_role_permissions env
        { dbMid with teamEdges := removeEdge dbMid.teamEdges tA role0.id }
        (team_ancestor_roles env dbMid tA ∪ descendent_roles dbMid role0.id)) =
        Except.ok dbFin := h2
    injection h3 with hFin
    rw [← hFin]
    exact c5_remove_cleanup env db
      { dbMid with teamEdges := removeEdge dbMid.teamEdges tA role0.id }
      (team_ancestor_roles env db tA ∪ descendent_roles db role0.id)
      (team_ancestor_roles env dbMid tA ∪ descendent_roles dbMid role0.id)
      added hidnd hfrE hec hMor hte1 hMev
      (fun x => by
        show x ∈ dbMid.providesTeams ↔ x ∈ db.providesTeams
        rw [hMpt2 hb])
      haddid haddprov haddnd hsub
  | true =>
    rw [hb] at h2
    have h3 : (match compute_team_member_roles fuel env
        { dbMid with teamEdges := removeEdge dbMid.teamEdges tA role0.id } with
      | none => (Except.error RbacError.fuelExhausted : Except RbacError Db)
      | some d => Except.ok (compute_object_role_permissions env d
          (team_ancestor_roles env dbMid tA ∪ descendent_roles dbMid role0.id)))
      = Except.ok dbFin := h2
    cases hct2 : compute_team_member_roles fuel env
        { dbMid with teamEdges := removeEdge dbMid.teamEdges tA role0.id } with
    | none =>
      rw [hct2] at h3
      exact absurd h3 (by simp)
    | some dbT2 =>
      rw [hct2] at h3
      have h4 : Except.ok (compute_object_role_permissions env dbT2
          (team_ancestor_roles env dbMid tA ∪ descendent_roles dbMid role0.id)) =
          Except.ok dbFin := h3
      injection h4 with hFin
      rw [← hFin]
      have hpres := compute_team_member_roles_preserves fuel env _ dbT2 hct2
      have hRiff := ctmr_restores_set fuel env db
        { dbMid with teamEdges := removeEdge dbMid.teamEdges tA role0.id } dbT2 hctne
        hMor hte1 hpc
        (fun x hx => by
          show x ∈ dbMid.providesTeams ↔ x ∈ db.providesTeams
          exact hMunreg x hx)
        hct2
      exact c5_remove_cleanup env db dbT2
        (team_ancestor_roles env db tA ∪ descendent_roles db role0.id)
        (team_ancestor_roles env dbMid tA ∪ descendent_roles dbMid role0.id)
        added hidnd hfrE hec
        (by rw [hpres.1]; exact hMor)
        (by rw [hpres.2.2.1]; exact hte1)
        (by rw [hpres.2.2.2.1]; exact hMev)
        hRiff haddid haddprov haddnd hsub

/-- Round trip, team actor, pre-existing (shared) object role. -/
theorem c5_team_found (env : MEnv) (fuel : Nat) (db dbMid dbFin : Db) (rd : RoleDefn)
    (tA objCt objId : Nat) (role0 : ObjRole)
    (hctne : env.teamCt ≠ env.orgCt)
    (hidnd : (db.objectRoles.map (fun r => r.id)).Nodup)
    (hfrE : ∀ e ∈ db.evals, e.id < db.nextEvalId)
    (hW5 : ∀ r ∈ db.objectRoles, roleHasActors db r.id = true)
    (hec : evalsConsistent env db)
    (hpc : provConsistent env db)
    (hfind : db.objectRoles.find?
      (fun r => r.rdId = rd.id && r.ct = objCt && r.objId = objId) = some role0)
    (hnh : (tA, role0.id) ∉ db.teamEdges)
    (hgive : give_or_remove_permission env fuel db rd (.team tA) objCt objId true = .ok dbMid)
    (hrem : give_or_remove_permission env fuel dbMid rd (.team tA) objCt objId false
      = .ok dbFin) :
    dbFin.evals = db.evals := by
  cases hv : validate_assignment_enabled env (.team tA) role0.ct
      (rd.perms.any (fun p => p.codename = env.teamPermission)) with
  | error err =>
    rw [give_or_remove_found env fuel db rd (.team tA) objCt objId role0 true hfind,
      needed_updates_error env db rd (.team tA) role0 false true err hv] at hgive
    simp [Except.bind] at hgive
  | ok u0 =>
    cases u0
    rw [give_or_remove_found env fuel db rd (.team tA) objCt objId role0 true hfind,
      needed_updates_team_existing env db rd tA role0 hv] at hgive
    have hnodelA : ∀ (dbG : Db), dbG.objectRoles = db.objectRoles → dbG.evals = db.evals →
        (∀ x ∈ db.providesTeams, x ∈ dbG.providesTeams) →
        (∀ x ∈ db.teamEdges, x ∈ dbG.teamEdges) →
        ∀ r ∈ dbG.objectRoles,
          r.id ∈ team_ancestor_roles env db tA ∪ descendent_roles db role0.id →
          ∀ e ∈ dbG.evals, e.roleId = r.id → evalKey e ∈ expectedOf env dbG r := by
      intro dbG hor hev hpt hte r hr hrs e he hrid
      rw [hor] at hr
      rw [hev] at he
      have h1 : evalKey e ∈ roleKeys db r.id :=
        (mem_roleKeys db r.id (evalKey e)).mpr ⟨e, he, hrid, rfl⟩
      have h2 : evalKey e ∈ expectedOf env db r := (hec r hr (evalKey e)).mp h1
      exact mem_expectedOf_mono env db dbG r hpt hte
        (fun rid tr hf => by rw [hor]; exact hf) (evalKey e) h2
    have haddprovA : ∀ (dbG : Db), dbG.objectRoles = db.objectRoles → dbG.evals = db.evals →
        ∀ e ∈ rowsFromAux db.nextEvalId (corpAdds env dbG
          (team_ancestor_roles env db tA ∪ descendent_roles db role0.id)),
          ∃ r ∈ db.objectRoles,
            r.id ∈ team_ancestor_roles env db tA ∪ descendent_roles db role0.id ∧
            e.roleId = r.id ∧
            ¬∃ e2 ∈ db.evals, e2.roleId = r.id ∧ evalKey e2 = evalKey e := by
      intro dbG hor hev e he
      rcases mem_rowsFromAux _ _ e he with ⟨p, hp, h1, h2⟩
      rcases mem_corpAdds env dbG _ p hp with ⟨r, hr, hrs, h3, h4⟩
      rw [hor] at hr
      refine ⟨r, hr, hrs, by rw [h1, h3], ?_⟩
      rintro ⟨e2, he2, ha, hb2⟩
      have hnc := ((ncu_add_facts env dbG r).1 p.2 h4).2
      apply hnc
      refine ⟨e2, ?_, ha, by rw [hb2, h2]⟩
      rw [hev]
      exact he2
    have haddndA : ∀ (dbG : Db), dbG.objectRoles = db.objectRoles →
        ∀ A : Nat, (((rowsFromAux db.nextEvalId (corpAdds env dbG
          (team_ancestor_roles env db tA ∪ descendent_roles db role0.id))).filter
            (fun e => e.roleId = A)).map evalKey).Nodup := by
      intro dbG hor A
      rw [rowsFromAux_filter_roleId]
      apply corpAdds_keys_nodup
      rw [hor]
      exact hidnd
    cases hb : rd.perms.any (fun p => p.codename = env.teamPermission) with
    | false =>
      rw [hb] at hgive
      have hg3 : Except.ok (compute_object_role_permissions env
          { db with teamEdges := addEdge db.teamEdges tA role0.id }
          (team_ancestor_roles env db tA ∪ descendent_roles db role0.id)) =
          Except.ok dbMid := hgive
      injection hg3 with hdbMid
      refine c5_team_found_remove env fuel db dbMid dbFin rd tA objCt objId role0
        (rowsFromAux db.nextEvalId (corpAdds env
          { db with teamEdges := addEdge db.teamEdges tA role0.id }
          (team_ancestor_roles env db tA ∪ descendent_roles db role0.id)))
        hctne hidnd hfrE hW5 hec hpc hfind hnh hv
        (by rw [← hdbMid]; rfl) (by rw [← hdbMid]; rfl) (by rw [← hdbMid]; rfl)
        ?_ (fun x hx => by rw [← hdbMid]; exact hx)
        (fun x hx => by rw [← hdbMid]; rfl)
        (fun hbe => by rw [← hdbMid]; rfl)
        (fun e he => rowsFromAux_id_ge _ db.nextEvalId e he)
        (haddprovA _ rfl rfl) (haddndA _ rfl) hrem
      rw [← hdbMid]
      rw [corp_extends env { db with teamEdges := addEdge db.teamEdges tA role0.id }
        (team_ancestor_roles env db tA ∪ descendent_roles db role0.id)
        (hnodelA _ rfl rfl (fun x hx => hx)
          (fun x hx => (mem_addEdge db.teamEdges tA role0.id x).mpr (Or.inl hx)))]
    | true =>
      rw [hb] at hgive
      have hg2 : update_after_assignment fuel env true
          (team_ancestor_roles env db tA ∪ descendent_roles db role0.id)
          { db with teamEdges := addEdge db.teamEdges tA role0.id } = Except.ok dbMid := hgive
      rw [update_after_assignment_eq] at hg2
      have hg3 : (match compute_team_member_roles fuel env
          { db with teamEdges := addEdge db.teamEdges tA role0.id } with
        | none => (Except.error RbacError.fuelExhausted : Except RbacError Db)
        | some d => Except.ok (compute_object_role_permissions env d
            (team_ancestor_roles env db tA ∪ descendent_roles db role0.id)))
        = Except.ok dbMid := hg2
      cases hct : compute_team_member_roles fuel env
          { db with teamEdges := addEdge db.teamEdges tA role0.id } with
      | none =>
        rw [hct] at hg3
        exact absurd hg3 (by simp)
      | some dbT =>
        rw [hct] at hg3
        have hg4 : Except.ok (compute_object_role_permissions env dbT
            (team_ancestor_roles env db tA ∪ descendent_roles db role0.id)) =
            Except.ok dbMid := hg3
        injection hg4 with hdbMid
        have hpres := compute_team_member_roles_preserves fuel env _ dbT hct
        have hTprov : ∀ x ∈ db.providesTeams, x ∈ dbT.providesTeams := by
          apply ctmr_provides_mono fuel env db
            { db with teamEdges := addEdge db.teamEdges tA role0.id } dbT hctne hpc
            (fun x hx => hx)
            (fun x hx => (mem_addEdge db.teamEdges tA role0.id x).mpr (Or.inl hx))
            rfl hct
        have hTunreg : ∀ x : Nat × Nat, x.2 ∉ env.teams.map (fun y => y.1) →
            (x ∈ dbT.providesTeams ↔ x ∈ db.providesTeams) := by
          rintro ⟨r0, t0⟩ hx
          rw [compute_team_member_roles_provides_char fuel env
            { db with teamEdges := addEdge db.teamEdges tA role0.id } dbT hctne hct r0 t0]
          rw [if_neg hx]
        refine c5_team_found_remove env fuel db dbMid dbFin rd tA objCt objId role0
          (rowsFromAux db.nextEvalId (corpAdds env dbT
            (team_ancestor_roles env db tA ∪ descendent_roles db role0.id)))
          hctne hidnd hfrE hW5 hec hpc hfind hnh hv
          (by rw [← hdbMid, (compute_object_role_permissions_fields env dbT _).1, hpres.1])
          (by rw [← hdbMid, (compute_object_role_permissions_fields env dbT _).2.1,
            hpres.2.1])
          (by rw [← hdbMid, (compute_object_role_permissions_fields env dbT _).2.2.1,
            hpres.2.2.1])
          ?_
          (fun x hx => by
            rw [← hdbMid, (compute_object_role_permissions_fields env dbT _).2.2.2.1]
            exact hTprov x hx)
          (fun x hx => by
            rw [← hdbMid, (compute_object_role_permissions_fields env dbT _).2.2.2.1]
            exact hTunreg x hx)
          (fun hbe => by rw [hb] at hbe; simp at hbe)
          (fun e he => rowsFromAux_id_ge _ db.nextEvalId e he)
          (haddprovA dbT hpres.1 hpres.2.2.2.1) (haddndA dbT hpres.1) hrem
        rw [← hdbMid]
        rw [corp_extends env dbT
          (team_ancestor_roles env db tA ∪ descendent_roles db role0.id)
          (hnodelA dbT hpres.1 hpres.2.2.2.1
            (fun x hx => hTprov x hx)
            (fun x hx => by
              rw [hpres.2.2.1]
              exact (mem_addEdge db.teamEdges tA role0.id x).mpr (Or.inl hx)))]
        rw [hpres.2.2.2.1, hpres.2.2.2.2.2]

/-- Removal after a fresh-role give, team actor: the cascade deletes the
fresh role with its rows and provides entries, the recompute (if any) runs on
a state matching the base, and the reconcile pass deletes the remaining fresh
rows of the team's ancestor roles. -/
theorem c5_team_notfound_remove (env : MEnv) (fuel : Nat) (db dbMid dbFin : Db)
    (rd : RoleDefn) (tA objCt objId : Nat) (added : List EvalRow)
    (hctne : env.teamCt ≠ env.orgCt)
    (hidnd : (db.objectRoles.map (fun r => r.id)).Nodup)
    (hfrR : ∀ r ∈ db.objectRoles, r.id < db.nextRoleId)
    (hfrU : ∀ e ∈ db.userEdges, e.2 < db.nextRoleId)
    (hfrT : ∀ e ∈ db.teamEdges, e.2 < db.nextRoleId)
    (hfrP : ∀ e ∈ db.providesTeams, e.1 < db.nextRoleId)
    (hfrE : ∀ e ∈ db.evals, e.roleId < db.nextRoleId ∧ e.id < db.nextEvalId)
    (hec : evalsConsistent env db)
    (hpc : provConsistent env db)
    (hfind : db.objectRoles.find?
      (fun r => r.rdId = rd.id && r.ct = objCt && r.objId = objId) = none)
    (hval : validate_assignment_enabled env (.team tA) objCt
      (rd.perms.any (fun p => p.codename = env.teamPermission)) = .ok ())
    (hMor : dbMid.objectRoles = db.objectRoles ++ [⟨db.nextRoleId, rd.id, objCt, objId⟩])
    (hMue : dbMid.userEdges = db.userEdges)
    (hMte : dbMid.teamEdges = addEdge db.teamEdges tA db.nextRoleId)
    (hMev : dbMid.evals = db.evals ++ added)
    (hMunreg : ∀ x : Nat × Nat, x.2 ∉ env.teams.map (fun y => y.1) →
      (x ∈ dbMid.providesTeams ↔ x ∈ db.providesTeams))
    (hMpt2 : rd.perms.any (fun p => p.codename = env.teamPermission) = false →
      dbMid.providesTeams = db.providesTeams)
    (haddid : ∀ e ∈ added, db.nextEvalId ≤ e.id)
    (haddprov : ∀ e ∈ added, e.roleId = db.nextRoleId ∨ ∃ r ∈ db.objectRoles,
      r.id ∈ team_ancestor_roles env db tA ∧ e.roleId = r.id ∧
      ¬∃ e2 ∈ db.evals, e2.roleId = r.id ∧ evalKey e2 = evalKey e)
    (haddnd : ∀ A : Nat, ((added.filter (fun e => e.roleId = A)).map evalKey).Nodup)
    (hrem : give_or_remove_permission env fuel dbMid rd (.team tA) objCt objId false
      = .ok dbFin) :
    dbFin.evals = db.evals := by
  have hfind2 : dbMid.objectRoles.find?
      (fun r => r.rdId = rd.id && r.ct = objCt && r.objId = objId) =
      some ⟨db.nextRoleId, rd.id, objCt, objId⟩ := by
    rw [hMor, find_append_right _ _ _ hfind]
    simp [List.find?]
  rw [give_or_remove_found env fuel dbMid rd (.team tA) objCt objId
      ⟨db.nextRoleId, rd.id, objCt, objId⟩ false hfind2,
    needed_updates_team_existing env dbMid rd tA ⟨db.nextRoleId, rd.id, objCt, objId⟩
      hval] at hrem
  have hte1 : removeEdge dbMid.teamEdges tA db.nextRoleId = db.teamEdges := by
    rw [hMte]
    exact removeEdge_addEdge db.teamEdges tA db.nextRoleId
      (fun hc => Nat.lt_irrefl db.nextRoleId (hfrT _ hc))
  have hact : roleHasActors
      { dbMid with teamEdges := removeEdge dbMid.teamEdges tA db.nextRoleId }
      db.nextRoleId = false := by
    apply roleHasActors_false_of_fresh
    · intro e he
      have he2 : e ∈ db.userEdges := by
        rw [← hMue]
        exact he
      exact Nat.ne_of_lt (hfrU e he2)
    · intro e he
      have he2 : e ∈ db.teamEdges := by
        rw [← hte1]
        exact he
      exact Nat.ne_of_lt (hfrT e he2)
  have h2 : update_after_assignment fuel env
      (rd.perms.any (fun p => p.codename = env.teamPermission))
      ((if (!false && !roleHasActors
            { dbMid with teamEdges := removeEdge dbMid.teamEdges tA db.nextRoleId }
            db.nextRoleId) = true
        then
          (deleteRoleCascade
            { dbMid with teamEdges := removeEdge dbMid.teamEdges tA db.nextRoleId }
            db.nextRoleId,
           (team_ancestor_roles env dbMid tA ∪
             descendent_roles dbMid db.nextRoleId).erase db.nextRoleId)
        else ({ dbMid with teamEdges := removeEdge dbMid.teamEdges tA db.nextRoleId },
          team_ancestor_roles env dbMid tA ∪ descendent_roles dbMid db.nextRoleId)).2)
      ((if (!false && !roleHasActors
            { dbMid with teamEdges := removeEdge dbMid.teamEdges tA db.nextRoleId }
            db.nextRoleId) = true
        then
          (deleteRoleCascade
            { dbMid with teamEdges := removeEdge dbMid.teamEdges tA db.nextRoleId }
            db.nextRoleId,
           (team_ancestor_roles env dbMid tA ∪
             descendent_roles dbMid db.nextRoleId).erase db.nextRoleId)
        else ({ dbMid with teamEdges := removeEdge dbMid.teamEdges tA db.nextRoleId },
          team_ancestor_roles env dbMid tA ∪ descendent_roles dbMid db.nextRoleId)).1)
      = Except.ok dbFin := hrem
  rw [hact] at h2
  simp only [Bool.not_false, Bool.not_true, Bool.true_and, Bool.and_false, if_true,
    Finset.erase_empty] at h2
  rw [update_after_assignment_eq] at h2
  -- the cascaded state
  have hCor : (deleteRoleCascade
      { dbMid with teamEdges := removeEdge dbMid.teamEdges tA db.nextRoleId }
      db.nextRoleId).objectRoles = db.objectRoles := by
    show dbMid.objectRoles.filter (fun r => r.id ≠ db.nextRoleId) = db.objectRoles
    rw [hMor, List.filter_append]
    have hA : db.objectRoles.filter (fun r => r.id ≠ db.nextRoleId) = db.objectRoles :=
      List.filter_eq_self.mpr (fun r hrr => decide_eq_true (Nat.ne_of_lt (hfrR r hrr)))
    have hB : ([⟨db.nextRoleId, rd.id, objCt, objId⟩] : List ObjRole).filter
        (fun r => r.id ≠ db.nextRoleId) = [] := by simp
    rw [hA, hB, List.append_nil]
  have hCte : (deleteRoleCascade
      { dbMid with teamEdges := removeEdge dbMid.teamEdges tA db.nextRoleId }
      db.nextRoleId).teamEdges = db.teamEdges := by
    show (removeEdge dbMid.teamEdges tA db.nextRoleId).filter
      (fun e => e.2 ≠ db.nextRoleId) = db.teamEdges
    rw [hte1]
    exact List.filter_eq_self.mpr (fun e he => decide_eq_true (Nat.ne_of_lt (hfrT e he)))
  have hCev : (deleteRoleCascade
      { dbMid with teamEdges := removeEdge dbMid.teamEdges tA db.nextRoleId }
      db.nextRoleId).evals = db.evals ++ added.filter (fun e => e.roleId ≠ db.nextRoleId) := by
    show dbMid.evals.filter (fun e => e.roleId ≠ db.nextRoleId) = _
    rw [hMev, List.filter_append]
    have hA : db.evals.filter (fun e => e.roleId ≠ db.nextRoleId) = db.evals :=
      List.filter_eq_self.mpr (fun e he => decide_eq_true (Nat.ne_of_lt (hfrE e he).1))
    rw [hA]
  have hCunreg : ∀ x : Nat × Nat, x.2 ∉ env.teams.map (fun y => y.1) →
      (x ∈ (deleteRoleCascade
        { dbMid with teamEdges := removeEdge dbMid.teamEdges tA db.nextRoleId }
        db.nextRoleId).providesTeams ↔ x ∈ db.providesTeams) := by
    intro x hx
    show x ∈ dbMid.providesTeams.filter (fun e => e.1 ≠ db.nextRoleId) ↔
      x ∈ db.providesTeams
    rw [List.mem_filter]
    constructor
    · rintro ⟨h1, h2⟩
      exact (hMunreg x hx).mp h1
    · intro hxdb
      exact ⟨(hMunreg x hx).mpr hxdb,
        decide_eq_true (Nat.ne_of_lt (hfrP x hxdb))⟩
  -- the fresh rows that survive the cascade
  have haddid2 : ∀ e ∈ added.filter (fun e => e.roleId ≠ db.nextRoleId),
      db.nextEvalId ≤ e.id :=
    fun e he => haddid e (List.mem_filter.mp he).1
  have haddprov2 : ∀ e ∈ added.filter (fun e => e.roleId ≠ db.nextRoleId),
      ∃ r ∈ db.objectRoles, r.id ∈ team_ancestor_roles env db tA ∧ e.roleId = r.id ∧
        ¬∃ e2 ∈ db.evals, e2.roleId = r.id ∧ evalKey e2 = evalKey e := by
    intro e he
    have hm := List.mem_filter.mp he
    rcases haddprov e hm.1 with h | h
    · exfalso
      have h2 := hm.2
      simp [h] at h2
    · exact h
  have haddnd2 : ∀ A : Nat, (((added.filter (fun e => e.roleId ≠ db.nextRoleId)).filter
      (fun e => e.roleId = A)).map evalKey).Nodup := by
    intro A
    apply List.Nodup.sublist ?_ (haddnd A)
    apply List.Sublist.map
    apply List.Sublist.filter
    exact List.filter_sublist added
  have hsub : ∀ x ∈ team_ancestor_roles env db tA,
      x ∈ (team_ancestor_roles env dbMid tA ∪
        descendent_roles dbMid db.nextRoleId).erase db.nextRoleId := by
    intro x hx
    rw [Finset.mem_erase]
    constructor
    · rcases (mem_team_ancestor_roles env db tA x).mp hx with ⟨e, he, h1, h2⟩
      have h3 := (hfrE e he).1
      omega
    · exact Finset.mem_union_left _ (team_ancestor_roles_mono env db dbMid tA
        (fun e2 he2 => by rw [hMev]; exact List.mem_append_left _ he2) x hx)
  cases hb : rd.perms.any (fun p => p.codename = env.teamPermission) with
  | false =>
    rw [hb] at h2
    have h3 : Except.ok (compute_object_role_permissions env
        (deleteRoleCascade
          { dbMid with teamEdges := removeEdge dbMid.teamEdges tA db.nextRoleId }
          db.nextRoleId)
        ((team_ancestor_roles env dbMid tA ∪
          descendent_roles dbMid db.nextRoleId).erase db.nextRoleId)) =
        Except.ok dbFin := h2
    injection h3 with hFin
    rw [← hFin]
    apply c5_remove_cleanup env db
      (deleteRoleCascade
        { dbMid with teamEdges := removeEdge dbMid.teamEdges tA db.nextRoleId }
        db.nextRoleId)
      (team_ancestor_roles env db tA)
      ((team_ancestor_roles env dbMid tA ∪
        descendent_roles dbMid db.nextRoleId).erase db.nextRoleId)
      (added.filter (fun e => e.roleId ≠ db.nextRoleId))
      hidnd (fun e he => (hfrE e he).2) hec hCor hCte hCev ?_ haddid2 haddprov2 haddnd2 hsub
    intro x
    show x ∈ dbMid.providesTeams.filter (fun e => e.1 ≠ db.nextRoleId) ↔
      x ∈ db.providesTeams
    rw [hMpt2 hb, List.mem_filter]
    constructor
    · rintro ⟨h1, h2⟩
      exact h1
    · intro hxdb
      exact ⟨hxdb, decide_eq_true (Nat.ne_of_lt (hfrP x hxdb))⟩
  | true =>
    rw [hb] at h2
    have h3 : (match compute_team_member_roles fuel env
        (deleteRoleCascade
          { dbMid with teamEdges := removeEdge dbMid.teamEdges tA db.nextRoleId }
          db.nextRoleId) with
      | none => (Except.error RbacError.fuelExhausted : Except RbacError Db)
      | some d => Except.ok (compute_object_role_permissions env d
          ((team_ancestor_roles env dbMid tA ∪
            descendent_roles dbMid db.nextRoleId).erase db.nextRoleId)))
      = Except.ok dbFin := h2
    cases hct2 : compute_team_member_roles fuel env
        (deleteRoleCascade
          { dbMid with teamEdges := removeEdge dbMid.teamEdges tA db.nextRoleId }
          db.nextRoleId) with
    | none =>
      rw [hct2] at h3
      exact absurd h3 (by simp)
    | some dbT2 =>
      rw [hct2] at h3
      have h4 : Except.ok (compute_object_role_permissions env dbT2
          ((team_ancestor_roles env dbMid tA ∪
            descendent_roles dbMid db.nextRoleId).erase db.nextRoleId)) =
          Except.ok dbFin := h3
      injection h4 with hFin
      rw [← hFin]
      have hpres := compute_team_member_roles_preserves fuel env _ dbT2 hct2
      have hRiff := ctmr_restores_set fuel env db
        (deleteRoleCascade
          { dbMid with teamEdges := removeEdge dbMid.teamEdges tA db.nextRoleId }
          db.nextRoleId)
        dbT2 hctne hCor hCte hpc hCunreg hct2
      apply c5_remove_cleanup env db dbT2
        (team_ancestor_roles env db tA)
        ((team_ancestor_roles env dbMid tA ∪
          descendent_roles dbMid db.nextRoleId).erase db.nextRoleId)
        (added.filter (fun e => e.roleId ≠ db.nextRoleId))
        hidnd (fun e he => (hfrE e he).2) hec
        (by rw [hpres.1]; exact hCor)
        (by rw [hpres.2.2.1]; exact hCte)
        (by rw [hpres.2.2.2.1]; exact hCev)
        hRiff haddid2 haddprov2 haddnd2 hsub

/-- Round trip, team actor, no pre-existing object role. -/
theorem c5_team_notfound (env : MEnv) (fuel : Nat) (db dbMid dbFin : Db) (rd : RoleDefn)
    (tA objCt objId : Nat)
    (hctne : env.teamCt ≠ env.orgCt)
    (hidnd : (db.objectRoles.map (fun r => r.id)).Nodup)
    (hfrR : ∀ r ∈ db.objectRoles, r.id < db.nextRoleId)
    (hfrU : ∀ e ∈ db.userEdges, e.2 < db.nextRoleId)
    (hfrT : ∀ e ∈ db.teamEdges, e.2 < db.nextRoleId)
    (hfrP : ∀ e ∈ db.providesTeams, e.1 < db.nextRoleId)
    (hfrE : ∀ e ∈ db.evals, e.roleId < db.nextRoleId ∧ e.id < db.nextEvalId)
    (hec : evalsConsistent env db)
    (hpc : provConsistent env db)
    (hfind : db.objectRoles.find?
      (fun r => r.rdId = rd.id && r.ct = objCt && r.objId = objId) = none)
    (hgive : give_or_remove_permission env fuel db rd (.team tA) objCt objId true = .ok dbMid)
    (hrem : give_or_remove_permission env fuel dbMid rd (.team tA) objCt objId false
      = .ok dbFin) :
    dbFin.evals = db.evals := by
  cases hv : validate_assignment_enabled env (.team tA) objCt
      (rd.perms.any (fun p => p.codename = env.teamPermission)) with
  | error err =>
    rw [give_or_remove_notfound_give env fuel db rd (.team tA) objCt objId hfind,
      needed_updates_error env
        { db with objectRoles := db.objectRoles ++ [⟨db.nextRoleId, rd.id, objCt, objId⟩],
                  nextRoleId := db.nextRoleId + 1 }
        rd (.team tA) ⟨db.nextRoleId, rd.id, objCt, objId⟩ true true err hv] at hgive
    simp [Except.bind] at hgive
  | ok u0 =>
    cases u0
    rw [give_or_remove_notfound_give env fuel db rd (.team tA) objCt objId hfind,
      needed_updates_team_created env
        { db with objectRoles := db.objectRoles ++ [⟨db.nextRoleId, rd.id, objCt, objId⟩],
                  nextRoleId := db.nextRoleId + 1 }
        rd tA ⟨db.nextRoleId, rd.id, objCt, objId⟩ hv] at hgive
    have hdesc : descendent_roles
        { db with objectRoles := db.objectRoles ++ [⟨db.nextRoleId, rd.id, objCt, objId⟩],
                  nextRoleId := db.nextRoleId + 1 }
        (⟨db.nextRoleId, rd.id, objCt, objId⟩ : ObjRole).id = ∅ := by
      apply descendent_roles_empty
      intro e he
      exact Nat.ne_of_lt (hfrP e he)
    rw [hdesc, Finset.union_empty] at hgive
    have hidnd2 : ((db.objectRoles ++ [(⟨db.nextRoleId, rd.id, objCt, objId⟩ : ObjRole)]).map
        (fun r => r.id)).Nodup := by
      rw [List.map_append]
      apply List.Nodup.append hidnd (by simp)
      intro a ha hb2
      rcases List.mem_map.mp ha with ⟨r, hr, hra⟩
      have h5 : a = db.nextRoleId := by simpa using hb2
      have h6 := hfrR r hr
      omega
    have hnodelB : ∀ (dbG : Db),
        dbG.objectRoles = db.objectRoles ++ [⟨db.nextRoleId, rd.id, objCt, objId⟩] →
        dbG.evals = db.evals →
        (∀ x ∈ db.providesTeams, x ∈ dbG.providesTeams) →
        (∀ x ∈ db.teamEdges, x ∈ dbG.teamEdges) →
        ∀ r ∈ dbG.objectRoles,
          r.id ∈ ({(⟨db.nextRoleId, rd.id, objCt, objId⟩ : ObjRole).id} : Finset Nat) ∪
            team_ancestor_roles env
              { db with
                  objectRoles := db.objectRoles ++ [⟨db.nextRoleId, rd.id, objCt, objId⟩],
                  nextRoleId := db.nextRoleId + 1 } tA →
          ∀ e ∈ dbG.evals, e.roleId = r.id → evalKey e ∈ expectedOf env dbG r := by
      intro dbG hor hev hpt hte r hr hrs e he hrid
      rw [hor] at hr
      rw [hev] at he
      rcases List.mem_append.mp hr with hrdb | hrR
      · have h1 : evalKey e ∈ roleKeys db r.id :=
          (mem_roleKeys db r.id (evalKey e)).mpr ⟨e, he, hrid, rfl⟩
        have h2 : evalKey e ∈ expectedOf env db r := (hec r hrdb (evalKey e)).mp h1
        refine mem_expectedOf_mono env db dbG r hpt hte ?_ (evalKey e) h2
        intro rid tr hf
        rw [hor]
        exact find_append_some _ _ _ _ hf
      · exfalso
        have h1 : r = ⟨db.nextRoleId, rd.id, objCt, objId⟩ := List.mem_singleton.mp hrR
        have h2 := (hfrE e he).1
        rw [hrid, h1] at h2
        exact Nat.lt_irrefl _ h2
    have haddprovB : ∀ (dbG : Db),
        dbG.objectRoles = db.objectRoles ++ [⟨db.nextRoleId, rd.id, objCt, objId⟩] →
        dbG.evals = db.evals →
        ∀ e ∈ rowsFromAux db.nextEvalId (corpAdds env dbG
          (({(⟨db.nextRoleId, rd.id, objCt, objId⟩ : ObjRole).id} : Finset Nat) ∪
            team_ancestor_roles env
              { db with
                  objectRoles := db.objectRoles ++ [⟨db.nextRoleId, rd.id, objCt, objId⟩],
                  nextRoleId := db.nextRoleId + 1 } tA)),
          e.roleId = db.nextRoleId ∨ ∃ r ∈ db.objectRoles,
            r.id ∈ team_ancestor_roles env db tA ∧ e.roleId = r.id ∧
            ¬∃ e2 ∈ db.evals, e2.roleId = r.id ∧ evalKey e2 = evalKey e := by
      intro dbG hor hev e he
      rcases mem_rowsFromAux _ _ e he with ⟨p, hp, h1, h2⟩
      rcases mem_corpAdds env dbG _ p hp with ⟨r, hr, hrs, h3, h4⟩
      rw [hor] at hr
      rcases Finset.mem_union.mp hrs with hrs | hrs
      · exact Or.inl (by rw [h1, h3, Finset.mem_singleton.mp hrs])
      · rcases List.mem_append.mp hr with hrdb | hrR
        · refine Or.inr ⟨r, hrdb, hrs, by rw [h1, h3], ?_⟩
          rintro ⟨e2, he2, ha, hb2⟩
          have hnc := ((ncu_add_facts env dbG r).1 p.2 h4).2
          apply hnc
          refine ⟨e2, ?_, ha, by rw [hb2, h2]⟩
          rw [hev]
          exact he2
        · exact Or.inl (by rw [h1, h3, List.mem_singleton.mp hrR])
    have haddndB : ∀ (dbG : Db),
        dbG.objectRoles = db.objectRoles ++ [⟨db.nextRoleId, rd.id, objCt, objId⟩] →
        ∀ A : Nat, (((rowsFromAux db.nextEvalId (corpAdds env dbG
          (({(⟨db.nextRoleId, rd.id, objCt, objId⟩ : ObjRole).id} : Finset Nat) ∪
            team_ancestor_roles env
              { db with
                  objectRoles := db.objectRoles ++ [⟨db.nextRoleId, rd.id, objCt, objId⟩],
                  nextRoleId := db.nextRoleId + 1 } tA))).filter
            (fun e => e.roleId = A)).map evalKey).Nodup := by
      intro dbG hor A
      rw [rowsFromAux_filter_roleId]
      apply corpAdds_keys_nodup
      rw [hor]
      exact hidnd2
    cases hb : rd.perms.any (fun p => p.codename = env.teamPermission) with
    | false =>
      rw [hb] at hgive
      have hg3 : Except.ok (compute_object_role_permissions env
          { db with objectRoles := db.objectRoles ++ [⟨db.nextRoleId, rd.id, objCt, objId⟩],
                    nextRoleId := db.nextRoleId + 1,
                    teamEdges := addEdge db.teamEdges tA db.nextRoleId }
          (({(⟨db.nextRoleId, rd.id, objCt, objId⟩ : ObjRole).id} : Finset Nat) ∪
            team_ancestor_roles env
              { db with
                  objectRoles := db.objectRoles ++ [⟨db.nextRoleId, rd.id, objCt, objId⟩],
                  nextRoleId := db.nextRoleId + 1 } tA)) =
          Except.ok dbMid := hgive
      injection hg3 with hdbMid
      refine c5_team_notfound_remove env fuel db dbMid dbFin rd tA objCt objId
        (rowsFromAux db.nextEvalId (corpAdds env
          { db with objectRoles := db.objectRoles ++ [⟨db.nextRoleId, rd.id, objCt, objId⟩],
                    nextRoleId := db.nextRoleId + 1,
                    teamEdges := addEdge db.teamEdges tA db.nextRoleId }
          (({(⟨db.nextRoleId, rd.id, objCt, objId⟩ : ObjRole).id} : Finset Nat) ∪
            team_ancestor_roles env
              { db with
                  objectRoles := db.objectRoles ++ [⟨db.nextRoleId, rd.id, objCt, objId⟩],
                  nextRoleId := db.nextRoleId + 1 } tA)))
        hctne hidnd hfrR hfrU hfrT hfrP hfrE hec hpc hfind hv
        (by rw [← hdbMid]; rfl) (by rw [← hdbMid]; rfl) (by rw [← hdbMid]; rfl)
        ?_ (fun x hx => by rw [← hdbMid]; rfl)
        (fun hbe => by rw [← hdbMid]; rfl)
        (fun e he => rowsFromAux_id_ge _ db.nextEvalId e he)
        (haddprovB _ rfl rfl) (haddndB _ rfl) hrem
      rw [← hdbMid]
      rw [corp_extends env
        { db with objectRoles := db.objectRoles ++ [⟨db.nextRoleId, rd.id, objCt, objId⟩],
                  nextRoleId := db.nextRoleId + 1,
                  teamEdges := addEdge db.teamEdges tA db.nextRoleId }
        (({(⟨db.nextRoleId, rd.id, objCt, objId⟩ : ObjRole).id} : Finset Nat) ∪
          team_ancestor_roles env
            { db with
                objectRoles := db.objectRoles ++ [⟨db.nextRoleId, rd.id, objCt, objId⟩],
                nextRoleId := db.nextRoleId + 1 } tA)
        (hnodelB _ rfl rfl (fun x hx => hx)
          (fun x hx => (mem_addEdge db.teamEdges tA db.nextRoleId x).mpr (Or.inl hx)))]
    | true =>
      rw [hb] at hgive
      have hg2 : update_after_assignment fuel env true
          (({(⟨db.nextRoleId, rd.id, objCt, objId⟩ : ObjRole).id} : Finset Nat) ∪
            team_ancestor_roles env
              { db with
                  objectRoles := db.objectRoles ++ [⟨db.nextRoleId, rd.id, objCt, objId⟩],
                  nextRoleId := db.nextRoleId + 1 } tA)
          { db with objectRoles := db.objectRoles ++ [⟨db.nextRoleId, rd.id, objCt, objId⟩],
                    nextRoleId := db.nextRoleId + 1,
                    teamEdges := addEdge db.teamEdges tA db.nextRoleId }
          = Except.ok dbMid := hgive
      rw [update_after_assignment_eq] at hg2
      have hg3 : (match compute_team_member_roles fuel env
          { db with objectRoles := db.objectRoles ++ [⟨db.nextRoleId, rd.id, objCt, objId⟩],
                    nextRoleId := db.nextRoleId + 1,
                    teamEdges := addEdge db.teamEdges tA db.nextRoleId } with
        | none => (Except.error RbacError.fuelExhausted : Except RbacError Db)
        | some d => Except.ok (compute_object_role_permissions env d
            (({(⟨db.nextRoleId, rd.id, objCt, objId⟩ : ObjRole).id} : Finset Nat) ∪
              team_ancestor_roles env
                { db with
                    objectRoles := db.objectRoles ++ [⟨db.nextRoleId, rd.id, objCt, objId⟩],
                    nextRoleId := db.nextRoleId + 1 } tA)))
        = Except.ok dbMid := hg2
      cases hct : compute_team_member_roles fuel env
          { db with objectRoles := db.objectRoles ++ [⟨db.nextRoleId, rd.id, objCt, objId⟩],
                    nextRoleId := db.nextRoleId + 1,
                    teamEdges := addEdge db.teamEdges tA db.nextRoleId } with
      | none =>
        rw [hct] at hg3
        exact absurd hg3 (by simp)
      | some dbT =>
        rw [hct] at hg3
        have hg4 : Except.ok (compute_object_role_permissions env dbT
            (({(⟨db.nextRoleId, rd.id, objCt, objId⟩ : ObjRole).id} : Finset Nat) ∪
              team_ancestor_roles env
                { db with
                    objectRoles := db.objectRoles ++ [⟨db.nextRoleId, rd.id, objCt, objId⟩],
                    nextRoleId := db.nextRoleId + 1 } tA)) =
            Except.ok dbMid := hg3
        injection hg4 with hdbMid
        have hpres := compute_team_member_roles_preserves fuel env _ dbT hct
        have hTunreg : ∀ x : Nat × Nat, x.2 ∉ env.teams.map (fun y => y.1) →
            (x ∈ dbT.providesTeams ↔ x ∈ db.providesTeams) := by
          rintro ⟨r0, t0⟩ hx
          rw [compute_team_member_roles_provides_char fuel env
            { db with objectRoles := db.objectRoles ++ [⟨db.nextRoleId, rd.id, objCt, objId⟩],
                      nextRoleId := db.nextRoleId + 1,
                      teamEdges := addEdge db.teamEdges tA db.nextRoleId } dbT hctne hct r0 t0]
          rw [if_neg hx]
        refine c5_team_notfound_remove env fuel db dbMid dbFin rd tA objCt objId
          (rowsFromAux db.nextEvalId (corpAdds env dbT
            (({(⟨db.nextRoleId, rd.id, objCt, objId⟩ : ObjRole).id} : Finset Nat) ∪
              team_ancestor_roles env
                { db with
                    objectRoles := db.objectRoles ++ [⟨db.nextRoleId, rd.id, objCt, objId⟩],
                    nextRoleId := db.nextRoleId + 1 } tA)))
          hctne hidnd hfrR hfrU hfrT hfrP hfrE hec hpc hfind hv
          (by rw [← hdbMid, (compute_object_role_permissions_fields env dbT _).1, hpres.1])
          (by rw [← hdbMid, (compute_object_role_permissions_fields env dbT _).2.1,
            hpres.2.1])
          (by rw [← hdbMid, (compute_object_role_permissions_fields env dbT _).2.2.1,
            hpres.2.2.1])
          ?_
          (fun x hx => by
            rw [← hdbMid, (compute_object_role_permissions_fields env dbT _).2.2.2.1]
            exact hTunreg x hx)
          (fun hbe => by rw [hb] at hbe; simp at hbe)
          (fun e he => rowsFromAux_id_ge _ db.nextEvalId e he)
          (haddprovB dbT hpres.1 hpres.2.2.2.1) (haddndB dbT hpres.1) hrem
        rw [← hdbMid]
        rw [corp_extends env dbT
          (({(⟨db.nextRoleId, rd.id, objCt, objId⟩ : ObjRole).id} : Finset Nat) ∪
            team_ancestor_roles env
              { db with
                  objectRoles := db.objectRoles ++ [⟨db.nextRoleId, rd.id, objCt, objId⟩],
                  nextRoleId := db.nextRoleId + 1 } tA)
          (hnodelB dbT hpres.1 hpres.2.2.2.1
            (fun x hx => by
              apply ctmr_provides_mono fuel env db
                { db with
                  objectRoles := db.objectRoles ++ [⟨db.nextRoleId, rd.id, objCt, objId⟩],
                  nextRoleId := db.nextRoleId + 1,
                  teamEdges := addEdge db.teamEdges tA db.nextRoleId } dbT hctne hpc
                (fun y hy => List.mem_append_left _ hy)
                (fun y hy => (mem_addEdge db.teamEdges tA db.nextRoleId y).mpr (Or.inl hy))
                rfl hct x hx)
            (fun x hx => by
              rw [hpres.2.2.1]
              exact (mem_addEdge db.teamEdges tA db.nextRoleId x).mpr (Or.inl hx)))]
        rw [hpres.2.2.2.1, hpres.2.2.2.2.2]

/-- **C5.** For every role definition `rd`, actor `a` (user or team), and
object `o` such that `a` does not already hold `rd` on `o` — whether or not
other actors already share an object role for `(rd, o)`, and whether or not
`rd` carries `member_team` — executing `rd.give_permission(a, o)` followed by
`rd.remove_permission(a, o)` (each returning successfully) leaves the
evaluation-tuple cache bit-for-bit equal to its initial state.  Quantified
over the well-formed configurations of the spec: distinct team and
organization content types, repetition-free object-role ids, auto-increment
counters above every stored id, no object role without actors, and the two
computed caches (`RoleEvaluation` rows and `provides_teams`) consistent with
the stored assignments. -/
theorem give_then_remove_restores_evals (env : MEnv) (fuel : Nat) (db dbMid dbFin : Db)
    (rd : RoleDefn) (actor : Actor) (objCt objId : Nat)
    (hctne : env.teamCt ≠ env.orgCt)
    (hidnd : (db.objectRoles.map (fun r => r.id)).Nodup)
    (hfrR : ∀ r ∈ db.objectRoles, r.id < db.nextRoleId)
    (hfrU : ∀ e ∈ db.userEdges, e.2 < db.nextRoleId)
    (hfrT : ∀ e ∈ db.teamEdges, e.2 < db.nextRoleId)
    (hfrP : ∀ e ∈ db.providesTeams, e.1 < db.nextRoleId)
    (hfrE : ∀ e ∈ db.evals, e.roleId < db.nextRoleId ∧ e.id < db.nextEvalId)
    (hW5 : ∀ r ∈ db.objectRoles, roleHasActors db r.id = true)
    (hec : evalsConsistent env db)
    (hpc : provConsistent env db)
    (hnh : actorHolds db actor rd.id objCt objId = false)
    (hgive : give_permission env fuel db rd actor objCt objId = Except.ok dbMid)
    (hrem : remove_permission env fuel dbMid rd actor objCt objId = Except.ok dbFin) :
    dbFin.evals = db.evals := by
  unfold give_permission at hgive
  unfold remove_permission at hrem
  cases hfind : db.objectRoles.find?
      (fun r => r.rdId = rd.id && r.ct = objCt && r.objId = objId) with
  | some role0 =>
    cases actor with
    | user u =>
      exact c5_user_found env fuel db dbMid dbFin rd u objCt objId role0 hfind hW5
        (actorHolds_user_edge db u rd.id objCt objId role0 hfind hnh) hgive hrem
    | team t =>
      exact c5_team_found env fuel db dbMid dbFin rd t objCt objId role0 hctne hidnd
        (fun e he => (hfrE e he).2) hW5 hec hpc hfind
        (actorHolds_team_edge db t rd.id objCt objId role0 hfind hnh) hgive hrem
  | none =>
    cases actor with
    | user u =>
      exact c5_user_notfound env fuel db dbMid dbFin rd u objCt objId hfind hfrU hfrT
        hfrP (fun e he => (hfrE e he).1) hgive hrem
    | team t =>
      exact c5_team_notfound env fuel db dbMid dbFin rd t objCt objId hctne hidnd hfrR
        hfrU hfrT hfrP hfrE hec hpc hfind hgive hrem

/-- Witness for **C5**: the seed scenario executed concretely — user 50 is
given the organization role on organization 10, then it is removed; the
evaluation table returns to its initial (empty) state. -/
theorem give_then_remove_restores_evals_witness :
    ∃ dbMid dbFin : Db,
      give_permission envC7 1 dbC7 rdC7 (.user 50) 6 10 = Except.ok dbMid ∧
      remove_permission envC7 1 dbMid rdC7 (.user 50) 6 10 = Except.ok dbFin ∧
      dbFin.evals = dbC7.evals := by
  refine ⟨_, _, rfl, rfl, ?_⟩
  exact give_then_remove_restores_evals envC7 1 dbC7 _ _ rdC7 (.user 50) 6 10
    (by decide)
    (by simp [dbC7])
    (fun r hr => absurd hr (List.not_mem_nil r))
    (fun e he => absurd he (List.not_mem_nil e))
    (fun e he => absurd he (List.not_mem_nil e))
    (fun e he => absurd he (List.not_mem_nil e))
    (fun e he => absurd he (List.not_mem_nil e))
    (fun r hr => absurd hr (List.not_mem_nil r))
    (fun A hA => absurd hA (List.not_mem_nil A))
    (fun r t ht => absurd ht (by simp [envC7]))
    rfl rfl rfl
